import Mathlib

/-!
# Verification of the pgfs tree synchronizer

A shallow embedding of `pgfs.py`: the script mirrors a PostgreSQL catalog
(databases → schemas → tables) into an on-disk tree of directories and hard
links under a destination root.  The filesystem is modelled as a finite map
from paths (lists of name components) to nodes carrying a kind
(directory/regular file), a device id and an inode number.  Every filesystem
primitive the script invokes (`os.makedirs`, `os.link`, `os.unlink`,
`shutil.rmtree`, `os.scandir`, `os.stat`, `open`/`touch`, `fcntl.lockf`) is
given an explicit small-step semantics returning the possibly-failing result,
the new filesystem and a trace of mutation events, and the script's functions
(`same_inode`, `_write_tree`, `write_tree`, `touch`, `lock_file`,
`get_schemas`, `get_databases`) are translated on top of them.
-/

set_option autoImplicit false

namespace Pgfs

/-- A filesystem path, as its list of name components. -/
abbrev Path := List String

/-- Kind of a filesystem node: directory or regular file. -/
inductive NodeKind where
  | dir
  | file
deriving DecidableEq, Repr

/-- A filesystem node: its kind, the device (volume) it lives on and its
inode number.  Two paths that are hard links to the same object carry the
same node. -/
structure Node where
  kind : NodeKind
  dev : Nat
  ino : Nat
deriving DecidableEq, Repr

/-- The filesystem state: an association list from paths to nodes, plus a
counter used to hand out fresh inode numbers on creation. -/
structure FS where
  entries : List (Path × Node)
  nextIno : Nat
deriving DecidableEq, Repr

/-- Nodes are inhabited. -/
instance : Inhabited Node := ⟨⟨NodeKind.dir, 0, 0⟩⟩

/-- First entry of the association list at the given path. -/
def findE : List (Path × Node) → Path → Option Node
  | [], _ => none
  | e :: l, p => if e.1 = p then some e.2 else findE l p

/-- Drop every entry whose path is `p`. -/
def eraseKey (p : Path) : List (Path × Node) → List (Path × Node)
  | [] => []
  | e :: l => if e.1 = p then eraseKey p l else e :: eraseKey p l

/-- Look up the node stored at a path. -/
def FS.find (fs : FS) (p : Path) : Option Node :=
  findE fs.entries p

/-- Store a node at a path, replacing whatever was there. -/
def FS.set (fs : FS) (p : Path) (n : Node) : FS :=
  ⟨(p, n) :: eraseKey p fs.entries, fs.nextIno⟩

/-- Remove the single entry at a path. -/
def FS.del (fs : FS) (p : Path) : FS :=
  ⟨eraseKey p fs.entries, fs.nextIno⟩

/-- `isUnder base q` holds when `q` lies in the subtree rooted at `base`
(including `q = base`): `base` is a prefix of `q`. -/
def isUnder : Path → Path → Bool
  | [], _ => true
  | _ :: _, [] => false
  | a :: as, b :: bs => decide (a = b) && isUnder as bs

/-- Drop every entry whose path lies in the subtree rooted at `p`. -/
def delTreeE (p : Path) : List (Path × Node) → List (Path × Node)
  | [] => []
  | e :: l => if isUnder p e.1 then delTreeE p l else e :: delTreeE p l

/-- Remove a whole subtree: the entry at `p` and every entry below it. -/
def FS.delTree (fs : FS) (p : Path) : FS :=
  ⟨delTreeE p fs.entries, fs.nextIno⟩

/-- `childOf base q = some s` exactly when `q = base ++ [s]`. -/
def childOf : Path → Path → Option String
  | [], [s] => some s
  | a :: as, b :: bs => if a = b then childOf as bs else none
  | _, _ => none

/-- Names of the immediate children of a directory (the listing an
`os.scandir`/`os.listdir` call returns), without duplicates. -/
def FS.childNames (fs : FS) (p : Path) : List String :=
  (fs.entries.filterMap (fun e => childOf p e.1)).dedup

/-- Does a directory exist at the path? (`os.path.isdir`). -/
def FS.isdir (fs : FS) (p : Path) : Bool :=
  match fs.find p with
  | some n => n.kind = NodeKind.dir
  | none => false

/-- Does a regular file exist at the path? (`os.path.isfile`). -/
def FS.isfile (fs : FS) (p : Path) : Bool :=
  match fs.find p with
  | some n => n.kind = NodeKind.file
  | none => false

/-- Create a fresh node (new inode number) at a path. -/
def FS.addFresh (fs : FS) (p : Path) (k : NodeKind) (dev : Nat) : FS :=
  ⟨(p, ⟨k, dev, fs.nextIno⟩) :: eraseKey p fs.entries, fs.nextIno + 1⟩

/-! ## Errors and events -/

/-- Filesystem errors, mirroring the OS exceptions the script can encounter:
`FileExistsError` (EEXIST), `FileNotFoundError` (ENOENT),
`NotADirectoryError` (ENOTDIR), `IsADirectoryError` (EISDIR),
`OSError` EXDEV for cross-device links and EPERM for hard-linking a
directory. -/
inductive Err where
  | fileExists (p : Path)
  | fileNotFound (p : Path)
  | notADirectory (p : Path)
  | isADirectory (p : Path)
  | crossDevice (src dst : Path)
  | notPermitted (p : Path)
deriving DecidableEq, Repr

/-- Observable filesystem mutations and lock transitions of a run. -/
inductive Ev where
  | mkdirE (p : Path)
  | touchE (p : Path)
  | linkE (src dst : Path)
  | unlinkE (p : Path)
  | rmtreeE (p : Path)
  | lockE (p : Path)
  | unlockE (p : Path)
deriving DecidableEq, Repr

/-- Is the event a mutation of the filesystem (rather than a lock
transition)? -/
def Ev.isMut : Ev → Bool
  | .mkdirE _ | .touchE _ | .linkE _ _ | .unlinkE _ | .rmtreeE _ => true
  | .lockE _ | .unlockE _ => false

/-- Is the event the acquisition of the lock? -/
def Ev.isLock : Ev → Bool
  | .lockE _ => true
  | _ => false

/-- Is the event a directory or sentinel creation (the only mutations the
caller performs while bootstrapping a fresh root)? -/
def Ev.isMkdirOrTouch : Ev → Bool
  | .mkdirE _ | .touchE _ => true
  | _ => false

/-- Result of a stateful step: outcome, final filesystem, event trace.
Python exceptions abort the run but leave already-applied mutations in
place, so errors still carry the state and trace at the failure point. -/
abbrev Res (α : Type) := Except Err α × FS × List Ev

/-! ## Primitive operations (OS semantics) -/

/-- `os.link(src, dst)`.  The kernel resolves the source first (ENOENT),
then the destination parent and the destination itself (ENOENT/ENOTDIR/
EEXIST), then rejects cross-device links (EXDEV) and directory sources
(EPERM); on success the destination becomes a second name for the source
node. -/
def os_link (fs : FS) (src dst : Path) : Res Unit :=
  match fs.find src with
  | none => (.error (.fileNotFound src), fs, [])
  | some ns =>
    match fs.find dst.dropLast with
    | none => (.error (.fileNotFound dst), fs, [])
    | some np =>
      if np.kind ≠ NodeKind.dir then (.error (.notADirectory dst), fs, [])
      else if (fs.find dst).isSome then (.error (.fileExists dst), fs, [])
      else if np.dev ≠ ns.dev then (.error (.crossDevice src dst), fs, [])
      else if ns.kind ≠ NodeKind.file then (.error (.notPermitted src), fs, [])
      else (.ok (), fs.set dst ns, [.linkE src dst])

/-- `os.unlink(p)`: remove a single non-directory entry. -/
def os_unlink (fs : FS) (p : Path) : Res Unit :=
  match fs.find p with
  | none => (.error (.fileNotFound p), fs, [])
  | some n =>
    if n.kind = NodeKind.dir then (.error (.isADirectory p), fs, [])
    else (.ok (), fs.del p, [.unlinkE p])

/-- `shutil.rmtree(p)`: recursively remove a directory subtree as a unit. -/
def os_rmtree (fs : FS) (p : Path) : Res Unit :=
  match fs.find p with
  | none => (.error (.fileNotFound p), fs, [])
  | some n =>
    if n.kind = NodeKind.dir then (.ok (), fs.delTree p, [.rmtreeE p])
    else (.error (.notADirectory p), fs, [])

/-- `os.mkdir(p)`: create a single directory inside an existing parent
directory, on the parent's device. -/
def os_mkdir (fs : FS) (p : Path) : Res Unit :=
  match fs.find p with
  | some _ => (.error (.fileExists p), fs, [])
  | none =>
    match p with
    | [] => (.ok (), fs.addFresh [] NodeKind.dir 0, [.mkdirE []])
    | _ :: _ =>
      match fs.find p.dropLast with
      | none => (.error (.fileNotFound p), fs, [])
      | some np =>
        if np.kind = NodeKind.dir then
          (.ok (), fs.addFresh p NodeKind.dir np.dev, [.mkdirE p])
        else (.error (.notADirectory p), fs, [])

/-- The recursion of `os.makedirs(p, exist_ok=True)`, spelt with an
explicit recursion-depth bound (the recursion walks up the ancestor chain,
so any `fuel > p.length` yields the same result): an existing directory at
`p` is fine, an existing non-directory is an error, otherwise the missing
ancestors are created first and then `p` itself. -/
def makedirsFuel (fs : FS) (p : Path) : Nat → Res Unit
  | 0 => (.error (.fileNotFound p), fs, [])
  | fuel + 1 =>
    match fs.find p with
    | some n =>
      if n.kind = NodeKind.dir then (.ok (), fs, [])
      else (.error (.fileExists p), fs, [])
    | none =>
      match p with
      | [] => (.ok (), fs.addFresh [] NodeKind.dir 0, [.mkdirE []])
      | a :: as =>
        if (fs.find (a :: as).dropLast).isSome then os_mkdir fs (a :: as)
        else
          match makedirsFuel fs (a :: as).dropLast fuel with
          | (.error e, fs', tr) => (.error e, fs', tr)
          | (.ok _, fs', tr) =>
            match os_mkdir fs' (a :: as) with
            | (r, fs'', tr') => (r, fs'', tr ++ tr')

/-- `os.makedirs(p, exist_ok=True)`. -/
def os_makedirs (fs : FS) (p : Path) : Res Unit :=
  makedirsFuel fs p (p.length + 1)

/-- `os.scandir(p)` / `os.listdir(p)`: list the names inside a directory. -/
def os_scandir (fs : FS) (p : Path) : Except Err (List String) :=
  match fs.find p with
  | none => .error (.fileNotFound p)
  | some n =>
    if n.kind = NodeKind.dir then .ok (fs.childNames p)
    else .error (.notADirectory p)

/-- `touch(filename, excl)` from the script: `os.close(os.open(filename,
O_CREAT [| O_EXCL]))`.  With `excl` an existing entry is an error; the file
is created empty in the parent directory. -/
def touch (fs : FS) (p : Path) (excl : Bool) : Res Unit :=
  match fs.find p with
  | some _ =>
    if excl then (.error (.fileExists p), fs, []) else (.ok (), fs, [])
  | none =>
    match fs.find p.dropLast with
    | none => (.error (.fileNotFound p), fs, [])
    | some np =>
      if np.kind = NodeKind.dir then
        (.ok (), fs.addFresh p NodeKind.file np.dev, [.touchE p])
      else (.error (.notADirectory p), fs, [])

/-! ## The catalog data model (classes `Database`, `Schema`, `Table`) -/

/-- `class Table`: a table's name and its `relfilenode` storage locator. -/
structure Table where
  name : String
  relfilenode : Nat
deriving DecidableEq, Repr

/-- `class Schema`: oid, name and owned tables. -/
structure Schema where
  oid : Nat
  name : String
  tables : List Table
deriving DecidableEq, Repr

/-- `class Database`: oid, name and owned schemas. -/
structure Database where
  oid : Nat
  name : String
  schemas : List Schema
deriving DecidableEq, Repr

/-- `{ x.name : x for x in xs }`: a Python dict comprehension keyed by name,
where a later element with the same key overwrites an earlier one; `get`
hence returns the last element carrying the name. -/
def dictLast {α : Type} (key : α → String) : List α → String → Option α
  | [], _ => none
  | x :: xs, s =>
    match dictLast key xs s with
    | some y => some y
    | none => if key x = s then some x else none

/-- The resolved backing file of a table:
`os.path.join(pgroot, "base", "%d" % db.oid, "%d" % t.relfilenode)`. -/
def srcPath (pgroot : Path) (dbOid : Nat) (t : Table) : Path :=
  pgroot ++ ["base", toString dbOid, toString t.relfilenode]

/-- `same_inode(f1, f2)`: compare the inode numbers (`st_ino` only — the
device ids are ignored) of the two paths; `os.stat` fails on a missing
path. -/
def same_inode (fs : FS) (f1 f2 : Path) : Except Err Bool :=
  match fs.find f1 with
  | none => .error (.fileNotFound f1)
  | some n1 =>
    match fs.find f2 with
    | none => .error (.fileNotFound f2)
    | some n2 => .ok (decide (n1.ino = n2.ino))

/-! ## The forward pass of `_write_tree` -/

/-- One table of the forward pass: try `os.link(src_file, dest_file)`;
on `FileExistsError` check `same_inode` and either leave the entry in
place or `os.unlink` it and link again. -/
def linkTable (pgroot : Path) (dbOid : Nat) (schDir : Path) (t : Table)
    (fs : FS) : Res Unit :=
  match os_link fs (srcPath pgroot dbOid t) (schDir ++ [t.name]) with
  | (.ok _, fs', tr) => (.ok (), fs', tr)
  | (.error (.fileExists _), _, _) =>
    match same_inode fs (srcPath pgroot dbOid t) (schDir ++ [t.name]) with
    | .error e => (.error e, fs, [])
    | .ok b =>
      if b then (.ok (), fs, [])
      else
        match os_unlink fs (schDir ++ [t.name]) with
        | (.error e, fs', tr) => (.error e, fs', tr)
        | (.ok _, fs', tr) =>
          match os_link fs' (srcPath pgroot dbOid t) (schDir ++ [t.name]) with
          | (r, fs'', tr') => (r, fs'', tr ++ tr')
  | (.error e, fs', tr) => (.error e, fs', tr)

/-- Forward pass over the tables of one schema. -/
def forwardTables (pgroot : Path) (dbOid : Nat) (schDir : Path) :
    List Table → FS → Res Unit
  | [], fs => (.ok (), fs, [])
  | t :: ts, fs =>
    match linkTable pgroot dbOid schDir t fs with
    | (.error e, fs', tr) => (.error e, fs', tr)
    | (.ok _, fs', tr) =>
      match forwardTables pgroot dbOid schDir ts fs' with
      | (r, fs'', tr') => (r, fs'', tr ++ tr')

/-- Forward pass over the schemas of one database: ensure each schema
directory exists, then link its tables. -/
def forwardSchemas (pgroot : Path) (dbOid : Nat) (dbDir : Path) :
    List Schema → FS → Res Unit
  | [], fs => (.ok (), fs, [])
  | sch :: schs, fs =>
    match os_makedirs fs (dbDir ++ [sch.name]) with
    | (.error e, fs', tr) => (.error e, fs', tr)
    | (.ok _, fs₁, tr₁) =>
      match forwardTables pgroot dbOid (dbDir ++ [sch.name]) sch.tables fs₁ with
      | (.error e, fs₂, tr₂) => (.error e, fs₂, tr₁ ++ tr₂)
      | (.ok _, fs₂, tr₂) =>
        match forwardSchemas pgroot dbOid dbDir schs fs₂ with
        | (r, fs₃, tr₃) => (r, fs₃, tr₁ ++ tr₂ ++ tr₃)

/-- Forward pass over all databases: ensure each database directory exists,
then handle its schemas. -/
def forwardDbs (pgroot destroot : Path) : List Database → FS → Res Unit
  | [], fs => (.ok (), fs, [])
  | db :: dbs, fs =>
    match os_makedirs fs (destroot ++ [db.name]) with
    | (.error e, fs', tr) => (.error e, fs', tr)
    | (.ok _, fs₁, tr₁) =>
      match forwardSchemas pgroot db.oid (destroot ++ [db.name]) db.schemas fs₁ with
      | (.error e, fs₂, tr₂) => (.error e, fs₂, tr₁ ++ tr₂)
      | (.ok _, fs₂, tr₂) =>
        match forwardDbs pgroot destroot dbs fs₂ with
        | (r, fs₃, tr₃) => (r, fs₃, tr₁ ++ tr₂ ++ tr₃)

/-! ## The pruning pass of `_write_tree` -/

/-- Prune the entries of a retained schema directory: unlink every listed
name that is not a table name of the schema. -/
def pruneTables (tables : List Table) (schDir : Path) :
    List String → FS → Res Unit
  | [], fs => (.ok (), fs, [])
  | v :: vs, fs =>
    match dictLast Table.name tables v with
    | some _ => pruneTables tables schDir vs fs
    | none =>
      match os_unlink fs (schDir ++ [v]) with
      | (.error e, fs', tr) => (.error e, fs', tr)
      | (.ok _, fs', tr) =>
        match pruneTables tables schDir vs fs' with
        | (r, fs'', tr') => (r, fs'', tr ++ tr')

/-- Prune one retained schema: scan its directory and drop stale tables. -/
def pruneSchema (sch : Schema) (schDir : Path) (fs : FS) : Res Unit :=
  match os_scandir fs schDir with
  | .error e => (.error e, fs, [])
  | .ok vs => pruneTables sch.tables schDir vs fs

/-- Prune the entries of a retained database directory: recursively remove
every listed name that is not a schema name, and descend into retained
schemas. -/
def pruneSchemasLoop (db : Database) (dbDir : Path) :
    List String → FS → Res Unit
  | [], fs => (.ok (), fs, [])
  | u :: us, fs =>
    match dictLast Schema.name db.schemas u with
    | none =>
      match os_rmtree fs (dbDir ++ [u]) with
      | (.error e, fs', tr) => (.error e, fs', tr)
      | (.ok _, fs', tr) =>
        match pruneSchemasLoop db dbDir us fs' with
        | (r, fs'', tr') => (r, fs'', tr ++ tr')
    | some sch =>
      match pruneSchema sch (dbDir ++ [u]) fs with
      | (.error e, fs', tr) => (.error e, fs', tr)
      | (.ok _, fs', tr) =>
        match pruneSchemasLoop db dbDir us fs' with
        | (r, fs'', tr') => (r, fs'', tr ++ tr')

/-- Prune one retained database: scan its directory and handle each entry. -/
def pruneDb (db : Database) (dbDir : Path) (fs : FS) : Res Unit :=
  match os_scandir fs dbDir with
  | .error e => (.error e, fs, [])
  | .ok us => pruneSchemasLoop db dbDir us fs

/-- Pruning over the scanned top-level names: `.pgfs` is skipped, a name
that is no database is recursively removed, a retained database is pruned
inside. -/
def pruneDbsLoop (dbs : List Database) (destroot : Path) :
    List String → FS → Res Unit
  | [], fs => (.ok (), fs, [])
  | s :: ss, fs =>
    if s = ".pgfs" then pruneDbsLoop dbs destroot ss fs
    else
      match dictLast Database.name dbs s with
      | none =>
        match os_rmtree fs (destroot ++ [s]) with
        | (.error e, fs', tr) => (.error e, fs', tr)
        | (.ok _, fs', tr) =>
          match pruneDbsLoop dbs destroot ss fs' with
          | (r, fs'', tr') => (r, fs'', tr ++ tr')
      | some db =>
        match pruneDb db (destroot ++ [s]) fs with
        | (.error e, fs', tr) => (.error e, fs', tr)
        | (.ok _, fs', tr) =>
          match pruneDbsLoop dbs destroot ss fs' with
          | (r, fs'', tr') => (r, fs'', tr ++ tr')

/-- The pruning pass: scan the destination root and prune stale entries. -/
def pruneTop (dbs : List Database) (destroot : Path) (fs : FS) : Res Unit :=
  match os_scandir fs destroot with
  | .error e => (.error e, fs, [])
  | .ok ss => pruneDbsLoop dbs destroot ss fs

/-- `_write_tree(pgroot, destroot, databases)`: the synchronizer — forward
pass (create/repair) followed by the pruning pass. -/
def _write_tree (pgroot destroot : Path) (databases : List Database)
    (fs : FS) : Res Unit :=
  match forwardDbs pgroot destroot databases fs with
  | (.error e, fs', tr) => (.error e, fs', tr)
  | (.ok _, fs', tr) =>
    match pruneTop databases destroot fs' with
    | (r, fs'', tr') => (r, fs'', tr ++ tr')

/-! ## Locking and the guarded entry point `write_tree` -/

/-- Outcome of a full `write_tree` run.  `sys.exit(1)` paths and uncaught
exceptions all terminate the process with a nonzero exit code. -/
inductive RunErr where
  | unsafeRoot
  | alreadyLocked
  | io (e : Err)
deriving DecidableEq, Repr

/-- The process exit code of a run. -/
def exitCode : Except RunErr Unit → Nat
  | .ok _ => 0
  | .error _ => 1

/-- `lock_file(filename)`: `os.open(filename, O_RDWR)` followed by a
non-blocking exclusive `fcntl.lockf`.  `lockHeld` says whether another
process currently holds the lock, in which case `lockf` fails with
EACCES/EAGAIN and the script prints and exits (AlreadyLocked). -/
def lock_file (fs : FS) (p : Path) (lockHeld : Bool) : Except RunErr Unit :=
  match fs.find p with
  | none => .error (.io (.fileNotFound p))
  | some n =>
    if n.kind = NodeKind.dir then .error (.io (.isADirectory p))
    else if lockHeld then .error .alreadyLocked
    else .ok ()

/-- The locked part of `write_tree`: acquire the lock on the sentinel, run
the synchronizer, and release the lock on every exit path (`finally`). -/
def lockAndSync (pgroot destroot : Path) (dbs : List Database)
    (lockHeld : Bool) (fs : FS) : Except RunErr Unit × FS × List Ev :=
  let dot := destroot ++ [".pgfs"]
  match lock_file fs dot lockHeld with
  | .error e => (.error e, fs, [])
  | .ok _ =>
    match _write_tree pgroot destroot dbs fs with
    | (.ok _, fs', tr) => (.ok (), fs', .lockE dot :: tr ++ [.unlockE dot])
    | (.error e, fs', tr) =>
      (.error (.io e), fs', .lockE dot :: tr ++ [.unlockE dot])

/-- `write_tree(pgroot, destroot, databases)`: root safety check and
bootstrap, then the locked synchronizer run.  A non-empty destination
directory without the `.pgfs` sentinel aborts with UnsafeRoot before any
mutation; a missing or empty root is created together with the sentinel. -/
def write_tree (pgroot destroot : Path) (dbs : List Database)
    (lockHeld : Bool) (fs : FS) : Except RunErr Unit × FS × List Ev :=
  let dot := destroot ++ [".pgfs"]
  if fs.isdir destroot ∧ fs.childNames destroot ≠ [] then
    if fs.isfile dot then lockAndSync pgroot destroot dbs lockHeld fs
    else (.error .unsafeRoot, fs, [])
  else
    match os_makedirs fs destroot with
    | (.error e, fs', tr) => (.error (.io e), fs', tr)
    | (.ok _, fs₁, tr₁) =>
      match touch fs₁ dot true with
      | (.error e, fs₂, tr₂) => (.error (.io e), fs₂, tr₁ ++ tr₂)
      | (.ok _, fs₂, tr₂) =>
        match lockAndSync pgroot destroot dbs lockHeld fs₂ with
        | (r, fs₃, tr₃) => (r, fs₃, tr₁ ++ tr₂ ++ tr₃)

/-! ## The catalog queries (`get_schemas`, `get_databases`) -/

/-- A row of `pg_namespace` as the `get_schemas` query reads it. -/
structure NsRow where
  oid : Nat
  nspname : String
deriving DecidableEq, Repr

/-- A row of `pg_database` as the `get_databases` query reads it. -/
structure DbRow where
  oid : Nat
  datname : String
  datistemplate : Bool
deriving DecidableEq, Repr

/-- `get_schemas`: `SELECT oid, nspname FROM pg_namespace WHERE nspname
NOT IN ('pg_toast', 'pg_catalog', 'information_schema')`, each row turned
into a `Schema` with no tables yet. -/
def get_schemas (rows : List NsRow) : List Schema :=
  (rows.filter (fun r =>
      !(r.nspname = "pg_toast" ∨ r.nspname = "pg_catalog" ∨
        r.nspname = "information_schema"))).map
    (fun r => ⟨r.oid, r.nspname, []⟩)

/-- `get_databases`: `SELECT oid, datname FROM pg_database WHERE NOT
datistemplate`, each row turned into a `Database` with no schemas yet. -/
def get_databases (rows : List DbRow) : List Database :=
  (rows.filter (fun r => !r.datistemplate)).map
    (fun r => ⟨r.oid, r.datname, []⟩)

/-! ## Basic lemmas about the filesystem map -/

theorem findE_isSome_iff (l : List (Path × Node)) (p : Path) :
    (findE l p).isSome ↔ ∃ e ∈ l, e.1 = p := by
  induction l with
  | nil =>
    constructor
    · intro h; simp [findE] at h
    · rintro ⟨e, he, _⟩; exact absurd he (List.not_mem_nil e)
  | cons e l ih =>
    by_cases h : e.1 = p
    · simp [findE, h]
    · simp [findE, h, ih]

theorem findE_eraseKey (l : List (Path × Node)) (p q : Path) (h : q ≠ p) :
    findE (eraseKey p l) q = findE l q := by
  induction l with
  | nil => rfl
  | cons e l ih =>
    by_cases he : e.1 = p
    · have hne : e.1 ≠ q := by rw [he]; exact fun hq => h hq.symm
      rw [eraseKey, if_pos he, ih, findE, if_neg hne]
    · by_cases heq : e.1 = q
      · rw [eraseKey, if_neg he, findE, if_pos heq, findE, if_pos heq]
      · rw [eraseKey, if_neg he, findE, if_neg heq, ih, findE, if_neg heq]

theorem findE_eraseKey_self (l : List (Path × Node)) (p : Path) :
    findE (eraseKey p l) p = none := by
  induction l with
  | nil => rfl
  | cons e l ih =>
    by_cases he : e.1 = p
    · rw [eraseKey, if_pos he]; exact ih
    · rw [eraseKey, if_neg he, findE, if_neg he]; exact ih

@[simp] theorem find_set (fs : FS) (p : Path) (n : Node) (q : Path) :
    (fs.set p n).find q = if p = q then some n else fs.find q := by
  by_cases h : p = q
  · subst h; simp [FS.set, FS.find, findE]
  · rw [if_neg h]
    show findE ((p, n) :: eraseKey p fs.entries) q = fs.find q
    rw [findE, if_neg (fun hq : p = q => h hq)]
    exact findE_eraseKey _ _ _ (fun hq => h hq.symm)

@[simp] theorem find_del (fs : FS) (p : Path) (q : Path) :
    (fs.del p).find q = if p = q then none else fs.find q := by
  by_cases h : p = q
  · subst h; rw [if_pos rfl]; exact findE_eraseKey_self _ _
  · rw [if_neg h]; exact findE_eraseKey _ _ _ (fun hq => h hq.symm)

@[simp] theorem find_addFresh (fs : FS) (p : Path) (k : NodeKind) (d : Nat)
    (q : Path) :
    (fs.addFresh p k d).find q =
      if p = q then some ⟨k, d, fs.nextIno⟩ else fs.find q := by
  by_cases h : p = q
  · subst h; simp [FS.addFresh, FS.find, findE]
  · rw [if_neg h]
    show findE ((p, ⟨k, d, fs.nextIno⟩) :: eraseKey p fs.entries) q = fs.find q
    rw [findE, if_neg (fun hq : p = q => h hq)]
    exact findE_eraseKey _ _ _ (fun hq => h hq.symm)

theorem isUnder_iff (p q : Path) : isUnder p q = true ↔ ∃ r, q = p ++ r := by
  induction p generalizing q with
  | nil => simp [isUnder]
  | cons a as ih =>
    cases q with
    | nil =>
      simp only [isUnder]
      constructor
      · intro h; cases h
      · rintro ⟨r, hr⟩; cases hr
    | cons b bs =>
      simp only [isUnder, Bool.and_eq_true, decide_eq_true_eq, ih,
        List.cons_append, List.cons.injEq]
      constructor
      · rintro ⟨hab, r, hr⟩; exact ⟨r, hab.symm, hr⟩
      · rintro ⟨r, hab, hr⟩; exact ⟨hab.symm, r, hr⟩

theorem isUnder_refl (p : Path) : isUnder p p = true := by
  rw [isUnder_iff]; exact ⟨[], by simp⟩

theorem isUnder_append (p r : Path) : isUnder p (p ++ r) = true := by
  rw [isUnder_iff]; exact ⟨r, rfl⟩

theorem isUnder_trans {p q r : Path} (h1 : isUnder p q = true)
    (h2 : isUnder q r = true) : isUnder p r = true := by
  rw [isUnder_iff] at h1 h2 ⊢
  obtain ⟨a, ha⟩ := h1
  obtain ⟨b, hb⟩ := h2
  exact ⟨a ++ b, by simp [hb, ha]⟩

theorem isUnder_false_of_length_lt {p q : Path} (h : q.length < p.length) :
    isUnder p q = false := by
  by_contra hc
  have : isUnder p q = true := by
    cases hu : isUnder p q
    · exact absurd hu hc
    · rfl
  rw [isUnder_iff] at this
  obtain ⟨r, hr⟩ := this
  rw [hr, List.length_append] at h
  omega

theorem findE_delTreeE_under (l : List (Path × Node)) (p q : Path)
    (h : isUnder p q = true) : findE (delTreeE p l) q = none := by
  induction l with
  | nil => rfl
  | cons e l ih =>
    by_cases he : isUnder p e.1
    · rw [delTreeE, if_pos he]; exact ih
    · have hne : e.1 ≠ q := fun hq => he (hq ▸ h)
      rw [delTreeE, if_neg he, findE, if_neg hne]; exact ih

theorem findE_delTreeE_not_under (l : List (Path × Node)) (p q : Path)
    (h : ¬ isUnder p q = true) : findE (delTreeE p l) q = findE l q := by
  induction l with
  | nil => rfl
  | cons e l ih =>
    by_cases he : isUnder p e.1
    · have hne : e.1 ≠ q := fun hq => h (hq ▸ he)
      rw [delTreeE, if_pos he, ih, findE, if_neg hne]
    · by_cases heq : e.1 = q
      · rw [delTreeE, if_neg he, findE, if_pos heq, findE, if_pos heq]
      · rw [delTreeE, if_neg he, findE, if_neg heq, ih, findE, if_neg heq]

theorem find_delTree (fs : FS) (p : Path) (q : Path) :
    (fs.delTree p).find q = if isUnder p q then none else fs.find q := by
  by_cases h : isUnder p q = true
  · rw [if_pos h]; exact findE_delTreeE_under _ _ _ h
  · rw [if_neg (by simpa using h)]; exact findE_delTreeE_not_under _ _ _ h

theorem childOf_eq_some (p q : Path) (s : String) :
    childOf p q = some s ↔ q = p ++ [s] := by
  induction p generalizing q with
  | nil =>
    cases q with
    | nil => simp [childOf]
    | cons b bs =>
      cases bs with
      | nil => simp [childOf]
      | cons c cs => simp [childOf]
  | cons a as ih =>
    cases q with
    | nil => simp [childOf]
    | cons b bs =>
      by_cases hab : a = b
      · subst hab
        simp [childOf, ih]
      · rw [childOf, if_neg hab]
        constructor
        · intro h; cases h
        · intro h
          rw [List.cons_append] at h
          injection h with h1 _
          exact absurd h1.symm hab

theorem mem_childNames (fs : FS) (p : Path) (s : String) :
    s ∈ fs.childNames p ↔ (fs.find (p ++ [s])).isSome := by
  simp only [FS.childNames, List.mem_dedup, List.mem_filterMap, FS.find,
    findE_isSome_iff]
  constructor
  · rintro ⟨e, he, hc⟩
    exact ⟨e, he, (childOf_eq_some _ _ _).mp hc⟩
  · rintro ⟨e, he, hc⟩
    exact ⟨e, he, (childOf_eq_some _ _ _).mpr hc⟩

theorem nodup_childNames (fs : FS) (p : Path) : (fs.childNames p).Nodup :=
  List.nodup_dedup _

@[simp] theorem nextIno_set (fs : FS) (p : Path) (n : Node) :
    (fs.set p n).nextIno = fs.nextIno := rfl

@[simp] theorem nextIno_del (fs : FS) (p : Path) :
    (fs.del p).nextIno = fs.nextIno := rfl

@[simp] theorem nextIno_delTree (fs : FS) (p : Path) :
    (fs.delTree p).nextIno = fs.nextIno := rfl

@[simp] theorem nextIno_addFresh (fs : FS) (p : Path) (k : NodeKind) (d : Nat) :
    (fs.addFresh p k d).nextIno = fs.nextIno + 1 := rfl

/-- Two filesystems with the same lookup function and counter list the same
children. -/
theorem childNames_eq_of_find_eq (fs fs' : FS) (p : Path)
    (h : ∀ s, (fs'.find (p ++ [s])).isSome = (fs.find (p ++ [s])).isSome) :
    ∀ s, s ∈ fs'.childNames p ↔ s ∈ fs.childNames p := by
  intro s
  rw [mem_childNames, mem_childNames, h]

/-! ## Behaviour of the primitive operations -/

theorem os_makedirs_dir {fs : FS} {p : Path} {n : Node}
    (h : fs.find p = some n) (hk : n.kind = NodeKind.dir) :
    os_makedirs fs p = (.ok (), fs, []) := by
  simp only [os_makedirs, makedirsFuel, h, if_pos hk]

theorem os_makedirs_nondir {fs : FS} {p : Path} {n : Node}
    (h : fs.find p = some n) (hk : n.kind ≠ NodeKind.dir) :
    os_makedirs fs p = (.error (.fileExists p), fs, []) := by
  simp only [os_makedirs, makedirsFuel, h, if_neg hk]

theorem os_mkdir_create {fs : FS} {p : Path} {np : Node}
    (h0 : p ≠ []) (h : fs.find p = none)
    (hp : fs.find p.dropLast = some np) (hk : np.kind = NodeKind.dir) :
    os_mkdir fs p =
      (.ok (), fs.addFresh p NodeKind.dir np.dev, [.mkdirE p]) := by
  match p, h0 with
  | a :: as, _ =>
    simp only [os_mkdir, h, hp, if_pos hk]

theorem os_makedirs_create {fs : FS} {p : Path} {np : Node}
    (h0 : p ≠ []) (h : fs.find p = none)
    (hp : fs.find p.dropLast = some np) (hk : np.kind = NodeKind.dir) :
    os_makedirs fs p =
      (.ok (), fs.addFresh p NodeKind.dir np.dev, [.mkdirE p]) := by
  match p, h0 with
  | a :: as, _ =>
    simp only [os_makedirs, makedirsFuel, h]
    rw [if_pos (by rw [hp]; rfl)]
    exact os_mkdir_create (by simp) h hp hk

theorem os_unlink_file {fs : FS} {p : Path} {n : Node}
    (h : fs.find p = some n) (hk : n.kind ≠ NodeKind.dir) :
    os_unlink fs p = (.ok (), fs.del p, [.unlinkE p]) := by
  rw [os_unlink, h]; simp [hk]

theorem os_unlink_dir {fs : FS} {p : Path} {n : Node}
    (h : fs.find p = some n) (hk : n.kind = NodeKind.dir) :
    os_unlink fs p = (.error (.isADirectory p), fs, []) := by
  simp [os_unlink, h, hk]

theorem os_rmtree_dir {fs : FS} {p : Path} {n : Node}
    (h : fs.find p = some n) (hk : n.kind = NodeKind.dir) :
    os_rmtree fs p = (.ok (), fs.delTree p, [.rmtreeE p]) := by
  simp [os_rmtree, h, hk]

theorem os_rmtree_nondir {fs : FS} {p : Path} {n : Node}
    (h : fs.find p = some n) (hk : n.kind ≠ NodeKind.dir) :
    os_rmtree fs p = (.error (.notADirectory p), fs, []) := by
  simp [os_rmtree, h, hk]

theorem os_scandir_dir {fs : FS} {p : Path} {n : Node}
    (h : fs.find p = some n) (hk : n.kind = NodeKind.dir) :
    os_scandir fs p = .ok (fs.childNames p) := by
  simp [os_scandir, h, hk]

theorem os_link_ok {fs : FS} {src dst : Path} {ns np : Node}
    (hs : fs.find src = some ns) (hsk : ns.kind = NodeKind.file)
    (hp : fs.find dst.dropLast = some np) (hpk : np.kind = NodeKind.dir)
    (hdev : np.dev = ns.dev) (hd : fs.find dst = none) :
    os_link fs src dst = (.ok (), fs.set dst ns, [.linkE src dst]) := by
  rw [os_link, hs, hp]
  simp [hpk, hd, hdev, hsk]

theorem os_link_exists {fs : FS} {src dst : Path} {ns np : Node}
    (hs : fs.find src = some ns)
    (hp : fs.find dst.dropLast = some np) (hpk : np.kind = NodeKind.dir)
    (hd : (fs.find dst).isSome) :
    os_link fs src dst = (.error (.fileExists dst), fs, []) := by
  rw [os_link, hs, hp]
  simp [hpk, hd]

/-! ## Behaviour of the table step `linkTable` -/

/-- Missing destination: the hard link is created. -/
theorem linkTable_create {pg : Path} {oid : Nat} {schDir : Path} {t : Table}
    {fs : FS} {ns np : Node}
    (hs : fs.find (srcPath pg oid t) = some ns) (hsk : ns.kind = NodeKind.file)
    (hp : fs.find schDir = some np) (hpk : np.kind = NodeKind.dir)
    (hdev : np.dev = ns.dev)
    (hd : fs.find (schDir ++ [t.name]) = none) :
    linkTable pg oid schDir t fs =
      (.ok (), fs.set (schDir ++ [t.name]) ns,
       [.linkE (srcPath pg oid t) (schDir ++ [t.name])]) := by
  have hp' : fs.find (schDir ++ [t.name]).dropLast = some np := by
    rwa [List.dropLast_concat]
  rw [linkTable, os_link_ok hs hsk hp' hpk hdev hd]

/-- Existing destination with the right inode number: left untouched. -/
theorem linkTable_noop {pg : Path} {oid : Nat} {schDir : Path} {t : Table}
    {fs : FS} {ns np nd : Node}
    (hs : fs.find (srcPath pg oid t) = some ns)
    (hp : fs.find schDir = some np) (hpk : np.kind = NodeKind.dir)
    (hd : fs.find (schDir ++ [t.name]) = some nd)
    (hino : ns.ino = nd.ino) :
    linkTable pg oid schDir t fs = (.ok (), fs, []) := by
  have hp' : fs.find (schDir ++ [t.name]).dropLast = some np := by
    rwa [List.dropLast_concat]
  rw [linkTable, os_link_exists hs hp' hpk (by rw [hd]; rfl)]
  rw [same_inode, hs, hd]
  simp [hino]

/-- Existing non-directory destination with a different inode number:
unlinked and re-linked. -/
theorem linkTable_repair {pg : Path} {oid : Nat} {schDir : Path} {t : Table}
    {fs : FS} {ns np nd : Node}
    (hs : fs.find (srcPath pg oid t) = some ns) (hsk : ns.kind = NodeKind.file)
    (hp : fs.find schDir = some np) (hpk : np.kind = NodeKind.dir)
    (hdev : np.dev = ns.dev)
    (hd : fs.find (schDir ++ [t.name]) = some nd)
    (hdk : nd.kind ≠ NodeKind.dir) (hino : ns.ino ≠ nd.ino) :
    linkTable pg oid schDir t fs =
      (.ok (), (fs.del (schDir ++ [t.name])).set (schDir ++ [t.name]) ns,
       [.unlinkE (schDir ++ [t.name]),
        .linkE (srcPath pg oid t) (schDir ++ [t.name])]) := by
  have hne : srcPath pg oid t ≠ schDir ++ [t.name] := by
    intro he
    rw [he, hd] at hs
    exact hino (by injection hs with h1; rw [h1])
  have hp' : fs.find (schDir ++ [t.name]).dropLast = some np := by
    rwa [List.dropLast_concat]
  rw [linkTable, os_link_exists hs hp' hpk (by rw [hd]; rfl)]
  simp only [same_inode, hs, hd]
  rw [if_neg (by simp [hino])]
  rw [os_unlink_file hd hdk]
  dsimp only
  have hs2 : (fs.del (schDir ++ [t.name])).find (srcPath pg oid t) = some ns := by
    rw [find_del, if_neg (fun h => hne h.symm)]; exact hs
  have hp2 : (fs.del (schDir ++ [t.name])).find (schDir ++ [t.name]).dropLast
      = some np := by
    rw [List.dropLast_concat, find_del,
      if_neg (fun h : schDir ++ [t.name] = schDir => by
        have := congrArg List.length h
        simp at this)]
    exact hp
  have hd2 : (fs.del (schDir ++ [t.name])).find (schDir ++ [t.name]) = none := by
    rw [find_del, if_pos rfl]
  rw [os_link_ok hs2 hsk hp2 hpk hdev hd2]
  rfl

theorem os_link_src_missing {fs : FS} {src dst : Path}
    (hs : fs.find src = none) :
    os_link fs src dst = (.error (.fileNotFound src), fs, []) := by
  rw [os_link, hs]

theorem os_link_parent_missing {fs : FS} {src dst : Path} {ns : Node}
    (hs : fs.find src = some ns) (hp : fs.find dst.dropLast = none) :
    os_link fs src dst = (.error (.fileNotFound dst), fs, []) := by
  rw [os_link, hs, hp]

theorem os_link_parent_nondir {fs : FS} {src dst : Path} {ns np : Node}
    (hs : fs.find src = some ns)
    (hp : fs.find dst.dropLast = some np) (hpk : np.kind ≠ NodeKind.dir) :
    os_link fs src dst = (.error (.notADirectory dst), fs, []) := by
  simp only [os_link, hs, hp]
  rw [if_pos hpk]

theorem os_link_crossdev {fs : FS} {src dst : Path} {ns np : Node}
    (hs : fs.find src = some ns)
    (hp : fs.find dst.dropLast = some np) (hpk : np.kind = NodeKind.dir)
    (hd : fs.find dst = none) (hdev : np.dev ≠ ns.dev) :
    os_link fs src dst = (.error (.crossDevice src dst), fs, []) := by
  rw [os_link, hs, hp]
  simp [hpk, hd, hdev]

theorem os_link_src_dir {fs : FS} {src dst : Path} {ns np : Node}
    (hs : fs.find src = some ns) (hsk : ns.kind ≠ NodeKind.file)
    (hp : fs.find dst.dropLast = some np) (hpk : np.kind = NodeKind.dir)
    (hd : fs.find dst = none) (hdev : np.dev = ns.dev) :
    os_link fs src dst = (.error (.notPermitted src), fs, []) := by
  rw [os_link, hs, hp]
  simp [hpk, hd, hdev, hsk]

/-- Existing directory destination with a different inode number: the
`os.unlink` repair attempt fails with `IsADirectoryError`. -/
theorem linkTable_dst_dir {pg : Path} {oid : Nat} {schDir : Path} {t : Table}
    {fs : FS} {ns np nd : Node}
    (hs : fs.find (srcPath pg oid t) = some ns)
    (hp : fs.find schDir = some np) (hpk : np.kind = NodeKind.dir)
    (hd : fs.find (schDir ++ [t.name]) = some nd)
    (hdk : nd.kind = NodeKind.dir) (hino : ns.ino ≠ nd.ino) :
    linkTable pg oid schDir t fs =
      (.error (.isADirectory (schDir ++ [t.name])), fs, []) := by
  have hp' : fs.find (schDir ++ [t.name]).dropLast = some np := by
    rwa [List.dropLast_concat]
  rw [linkTable, os_link_exists hs hp' hpk (by rw [hd]; rfl)]
  simp only [same_inode, hs, hd]
  rw [if_neg (by simp [hino])]
  rw [os_unlink_dir hd hdk]

/-- Missing source file: the run fails with `FileNotFoundError` whether or
not the destination exists. -/
theorem linkTable_src_missing {pg : Path} {oid : Nat} {schDir : Path}
    {t : Table} {fs : FS}
    (hs : fs.find (srcPath pg oid t) = none) :
    linkTable pg oid schDir t fs =
      (.error (.fileNotFound (srcPath pg oid t)), fs, []) := by
  rw [linkTable, os_link_src_missing hs]

/-- Existing non-directory destination with a different inode number, when
the source lives on a different device: the stale entry is unlinked, then
the re-link fails with the raw cross-device error. -/
theorem linkTable_repair_fail_crossdev {pg : Path} {oid : Nat} {schDir : Path}
    {t : Table} {fs : FS} {ns np nd : Node}
    (hs : fs.find (srcPath pg oid t) = some ns)
    (hp : fs.find schDir = some np) (hpk : np.kind = NodeKind.dir)
    (hd : fs.find (schDir ++ [t.name]) = some nd)
    (hdk : nd.kind ≠ NodeKind.dir) (hino : ns.ino ≠ nd.ino)
    (hdev : np.dev ≠ ns.dev) :
    linkTable pg oid schDir t fs =
      (.error (.crossDevice (srcPath pg oid t) (schDir ++ [t.name])),
       fs.del (schDir ++ [t.name]), [.unlinkE (schDir ++ [t.name])]) := by
  have hne : srcPath pg oid t ≠ schDir ++ [t.name] := by
    intro he
    rw [he, hd] at hs
    exact hino (by injection hs with h1; rw [h1])
  have hp' : fs.find (schDir ++ [t.name]).dropLast = some np := by
    rwa [List.dropLast_concat]
  rw [linkTable, os_link_exists hs hp' hpk (by rw [hd]; rfl)]
  simp only [same_inode, hs, hd]
  rw [if_neg (by simp [hino])]
  rw [os_unlink_file hd hdk]
  dsimp only
  have hs2 : (fs.del (schDir ++ [t.name])).find (srcPath pg oid t) = some ns := by
    rw [find_del, if_neg (fun h => hne h.symm)]; exact hs
  have hp2 : (fs.del (schDir ++ [t.name])).find (schDir ++ [t.name]).dropLast
      = some np := by
    rw [List.dropLast_concat, find_del,
      if_neg (fun h : schDir ++ [t.name] = schDir => by
        have := congrArg List.length h
        simp at this)]
    exact hp
  have hd2 : (fs.del (schDir ++ [t.name])).find (schDir ++ [t.name]) = none := by
    rw [find_del, if_pos rfl]
  rw [os_link_crossdev hs2 hp2 hpk hd2 hdev]
  rfl

/-- Existing non-directory destination with a different inode number, when
the source is itself a directory: unlink succeeds, the re-link fails. -/
theorem linkTable_repair_fail_srcdir {pg : Path} {oid : Nat} {schDir : Path}
    {t : Table} {fs : FS} {ns np nd : Node}
    (hs : fs.find (srcPath pg oid t) = some ns) (hsk : ns.kind ≠ NodeKind.file)
    (hp : fs.find schDir = some np) (hpk : np.kind = NodeKind.dir)
    (hdev : np.dev = ns.dev)
    (hd : fs.find (schDir ++ [t.name]) = some nd)
    (hdk : nd.kind ≠ NodeKind.dir) (hino : ns.ino ≠ nd.ino) :
    linkTable pg oid schDir t fs =
      (.error (.notPermitted (srcPath pg oid t)),
       fs.del (schDir ++ [t.name]), [.unlinkE (schDir ++ [t.name])]) := by
  have hne : srcPath pg oid t ≠ schDir ++ [t.name] := by
    intro he
    rw [he, hd] at hs
    exact hino (by injection hs with h1; rw [h1])
  have hp' : fs.find (schDir ++ [t.name]).dropLast = some np := by
    rwa [List.dropLast_concat]
  rw [linkTable, os_link_exists hs hp' hpk (by rw [hd]; rfl)]
  simp only [same_inode, hs, hd]
  rw [if_neg (by simp [hino])]
  rw [os_unlink_file hd hdk]
  dsimp only
  have hs2 : (fs.del (schDir ++ [t.name])).find (srcPath pg oid t) = some ns := by
    rw [find_del, if_neg (fun h => hne h.symm)]; exact hs
  have hp2 : (fs.del (schDir ++ [t.name])).find (schDir ++ [t.name]).dropLast
      = some np := by
    rw [List.dropLast_concat, find_del,
      if_neg (fun h : schDir ++ [t.name] = schDir => by
        have := congrArg List.length h
        simp at this)]
    exact hp
  have hd2 : (fs.del (schDir ++ [t.name])).find (schDir ++ [t.name]) = none := by
    rw [find_del, if_pos rfl]
  rw [os_link_src_dir hs2 hsk hp2 hpk hd2 hdev]
  rfl

/-- A successful table step: the source file existed, the destination
carries the source's inode number afterwards, no other path changes, and
the inode counter is untouched. -/
theorem linkTable_ok_inv {pg : Path} {oid : Nat} {schDir : Path} {t : Table}
    {fs fs' : FS} {tr : List Ev}
    (h : linkTable pg oid schDir t fs = (.ok (), fs', tr)) :
    (∃ ns, fs.find (srcPath pg oid t) = some ns ∧
      ∃ nd, fs'.find (schDir ++ [t.name]) = some nd ∧ nd.ino = ns.ino) ∧
    (∀ q, q ≠ schDir ++ [t.name] → fs'.find q = fs.find q) ∧
    fs'.nextIno = fs.nextIno := by
  rcases hs : fs.find (srcPath pg oid t) with _ | ns
  · rw [linkTable_src_missing hs] at h
    exact absurd h (by simp)
  rcases hp : fs.find (schDir ++ [t.name]).dropLast with _ | np
  · rw [linkTable, os_link_parent_missing hs hp] at h
    exact absurd h (by simp)
  by_cases hpk : np.kind = NodeKind.dir
  case neg =>
    rw [linkTable, os_link_parent_nondir hs hp hpk] at h
    exact absurd h (by simp)
  have hpc : fs.find schDir = some np := by rwa [List.dropLast_concat] at hp
  rcases hd : fs.find (schDir ++ [t.name]) with _ | nd
  · -- destination missing: the branch creates the link
    by_cases hdev : np.dev = ns.dev
    case neg =>
      rw [linkTable, os_link_crossdev hs hp hpk hd hdev] at h
      exact absurd h (by simp)
    by_cases hsk : ns.kind = NodeKind.file
    case neg =>
      rw [linkTable, os_link_src_dir hs hsk hp hpk hd hdev] at h
      exact absurd h (by simp)
    rw [linkTable_create hs hsk hpc hpk hdev hd] at h
    have hfs : fs' = fs.set (schDir ++ [t.name]) ns :=
      (congrArg (fun x => x.2.1) h).symm
    subst hfs
    refine ⟨⟨ns, rfl, ns, ?_, rfl⟩, ?_, rfl⟩
    · rw [find_set, if_pos rfl]
    · intro q hq
      rw [find_set, if_neg (fun he => hq he.symm)]
  · -- destination present
    by_cases hino : ns.ino = nd.ino
    · rw [linkTable_noop hs hpc hpk hd hino] at h
      have hfs : fs' = fs := (congrArg (fun x => x.2.1) h).symm
      rw [hfs]
      exact ⟨⟨ns, rfl, nd, hd, hino.symm⟩, fun q _ => rfl, rfl⟩
    · by_cases hdk : nd.kind = NodeKind.dir
      · rw [linkTable_dst_dir hs hpc hpk hd hdk hino] at h
        exact absurd h (by simp)
      by_cases hdev : np.dev = ns.dev
      case neg =>
        rw [linkTable_repair_fail_crossdev hs hpc hpk hd hdk hino hdev] at h
        exact absurd h (by simp)
      by_cases hsk : ns.kind = NodeKind.file
      case neg =>
        rw [linkTable_repair_fail_srcdir hs hsk hpc hpk hdev hd hdk hino] at h
        exact absurd h (by simp)
      rw [linkTable_repair hs hsk hpc hpk hdev hd hdk hino] at h
      have hfs : fs' = (fs.del (schDir ++ [t.name])).set (schDir ++ [t.name]) ns :=
        (congrArg (fun x => x.2.1) h).symm
      subst hfs
      refine ⟨⟨ns, rfl, ns, ?_, rfl⟩, ?_, rfl⟩
      · rw [find_set, if_pos rfl]
      · intro q hq
        rw [find_set, if_neg (fun he => hq he.symm), find_del,
          if_neg (fun he => hq he.symm)]

/-! ## Path arithmetic helpers -/

theorem ne_of_length_ne {q r : Path} (h : q.length ≠ r.length) : q ≠ r :=
  fun he => h (congrArg List.length he)

theorem append_inj_right {D x y : Path} (h : D ++ x = D ++ y) : x = y := by
  induction D with
  | nil => exact h
  | cons a as ih =>
    rw [List.cons_append, List.cons_append] at h
    injection h with _ h2
    exact ih h2

theorem snoc_ne_of_ne {P : Path} {a b : String} (h : a ≠ b) :
    P ++ [a] ≠ P ++ [b] := by
  intro he
  have := append_inj_right he
  injection this with h1
  exact h h1

theorem isUnder_child {D P : Path} (h : isUnder D P = true) (r : Path) :
    isUnder D (P ++ r) = true :=
  isUnder_trans h (isUnder_append P r)

theorem ne_of_under_not_under {D q r : Path} (hq : isUnder D q = true)
    (hr : isUnder D r = false) : r ≠ q := by
  intro he
  rw [he, hq] at hr
  cases hr

/-! ## The forward pass: inversion lemmas -/

/-- A successful `os.makedirs` whose parent is an existing directory: the
target is a directory afterwards and nothing else changed. -/
theorem os_makedirs_ok_inv {fs fs' : FS} {p : Path} {tr : List Ev} {np : Node}
    (h0 : p ≠ []) (hp : fs.find p.dropLast = some np)
    (hpk : np.kind = NodeKind.dir)
    (h : os_makedirs fs p = (.ok (), fs', tr)) :
    (∃ n, fs'.find p = some n ∧ n.kind = NodeKind.dir) ∧
    (∀ q, q ≠ p → fs'.find q = fs.find q) := by
  rcases hf : fs.find p with _ | n
  · rw [os_makedirs_create h0 hf hp hpk] at h
    have hfs : fs' = fs.addFresh p NodeKind.dir np.dev :=
      (congrArg (fun x => x.2.1) h).symm
    subst hfs
    constructor
    · refine ⟨⟨NodeKind.dir, np.dev, fs.nextIno⟩, ?_, rfl⟩
      rw [find_addFresh, if_pos rfl]
    · intro q hq
      rw [find_addFresh, if_neg (fun he => hq he.symm)]
  · by_cases hk : n.kind = NodeKind.dir
    · rw [os_makedirs_dir hf hk] at h
      have hfs : fs' = fs := (congrArg (fun x => x.2.1) h).symm
      rw [hfs]
      exact ⟨⟨n, hf, hk⟩, fun q _ => rfl⟩
    · rw [os_makedirs_nondir hf hk] at h
      exact absurd h (by simp)

/-- A successful forward pass over one schema's tables: every table entry
ends with its source's inode number, and only the table destinations are
touched. -/
theorem forwardTables_ok_inv {pg : Path} {oid : Nat} {D schDir : Path}
    {ts : List Table} {fs fs' : FS} {tr : List Ev}
    (hD : isUnder D schDir = true)
    (hsrc : ∀ t ∈ ts, isUnder D (srcPath pg oid t) = false)
    (hnd : (ts.map Table.name).Nodup)
    (h : forwardTables pg oid schDir ts fs = (.ok (), fs', tr)) :
    (∀ t ∈ ts, ∃ ns, fs.find (srcPath pg oid t) = some ns ∧
       ∃ nd, fs'.find (schDir ++ [t.name]) = some nd ∧ nd.ino = ns.ino) ∧
    (∀ q, (∀ t ∈ ts, q ≠ schDir ++ [t.name]) → fs'.find q = fs.find q) := by
  induction ts generalizing fs tr with
  | nil =>
    simp only [forwardTables] at h
    have hfs : fs' = fs := (congrArg (fun x => x.2.1) h).symm
    rw [hfs]
    exact ⟨fun t ht => absurd ht (List.not_mem_nil t), fun q _ => rfl⟩
  | cons t ts ih =>
    simp only [forwardTables] at h
    rcases h1 : linkTable pg oid schDir t fs with ⟨r1, fs1, tr1⟩
    rw [h1] at h
    cases r1 with
    | error e => simp at h
    | ok u =>
      cases u
      dsimp only at h
      rcases h2 : forwardTables pg oid schDir ts fs1 with ⟨r2, fs2, tr2⟩
      rw [h2] at h
      dsimp only at h
      cases r2 with
      | error e => simp at h
      | ok u =>
        cases u
        have hfs : fs2 = fs' := congrArg (fun x => x.2.1) h
        rw [hfs] at h2
        obtain ⟨⟨ns, hns, nd, hnd1, hino⟩, frame1, -⟩ := linkTable_ok_inv h1
        have hsrc_ts : ∀ t' ∈ ts, isUnder D (srcPath pg oid t') = false :=
          fun t' ht' => hsrc t' (List.mem_cons_of_mem t ht')
        have hnd9 : t.name ∉ ts.map Table.name ∧ (ts.map Table.name).Nodup := by
          rw [List.map_cons] at hnd
          exact List.nodup_cons.mp hnd
        obtain ⟨hnm, hnd_ts⟩ := hnd9
        obtain ⟨post2, frame2⟩ := ih hsrc_ts hnd_ts h2
        have hdst_under : isUnder D (schDir ++ [t.name]) = true :=
          isUnder_child hD [t.name]
        constructor
        · intro t' ht'
          rcases List.mem_cons.mp ht' with he | hmem
          · subst he
            refine ⟨ns, hns, nd, ?_, hino⟩
            rw [← hnd1]
            apply frame2
            intro t2 ht2
            exact snoc_ne_of_ne (fun hn =>
              hnm (by rw [hn]; exact List.mem_map_of_mem Table.name ht2))
          · obtain ⟨ns2, hns2, nd2, hnd2, hino2⟩ := post2 t' hmem
            refine ⟨ns2, ?_, nd2, hnd2, hino2⟩
            rw [← hns2]
            exact (frame1 _ (ne_of_under_not_under hdst_under
              (hsrc t' (List.mem_cons_of_mem t hmem)))).symm
        · intro q hq
          rw [frame2 q (fun t2 ht2 => hq t2 (List.mem_cons_of_mem t ht2)),
            frame1 q (hq t (List.mem_cons_self t ts))]

theorem snoc2_ne_of_ne_fst {P : Path} {a b a' b' : String} (h : a ≠ a') :
    (P ++ [a]) ++ [b] ≠ (P ++ [a']) ++ [b'] := by
  intro he
  rw [List.append_assoc, List.append_assoc] at he
  have h2 := append_inj_right he
  injection h2 with h3
  exact h h3

/-- A successful forward pass over one database's schemas: every schema
directory exists afterwards, every table entry carries its source's inode
number, and only the schema directories and table destinations are
touched. -/
theorem forwardSchemas_ok_inv {pg : Path} {oid : Nat} {D dbDir : Path}
    {schs : List Schema} {fs fs' : FS} {tr : List Ev}
    (hD : isUnder D dbDir = true)
    (hdb : ∃ n, fs.find dbDir = some n ∧ n.kind = NodeKind.dir)
    (hsrc : ∀ sch ∈ schs, ∀ t ∈ sch.tables,
      isUnder D (srcPath pg oid t) = false)
    (hndS : (schs.map Schema.name).Nodup)
    (hndT : ∀ sch ∈ schs, (sch.tables.map Table.name).Nodup)
    (h : forwardSchemas pg oid dbDir schs fs = (.ok (), fs', tr)) :
    (∀ sch ∈ schs, ∃ n, fs'.find (dbDir ++ [sch.name]) = some n ∧
      n.kind = NodeKind.dir) ∧
    (∀ sch ∈ schs, ∀ t ∈ sch.tables,
      ∃ ns, fs.find (srcPath pg oid t) = some ns ∧
      ∃ nd, fs'.find ((dbDir ++ [sch.name]) ++ [t.name]) = some nd ∧
        nd.ino = ns.ino) ∧
    (∀ q, (∀ sch ∈ schs, q ≠ dbDir ++ [sch.name] ∧
        ∀ t ∈ sch.tables, q ≠ (dbDir ++ [sch.name]) ++ [t.name]) →
      fs'.find q = fs.find q) := by
  induction schs generalizing fs tr with
  | nil =>
    simp only [forwardSchemas] at h
    have hfs : fs' = fs := (congrArg (fun x => x.2.1) h).symm
    rw [hfs]
    exact ⟨fun sch hs => absurd hs (List.not_mem_nil sch),
      fun sch hs => absurd hs (List.not_mem_nil sch), fun q _ => rfl⟩
  | cons sch schs ih =>
    simp only [forwardSchemas] at h
    rcases hm : os_makedirs fs (dbDir ++ [sch.name]) with ⟨rm, fsA, trA⟩
    rw [hm] at h
    cases rm with
    | error e => simp at h
    | ok u =>
      cases u
      dsimp only at h
      obtain ⟨ndb, hdbf, hdbk⟩ := hdb
      have hpm : fs.find (dbDir ++ [sch.name]).dropLast = some ndb := by
        rwa [List.dropLast_concat]
      obtain ⟨⟨nA, hnA, hnAk⟩, frameA⟩ :=
        os_makedirs_ok_inv (by simp) hpm hdbk hm
      rcases ht : forwardTables pg oid (dbDir ++ [sch.name]) sch.tables fsA
        with ⟨rt, fsB, trB⟩
      rw [ht] at h
      cases rt with
      | error e => simp at h
      | ok u =>
        cases u
        dsimp only at h
        have hD2 : isUnder D (dbDir ++ [sch.name]) = true :=
          isUnder_child hD [sch.name]
        obtain ⟨postT, frameT⟩ := forwardTables_ok_inv hD2
          (hsrc sch (List.mem_cons_self sch schs)) (hndT sch
            (List.mem_cons_self sch schs)) ht
        rcases hrest : forwardSchemas pg oid dbDir schs fsB with ⟨rr, fsC, trC⟩
        rw [hrest] at h
        cases rr with
        | error e => simp at h
        | ok u =>
          cases u
          dsimp only at h
          have hfs : fsC = fs' := congrArg (fun x => x.2.1) h
          rw [hfs] at hrest
          have hnd9 : sch.name ∉ schs.map Schema.name ∧
              (schs.map Schema.name).Nodup := by
            rw [List.map_cons] at hndS
            exact List.nodup_cons.mp hndS
          obtain ⟨hnm, hndS_tl⟩ := hnd9
          -- the database directory is untouched by this schema's work
          have hdbB : fsB.find dbDir = some ndb := by
            rw [frameT dbDir (fun t2 _ => ne_of_length_ne (by
              simp [List.length_append]))]
            rw [frameA dbDir (ne_of_length_ne (by simp [List.length_append]))]
            exact hdbf
          obtain ⟨S1r, S2r, S3r⟩ := ih ⟨ndb, hdbB, hdbk⟩
            (fun s hs => hsrc s (List.mem_cons_of_mem sch hs))
            hndS_tl (fun s hs => hndT s (List.mem_cons_of_mem sch hs)) hrest
          -- transporting facts about the head schema to the final state
          have hheadS3 : ∀ q, (∀ s ∈ schs, q ≠ dbDir ++ [s.name] ∧
              ∀ t ∈ s.tables, q ≠ (dbDir ++ [s.name]) ++ [t.name]) →
              fs'.find q = fsB.find q := S3r
          refine ⟨?_, ?_, ?_⟩
          · intro s hs
            rcases List.mem_cons.mp hs with he | hmem
            · subst he
              refine ⟨nA, ?_, hnAk⟩
              rw [hheadS3 _ (fun s2 hs2 => ⟨snoc_ne_of_ne (fun hn =>
                  hnm (by rw [hn]; exact List.mem_map_of_mem Schema.name hs2)),
                fun t2 _ => ne_of_length_ne (by simp [List.length_append])⟩)]
              rw [frameT _ (fun t2 _ => ne_of_length_ne (by
                simp [List.length_append]))]
              exact hnA
            · exact S1r s hmem
          · intro s hs t htm
            rcases List.mem_cons.mp hs with he | hmem
            · subst he
              obtain ⟨ns, hns, nd, hnd1, hino⟩ := postT t htm
              refine ⟨ns, ?_, nd, ?_, hino⟩
              · rw [← hns]
                exact (frameA _ (ne_of_under_not_under hD2
                  (hsrc s (List.mem_cons_self s schs) t htm))).symm
              · rw [← hnd1]
                apply hheadS3
                intro s2 hs2
                refine ⟨ne_of_length_ne (by simp [List.length_append]), ?_⟩
                intro t2 _
                exact snoc2_ne_of_ne_fst (fun hn =>
                  hnm (by rw [hn]; exact List.mem_map_of_mem Schema.name hs2))
            · obtain ⟨ns, hns, nd, hnd1, hino⟩ := S2r s hmem t htm
              refine ⟨ns, ?_, nd, hnd1, hino⟩
              rw [← hns]
              have hsm : isUnder D (srcPath pg oid t) = false :=
                hsrc s (List.mem_cons_of_mem sch hmem) t htm
              rw [frameT _ (fun t2 _ => ne_of_under_not_under
                (isUnder_child hD2 _) hsm)]
              rw [frameA _ (ne_of_under_not_under hD2 hsm)]
          · intro q hq
            obtain ⟨hq1, hq2⟩ := hq sch (List.mem_cons_self sch schs)
            rw [S3r q (fun s hs => hq s (List.mem_cons_of_mem sch hs)),
              frameT q (fun t2 ht2 => hq2 t2 ht2), frameA q hq1]

/-- A successful forward pass over all databases of the snapshot, started
on a managed root (destination directory exists, sentinel file present):
no database can be called `.pgfs`, every database and schema directory
exists afterwards, every table entry carries its source file's inode
number, and nothing outside the snapshot's directory/table paths is
touched. -/
theorem forwardDbs_ok_inv {pg D : Path} {dbs : List Database}
    {fs fs' : FS} {tr : List Ev}
    (hroot : ∃ n, fs.find D = some n ∧ n.kind = NodeKind.dir)
    (hdot : ∃ n, fs.find (D ++ [".pgfs"]) = some n ∧ n.kind = NodeKind.file)
    (hsrc : ∀ db ∈ dbs, ∀ sch ∈ db.schemas, ∀ t ∈ sch.tables,
      isUnder D (srcPath pg db.oid t) = false)
    (hndD : (dbs.map Database.name).Nodup)
    (hndS : ∀ db ∈ dbs, (db.schemas.map Schema.name).Nodup)
    (hndT : ∀ db ∈ dbs, ∀ sch ∈ db.schemas,
      (sch.tables.map Table.name).Nodup)
    (h : forwardDbs pg D dbs fs = (.ok (), fs', tr)) :
    (∀ db ∈ dbs, db.name ≠ ".pgfs") ∧
    (∀ db ∈ dbs, ∃ n, fs'.find (D ++ [db.name]) = some n ∧
      n.kind = NodeKind.dir) ∧
    (∀ db ∈ dbs, ∀ sch ∈ db.schemas,
      ∃ n, fs'.find ((D ++ [db.name]) ++ [sch.name]) = some n ∧
        n.kind = NodeKind.dir) ∧
    (∀ db ∈ dbs, ∀ sch ∈ db.schemas, ∀ t ∈ sch.tables,
      ∃ ns, fs.find (srcPath pg db.oid t) = some ns ∧
      ∃ nd, fs'.find (((D ++ [db.name]) ++ [sch.name]) ++ [t.name]) = some nd ∧
        nd.ino = ns.ino) ∧
    (∀ q, (∀ db ∈ dbs, q ≠ D ++ [db.name] ∧
        ∀ sch ∈ db.schemas, (q ≠ (D ++ [db.name]) ++ [sch.name] ∧
          ∀ t ∈ sch.tables, q ≠ ((D ++ [db.name]) ++ [sch.name]) ++ [t.name])) →
      fs'.find q = fs.find q) := by
  induction dbs generalizing fs tr with
  | nil =>
    simp only [forwardDbs] at h
    have hfs : fs' = fs := (congrArg (fun x => x.2.1) h).symm
    rw [hfs]
    exact ⟨fun db hdb => absurd hdb (List.not_mem_nil db),
      fun db hdb => absurd hdb (List.not_mem_nil db),
      fun db hdb => absurd hdb (List.not_mem_nil db),
      fun db hdb => absurd hdb (List.not_mem_nil db), fun q _ => rfl⟩
  | cons db dbs ih =>
    simp only [forwardDbs] at h
    obtain ⟨nr, hrf, hrk⟩ := hroot
    obtain ⟨nf, hff, hfk⟩ := hdot
    -- a database named like the sentinel would make `os.makedirs` fail
    have hdbname : db.name ≠ ".pgfs" := by
      intro he
      have : fs.find (D ++ [db.name]) = some nf := by rw [he]; exact hff
      rw [os_makedirs_nondir this (by rw [hfk]; simp)] at h
      simp at h
    rcases hm : os_makedirs fs (D ++ [db.name]) with ⟨rm, fsA, trA⟩
    rw [hm] at h
    cases rm with
    | error e => simp at h
    | ok u =>
      cases u
      dsimp only at h
      have hpm : fs.find (D ++ [db.name]).dropLast = some nr := by
        rwa [List.dropLast_concat]
      obtain ⟨⟨nA, hnA, hnAk⟩, frameA⟩ :=
        os_makedirs_ok_inv (by simp) hpm hrk hm
      rcases hsch : forwardSchemas pg db.oid (D ++ [db.name]) db.schemas fsA
        with ⟨rs, fsB, trB⟩
      rw [hsch] at h
      cases rs with
      | error e => simp at h
      | ok u =>
        cases u
        dsimp only at h
        have hDdb : isUnder D (D ++ [db.name]) = true := isUnder_append D _
        obtain ⟨postS1, postS2, frameS⟩ := forwardSchemas_ok_inv hDdb
          ⟨nA, hnA, hnAk⟩ (hsrc db (List.mem_cons_self db dbs))
          (hndS db (List.mem_cons_self db dbs))
          (hndT db (List.mem_cons_self db dbs)) hsch
        rcases hrest : forwardDbs pg D dbs fsB with ⟨rr, fsC, trC⟩
        rw [hrest] at h
        cases rr with
        | error e => simp at h
        | ok u =>
          cases u
          dsimp only at h
          have hfs : fsC = fs' := congrArg (fun x => x.2.1) h
          rw [hfs] at hrest
          have hnd9 : db.name ∉ dbs.map Database.name ∧
              (dbs.map Database.name).Nodup := by
            rw [List.map_cons] at hndD
            exact List.nodup_cons.mp hndD
          obtain ⟨hnm, hndD_tl⟩ := hnd9
          -- the root and the sentinel survive this database's work
          have hrootB : fsB.find D = some nr := by
            rw [frameS D (fun s _ => ⟨ne_of_length_ne (by
                simp [List.length_append]),
              fun t _ => ne_of_length_ne (by simp [List.length_append])⟩)]
            rw [frameA D (ne_of_length_ne (by simp [List.length_append]))]
            exact hrf
          have hdotB : fsB.find (D ++ [".pgfs"]) = some nf := by
            rw [frameS _ (fun s _ => ⟨ne_of_length_ne (by
                simp [List.length_append]),
              fun t _ => ne_of_length_ne (by simp [List.length_append])⟩)]
            rw [frameA _ (snoc_ne_of_ne (fun hn => hdbname hn.symm))]
            exact hff
          obtain ⟨C0r, C1r, C2r, C3r, C4r⟩ := ih ⟨nr, hrootB, hrk⟩
            ⟨nf, hdotB, hfk⟩
            (fun d hd => hsrc d (List.mem_cons_of_mem db hd))
            hndD_tl (fun d hd => hndS d (List.mem_cons_of_mem db hd))
            (fun d hd => hndT d (List.mem_cons_of_mem db hd)) hrest
          -- conditions letting head-database facts survive the tail work
          have hqpass : ∀ r : Path, isUnder (D ++ [db.name]) r = true →
              (∀ d ∈ dbs, r ≠ D ++ [d.name] ∧
                ∀ s ∈ d.schemas, (r ≠ (D ++ [d.name]) ++ [s.name] ∧
                  ∀ t ∈ s.tables,
                    r ≠ ((D ++ [d.name]) ++ [s.name]) ++ [t.name])) := by
            intro r hr d hd
            have hdn : db.name ≠ d.name := fun hn =>
              hnm (by rw [hn]; exact List.mem_map_of_mem Database.name hd)
            rw [isUnder_iff] at hr
            obtain ⟨rest, hrest2⟩ := hr
            subst hrest2
            refine ⟨?_, fun s _ => ⟨?_, fun t _ => ?_⟩⟩
            · intro he
              rw [List.append_assoc] at he
              have h9 := append_inj_right he
              simp only [List.cons_append, List.nil_append] at h9
              injection h9 with h1 _
              exact hdn h1
            · intro he
              rw [List.append_assoc, List.append_assoc] at he
              have h9 := append_inj_right he
              simp only [List.cons_append, List.nil_append] at h9
              injection h9 with h1 _
              exact hdn h1
            · intro he
              rw [List.append_assoc, List.append_assoc,
                List.append_assoc] at he
              have h9 := append_inj_right he
              simp only [List.cons_append, List.nil_append] at h9
              injection h9 with h1 _
              exact hdn h1
          refine ⟨?_, ?_, ?_, ?_, ?_⟩
          · intro d hd
            rcases List.mem_cons.mp hd with he | hmem
            · subst he; exact hdbname
            · exact C0r d hmem
          · intro d hd
            rcases List.mem_cons.mp hd with he | hmem
            · subst he
              refine ⟨nA, ?_, hnAk⟩
              rw [C4r _ (hqpass _ (isUnder_refl _))]
              rw [frameS _ (fun s _ => ⟨ne_of_length_ne (by
                  simp [List.length_append]),
                fun t _ => ne_of_length_ne (by simp [List.length_append])⟩)]
              exact hnA
            · exact C1r d hmem
          · intro d hd s hs
            rcases List.mem_cons.mp hd with he | hmem
            · subst he
              obtain ⟨n, hn, hk⟩ := postS1 s hs
              refine ⟨n, ?_, hk⟩
              rw [C4r _ (hqpass _ (isUnder_child (isUnder_refl _) _))]
              exact hn
            · exact C2r d hmem s hs
          · intro d hd s hs t htm
            rcases List.mem_cons.mp hd with he | hmem
            · subst he
              obtain ⟨ns, hns, nd, hnd1, hino⟩ := postS2 s hs t htm
              refine ⟨ns, ?_, nd, ?_, hino⟩
              · rw [← hns]
                exact (frameA _ (ne_of_under_not_under hDdb
                  (hsrc d (List.mem_cons_self d dbs) s hs t htm))).symm
              · rw [← hnd1]
                apply C4r
                apply hqpass
                exact isUnder_child (isUnder_child (isUnder_refl _) _) _
            · obtain ⟨ns, hns, nd, hnd1, hino⟩ := C3r d hmem s hs t htm
              refine ⟨ns, ?_, nd, hnd1, hino⟩
              rw [← hns]
              have hsm : isUnder D (srcPath pg d.oid t) = false :=
                hsrc d (List.mem_cons_of_mem db hmem) s hs t htm
              rw [frameS _ (fun s2 _ => ⟨ne_of_under_not_under
                  (isUnder_child hDdb _) hsm,
                fun t2 _ => ne_of_under_not_under
                  (isUnder_child (isUnder_child hDdb _) _) hsm⟩)]
              rw [frameA _ (ne_of_under_not_under hDdb hsm)]
          · intro q hq
            obtain ⟨hq1, hq2⟩ := hq db (List.mem_cons_self db dbs)
            rw [C4r q (fun d hd => hq d (List.mem_cons_of_mem db hd)),
              frameS q (fun s hs => hq2 s hs), frameA q hq1]

/-! ## The pruning pass: deletion-set predicates and characterizations -/

/-- `stripPre base q = some rest` exactly when `q = base ++ rest`. -/
def stripPre : Path → Path → Option Path
  | [], q => some q
  | _ :: _, [] => none
  | a :: as, b :: bs => if a = b then stripPre as bs else none

theorem stripPre_eq_some (base q rest : Path) :
    stripPre base q = some rest ↔ q = base ++ rest := by
  induction base generalizing q with
  | nil =>
    simp only [stripPre, List.nil_append, Option.some.injEq]
  | cons a as ih =>
    cases q with
    | nil =>
      simp only [stripPre]
      constructor
      · intro h; cases h
      · intro h; cases h
    | cons b bs =>
      by_cases hab : a = b
      · subst hab
        rw [stripPre, if_pos rfl, ih, List.cons_append]
        simp
      · rw [stripPre, if_neg hab]
        constructor
        · intro h; cases h
        · intro h
          rw [List.cons_append] at h
          injection h with h1 _
          exact (hab h1.symm).elim

theorem stripPre_snoc (base : Path) (u : String) (q r : Path) :
    stripPre (base ++ [u]) q = some r ↔ stripPre base q = some (u :: r) := by
  rw [stripPre_eq_some, stripPre_eq_some, List.append_assoc]
  rfl

theorem isUnder_eq_isSome_stripPre (base q : Path) :
    isUnder base q = (stripPre base q).isSome := by
  induction base generalizing q with
  | nil => simp [isUnder, stripPre]
  | cons a as ih =>
    cases q with
    | nil => simp [isUnder, stripPre]
    | cons b bs =>
      by_cases hab : a = b
      · subst hab
        simp [isUnder, stripPre, ih]
      · simp [isUnder, stripPre, hab]

theorem childOf_eq_stripPre (base q : Path) (v : String) :
    childOf base q = some v ↔ stripPre base q = some [v] := by
  rw [childOf_eq_some, stripPre_eq_some]

/-- Inversion of a successful `os.unlink`. -/
theorem os_unlink_ok_inv {fs fs' : FS} {p : Path} {tr : List Ev}
    (h : os_unlink fs p = (.ok (), fs', tr)) :
    fs' = fs.del p ∧ (∃ n, fs.find p = some n ∧ n.kind ≠ NodeKind.dir) := by
  rcases hf : fs.find p with _ | n
  · rw [os_unlink, hf] at h
    exact absurd h (by simp)
  · by_cases hk : n.kind = NodeKind.dir
    · rw [os_unlink_dir hf hk] at h
      exact absurd h (by simp)
    · rw [os_unlink_file hf hk] at h
      exact ⟨(congrArg (fun x => x.2.1) h).symm, n, rfl, hk⟩

/-- Inversion of a successful `shutil.rmtree`. -/
theorem os_rmtree_ok_inv {fs fs' : FS} {p : Path} {tr : List Ev}
    (h : os_rmtree fs p = (.ok (), fs', tr)) :
    fs' = fs.delTree p ∧ (∃ n, fs.find p = some n ∧ n.kind = NodeKind.dir) := by
  rcases hf : fs.find p with _ | n
  · rw [os_rmtree, hf] at h
    exact absurd h (by simp)
  · by_cases hk : n.kind = NodeKind.dir
    · rw [os_rmtree_dir hf hk] at h
      exact ⟨(congrArg (fun x => x.2.1) h).symm, n, rfl, hk⟩
    · rw [os_rmtree_nondir hf hk] at h
      exact absurd h (by simp)

/-- Inversion of a successful `os.scandir`. -/
theorem os_scandir_ok_inv {fs : FS} {p : Path} {vs : List String}
    (h : os_scandir fs p = .ok vs) :
    vs = fs.childNames p ∧ (∃ n, fs.find p = some n ∧ n.kind = NodeKind.dir) := by
  rcases hf : fs.find p with _ | n
  · rw [os_scandir, hf] at h
    cases h
  · by_cases hk : n.kind = NodeKind.dir
    · rw [os_scandir_dir hf hk] at h
      injection h with h1
      exact ⟨h1.symm, n, rfl, hk⟩
    · simp only [os_scandir, hf] at h
      rw [if_neg hk] at h
      cases h

/-- Deletion set of the table-level pruning loop over the listed names
`vs`: the children of the schema directory whose name is listed but is no
table name. -/
def delTabB (tables : List Table) (schDir : Path) (vs : List String)
    (q : Path) : Bool :=
  match childOf schDir q with
  | some v => decide (v ∈ vs) && (dictLast Table.name tables v).isNone
  | none => false

theorem pruneTables_ok_char {tables : List Table} {schDir : Path}
    {vs : List String} {fs fs' : FS} {tr : List Ev}
    (h : pruneTables tables schDir vs fs = (.ok (), fs', tr)) :
    ∀ q, fs'.find q =
      if delTabB tables schDir vs q then none else fs.find q := by
  induction vs generalizing fs tr with
  | nil =>
    simp only [pruneTables] at h
    have hfs : fs' = fs := (congrArg (fun x => x.2.1) h).symm
    subst hfs
    intro q
    rcases hco : childOf schDir q with _ | v <;> simp [delTabB, hco]
  | cons v vs ih =>
    rcases hl : dictLast Table.name tables v with _ | t0
    · -- not a table name: unlink then continue
      rw [pruneTables, hl] at h
      rcases hu : os_unlink fs (schDir ++ [v]) with ⟨ru, fs1, tr1⟩
      rw [hu] at h
      cases ru with
      | error e => simp at h
      | ok u =>
        cases u
        dsimp only at h
        rcases hrest : pruneTables tables schDir vs fs1 with ⟨rr, fs2, tr2⟩
        rw [hrest] at h
        dsimp only at h
        cases rr with
        | error e => simp at h
        | ok u =>
          cases u
          have hfs : fs2 = fs' := congrArg (fun x => x.2.1) h
          rw [hfs] at hrest
          obtain ⟨hdel, n, hn, hk⟩ := os_unlink_ok_inv hu
          subst hdel
          intro q
          rw [ih hrest q]
          rcases hco : childOf schDir q with _ | v2
          · have hqne : schDir ++ [v] ≠ q := by
              intro he
              have h9 : childOf schDir q = some v :=
                (childOf_eq_some _ _ _).mpr he.symm
              rw [hco] at h9
              cases h9
            simp only [delTabB, hco]
            rw [if_neg (by simp), if_neg (by simp), find_del, if_neg hqne]
          · by_cases hv : v2 = v
            · subst hv
              have hq : q = schDir ++ [v2] := (childOf_eq_some _ _ _).mp hco
              have hcond : delTabB tables schDir (v2 :: vs) q = true := by
                simp [delTabB, hco, hl]
              by_cases hc : delTabB tables schDir vs q = true
              · rw [if_pos hc, hcond, if_pos rfl]
              · rw [if_neg hc, hcond, if_pos rfl, find_del, if_pos hq.symm]
            · have hqne : schDir ++ [v] ≠ q := by
                intro he
                have h9 : childOf schDir q = some v :=
                  (childOf_eq_some _ _ _).mpr he.symm
                rw [hco] at h9
                injection h9 with h1
                exact hv h1
              have hcond : delTabB tables schDir (v :: vs) q =
                  delTabB tables schDir vs q := by
                simp only [delTabB, hco]
                have h8 : decide (v2 ∈ v :: vs) = decide (v2 ∈ vs) := by
                  simp [List.mem_cons, hv]
                rw [h8]
              rw [hcond]
              by_cases hc : delTabB tables schDir vs q = true
              · rw [if_pos hc, if_pos hc]
              · rw [if_neg hc, if_neg hc, find_del, if_neg hqne]
    · -- a table name: skipped
      rw [pruneTables, hl] at h
      intro q
      rw [ih h q]
      rcases hco : childOf schDir q with _ | v2
      · simp [delTabB, hco]
      · by_cases hv : v2 = v
        · subst hv
          have hcond : delTabB tables schDir (v2 :: vs) q =
              delTabB tables schDir vs q := by
            simp [delTabB, hco, hl]
          rw [hcond]
        · have hcond : delTabB tables schDir (v :: vs) q =
              delTabB tables schDir vs q := by
            simp only [delTabB, hco]
            have h8 : decide (v2 ∈ v :: vs) = decide (v2 ∈ vs) := by
              simp [List.mem_cons, hv]
            rw [h8]
          rw [hcond]

theorem isUnder_false_of_stripPre {base q : Path} (h : stripPre base q = none) :
    isUnder base q = false := by
  rw [isUnder_eq_isSome_stripPre, h]
  rfl

theorem isUnder_true_of_stripPre {base q r : Path}
    (h : stripPre base q = some r) : isUnder base q = true := by
  rw [isUnder_eq_isSome_stripPre, h]
  rfl

theorem stripPre_snoc_none {base : Path} {u : String} {q : Path}
    (h : ∀ r, stripPre base q ≠ some (u :: r)) :
    stripPre (base ++ [u]) q = none := by
  cases hs : stripPre (base ++ [u]) q with
  | none => rfl
  | some r => exact absurd ((stripPre_snoc base u q r).mp hs) (h r)

/-- Deletion set of the schema-level pruning loop of a retained database,
over the listed names `us`: subtrees of listed non-schema names, and listed
stale table entries inside retained schemas. -/
def delSchB (fs : FS) (db : Database) (dbDir : Path) (us : List String)
    (q : Path) : Bool :=
  match stripPre dbDir q with
  | some (u :: rest) =>
    decide (u ∈ us) &&
    (match dictLast Schema.name db.schemas u with
     | none => true
     | some sch =>
       match rest with
       | [v] => (fs.find q).isSome && (dictLast Table.name sch.tables v).isNone
       | _ => false)
  | _ => false

theorem pruneSchemasLoop_ok_char {db : Database} {dbDir : Path}
    {us : List String} {fs fs' : FS} {tr : List Ev}
    (h : pruneSchemasLoop db dbDir us fs = (.ok (), fs', tr)) :
    ∀ q, fs'.find q =
      if delSchB fs db dbDir us q then none else fs.find q := by
  induction us generalizing fs tr with
  | nil =>
    simp only [pruneSchemasLoop] at h
    have hfs : fs' = fs := (congrArg (fun x => x.2.1) h).symm
    subst hfs
    intro q
    rcases hsp : stripPre dbDir q with _ | rest
    · simp [delSchB, hsp]
    · cases rest with
      | nil => simp [delSchB, hsp]
      | cons u0 rest => simp [delSchB, hsp]
  | cons u us ih =>
    rcases hl : dictLast Schema.name db.schemas u with _ | sch
    · -- not a schema name: recursive delete, then continue
      rw [pruneSchemasLoop, hl] at h
      rcases hr : os_rmtree fs (dbDir ++ [u]) with ⟨rr, fs1, tr1⟩
      rw [hr] at h
      cases rr with
      | error e => simp at h
      | ok uu =>
        cases uu
        dsimp only at h
        rcases hrest : pruneSchemasLoop db dbDir us fs1 with ⟨r2, fs2, tr2⟩
        rw [hrest] at h
        dsimp only at h
        cases r2 with
        | error e => simp at h
        | ok uu =>
          cases uu
          have hfs : fs2 = fs' := congrArg (fun x => x.2.1) h
          rw [hfs] at hrest
          obtain ⟨hdel, n, hn, hk⟩ := os_rmtree_ok_inv hr
          subst hdel
          intro q
          rw [ih hrest q]
          rcases hsp : stripPre dbDir q with _ | rest
          · have hiso : isUnder (dbDir ++ [u]) q = false :=
              isUnder_false_of_stripPre (stripPre_snoc_none
                (fun r hc => by rw [hsp] at hc; cases hc))
            simp only [delSchB, hsp]
            rw [if_neg (by simp), if_neg (by simp), find_delTree, hiso,
              if_neg (by simp)]
          · cases rest with
            | nil =>
              have hiso : isUnder (dbDir ++ [u]) q = false :=
                isUnder_false_of_stripPre (stripPre_snoc_none
                  (fun r hc => by rw [hsp] at hc; cases hc))
              simp only [delSchB, hsp]
              rw [if_neg (by simp), if_neg (by simp), find_delTree, hiso,
                if_neg (by simp)]
            | cons u0 rest =>
              by_cases hu : u0 = u
              · subst hu
                -- whole subtree of the dropped schema entry is gone
                have hiso : isUnder (dbDir ++ [u0]) q = true :=
                  isUnder_true_of_stripPre
                    ((stripPre_snoc dbDir u0 q rest).mpr hsp)
                have hcond : delSchB fs db dbDir (u0 :: us) q = true := by
                  simp [delSchB, hsp, hl]
                rw [hcond, if_pos rfl]
                by_cases hc : delSchB (fs.delTree (dbDir ++ [u0])) db dbDir us q
                · rw [if_pos hc]
                · rw [if_neg hc, find_delTree, hiso, if_pos (by simp)]
              · have hiso : isUnder (dbDir ++ [u]) q = false :=
                  isUnder_false_of_stripPre (stripPre_snoc_none
                    (fun r hc => by
                      rw [hsp] at hc
                      injection hc with h9
                      injection h9 with h8
                      exact hu h8))
                have hfq : (fs.delTree (dbDir ++ [u])).find q = fs.find q := by
                  rw [find_delTree, hiso, if_neg (by simp)]
                have hcond : delSchB (fs.delTree (dbDir ++ [u])) db dbDir us q
                    = delSchB fs db dbDir (u :: us) q := by
                  simp only [delSchB, hsp, hfq]
                  have h8 : decide (u0 ∈ u :: us) = decide (u0 ∈ us) := by
                    simp [List.mem_cons, hu]
                  rw [h8]
                rw [hcond]
                by_cases hc : delSchB fs db dbDir (u :: us) q = true
                · rw [if_pos hc, if_pos hc]
                · rw [if_neg hc, if_neg hc, hfq]
    · -- a retained schema: prune its stale tables, then continue
      rw [pruneSchemasLoop, hl] at h
      simp only [pruneSchema] at h
      rcases hsc : os_scandir fs (dbDir ++ [u]) with e | vs0
      · rw [hsc] at h
        simp at h
      rw [hsc] at h
      dsimp only at h
      obtain ⟨hvs, nd, hnd1, hndk⟩ := os_scandir_ok_inv hsc
      rcases hpt : pruneTables sch.tables (dbDir ++ [u]) vs0 fs
        with ⟨rt, fs1, tr1⟩
      rw [hpt] at h
      cases rt with
      | error e => simp at h
      | ok uu =>
        cases uu
        dsimp only at h
        rcases hrest : pruneSchemasLoop db dbDir us fs1 with ⟨r2, fs2, tr2⟩
        rw [hrest] at h
        dsimp only at h
        cases r2 with
        | error e => simp at h
        | ok uu =>
          cases uu
          have hfs : fs2 = fs' := congrArg (fun x => x.2.1) h
          rw [hfs] at hrest
          have hchar := pruneTables_ok_char hpt
          intro q
          rw [ih hrest q]
          -- relate the head's table-level deletion set to the predicate
          rcases hsp : stripPre dbDir q with _ | rest
          · have hcn : childOf (dbDir ++ [u]) q = none := by
              cases hc : childOf (dbDir ++ [u]) q with
              | none => rfl
              | some v =>
                have h9 := (stripPre_snoc dbDir u q [v]).mp
                  ((childOf_eq_stripPre _ _ _).mp hc)
                rw [hsp] at h9
                cases h9
            have hfq : fs1.find q = fs.find q := by
              rw [hchar q]
              simp [delTabB, hcn]
            simp only [delSchB, hsp]
            rw [if_neg (by simp), if_neg (by simp), hfq]
          · cases rest with
            | nil =>
              have hcn : childOf (dbDir ++ [u]) q = none := by
                cases hc : childOf (dbDir ++ [u]) q with
                | none => rfl
                | some v =>
                  have h9 := (stripPre_snoc dbDir u q [v]).mp
                    ((childOf_eq_stripPre _ _ _).mp hc)
                  rw [hsp] at h9
                  cases h9
              have hfq : fs1.find q = fs.find q := by
                rw [hchar q]
                simp [delTabB, hcn]
              simp only [delSchB, hsp]
              rw [if_neg (by simp), if_neg (by simp), hfq]
            | cons u0 rest =>
              by_cases hu : u0 = u
              · subst hu
                cases rest with
                | nil =>
                  -- q is the retained schema directory itself: never deleted
                  have hcn : childOf (dbDir ++ [u0]) q = none := by
                    cases hc : childOf (dbDir ++ [u0]) q with
                    | none => rfl
                    | some v =>
                      have h9 := (stripPre_snoc dbDir u0 q [v]).mp
                        ((childOf_eq_stripPre _ _ _).mp hc)
                      rw [hsp] at h9
                      injection h9 with h8
                      injection h8 with _ h7
                      cases h7
                  have hfq : fs1.find q = fs.find q := by
                    rw [hchar q]
                    simp [delTabB, hcn]
                  have hcond : delSchB fs1 db dbDir us q =
                      delSchB fs db dbDir (u0 :: us) q := by
                    simp only [delSchB, hsp, hl, hfq]
                    simp
                  rw [hcond]
                  by_cases hc : delSchB fs db dbDir (u0 :: us) q = true
                  · rw [if_pos hc, if_pos hc]
                  · rw [if_neg hc, if_neg hc, hfq]
                | cons v rest2 =>
                  cases rest2 with
                  | nil =>
                    -- q is a table entry of the retained schema
                    have hq : q = (dbDir ++ [u0]) ++ [v] := by
                      rw [List.append_assoc]
                      exact (stripPre_eq_some _ _ _).mp hsp
                    have hcv : childOf (dbDir ++ [u0]) q = some v :=
                      (childOf_eq_stripPre _ _ _).mpr
                        ((stripPre_snoc dbDir u0 q [v]).mpr hsp)
                    have hvmem : (v ∈ vs0) ↔ (fs.find q).isSome = true := by
                      rw [hvs, mem_childNames, ← hq]
                    have hmm : decide (v ∈ vs0) = (fs.find q).isSome := by
                      by_cases hm : v ∈ vs0
                      · rw [decide_eq_true hm]
                        exact (hvmem.mp hm).symm
                      · rw [decide_eq_false hm]
                        cases hf : (fs.find q).isSome with
                        | false => rfl
                        | true => exact absurd (hvmem.mpr hf) hm
                    have hhead : delTabB sch.tables (dbDir ++ [u0]) vs0 q =
                        ((fs.find q).isSome &&
                          (dictLast Table.name sch.tables v).isNone) := by
                      simp only [delTabB, hcv, hmm]
                    have htarget : delSchB fs db dbDir (u0 :: us) q =
                        ((fs.find q).isSome &&
                          (dictLast Table.name sch.tables v).isNone) := by
                      simp [delSchB, hsp, hl]
                    by_cases hdel : ((fs.find q).isSome &&
                        (dictLast Table.name sch.tables v).isNone) = true
                    · -- deleted by the head iteration
                      have hfq : fs1.find q = none := by
                        rw [hchar q, hhead, if_pos hdel]
                      rw [htarget, if_pos hdel]
                      by_cases hc : delSchB fs1 db dbDir us q = true
                      · rw [if_pos hc]
                      · rw [if_neg hc, hfq]
                    · have hfq : fs1.find q = fs.find q := by
                        rw [hchar q, hhead, if_neg hdel]
                      have hcond : delSchB fs1 db dbDir us q =
                          delSchB fs db dbDir us q := by
                        simp only [delSchB, hsp, hl, hfq]
                      rw [hcond, htarget, if_neg hdel]
                      have htail : delSchB fs db dbDir us q = false := by
                        simp only [delSchB, hsp, hl]
                        rcases hb : (fs.find q).isSome &&
                          (dictLast Table.name sch.tables v).isNone
                        · simp
                        · exact absurd hb hdel
                      rw [htail]
                      simp only [Bool.false_eq_true, if_false]
                      rw [hfq]
                  | cons w rest3 =>
                    -- q is deeper than a table entry: untouched, not doomed
                    have hcn : childOf (dbDir ++ [u0]) q = none := by
                      cases hc : childOf (dbDir ++ [u0]) q with
                      | none => rfl
                      | some v2 =>
                        have h9 := (stripPre_snoc dbDir u0 q [v2]).mp
                          ((childOf_eq_stripPre _ _ _).mp hc)
                        rw [hsp] at h9
                        injection h9 with h8
                        injection h8 with _ h7
                        injection h7 with _ h6
                        cases h6
                    have hfq : fs1.find q = fs.find q := by
                      rw [hchar q]
                      simp [delTabB, hcn]
                    have hcond : delSchB fs1 db dbDir us q =
                        delSchB fs db dbDir (u0 :: us) q := by
                      simp only [delSchB, hsp, hl, hfq]
                      simp
                    rw [hcond]
                    by_cases hc : delSchB fs db dbDir (u0 :: us) q = true
                    · rw [if_pos hc, if_pos hc]
                    · rw [if_neg hc, if_neg hc, hfq]
              · -- another name's entry: untouched by this iteration
                have hcn : childOf (dbDir ++ [u]) q = none := by
                  cases hc : childOf (dbDir ++ [u]) q with
                  | none => rfl
                  | some v =>
                    have h9 := (stripPre_snoc dbDir u q [v]).mp
                      ((childOf_eq_stripPre _ _ _).mp hc)
                    rw [hsp] at h9
                    injection h9 with h8
                    injection h8 with h7
                    exact (hu h7).elim
                have hfq : fs1.find q = fs.find q := by
                  rw [hchar q]
                  simp [delTabB, hcn]
                have hcond : delSchB fs1 db dbDir us q =
                    delSchB fs db dbDir (u :: us) q := by
                  simp only [delSchB, hsp, hfq]
                  have h8 : decide (u0 ∈ u :: us) = decide (u0 ∈ us) := by
                    simp [List.mem_cons, hu]
                  rw [h8]
                rw [hcond]
                by_cases hc : delSchB fs db dbDir (u :: us) q = true
                · rw [if_pos hc, if_pos hc]
                · rw [if_neg hc, if_neg hc, hfq]

/-- Doom of a path inside a retained database directory, given the
remaining components `rest` of the path below that directory: a listed
entry that is no schema name (the whole subtree goes), or a listed stale
table entry inside a retained schema. -/
def dbEntryDoom (fs : FS) (db : Database) (dbDir : Path) (rest : Path)
    (q : Path) : Bool :=
  match rest with
  | u :: rest2 =>
    (fs.find (dbDir ++ [u])).isSome &&
    (match dictLast Schema.name db.schemas u with
     | none => true
     | some sch =>
       match rest2 with
       | [v] => (fs.find q).isSome && (dictLast Table.name sch.tables v).isNone
       | _ => false)
  | [] => false

/-- Deletion set of pruning one retained database directory. -/
def doomedInDb (fs : FS) (db : Database) (dbDir : Path) (q : Path) : Bool :=
  match stripPre dbDir q with
  | some rest => dbEntryDoom fs db dbDir rest q
  | none => false

theorem dbEntryDoom_congr {fs1 fs : FS} {db : Database} {dbDir : Path}
    {rest q : Path} (hq : fs1.find q = fs.find q)
    (hguard : ∀ u rest2, rest = u :: rest2 →
      (fs1.find (dbDir ++ [u])).isSome = (fs.find (dbDir ++ [u])).isSome) :
    dbEntryDoom fs1 db dbDir rest q = dbEntryDoom fs db dbDir rest q := by
  cases rest with
  | nil => rfl
  | cons u rest2 =>
    simp only [dbEntryDoom, hq, hguard u rest2 rfl]

theorem pruneDb_ok_char {db : Database} {dbDir : Path} {fs fs' : FS}
    {tr : List Ev}
    (h : pruneDb db dbDir fs = (.ok (), fs', tr)) :
    ∀ q, fs'.find q = if doomedInDb fs db dbDir q then none else fs.find q := by
  simp only [pruneDb] at h
  rcases hsc : os_scandir fs dbDir with e | us
  · rw [hsc] at h
    simp at h
  rw [hsc] at h
  dsimp only at h
  obtain ⟨hus, nd, hnd1, hndk⟩ := os_scandir_ok_inv hsc
  have hchar := pruneSchemasLoop_ok_char h
  intro q
  rw [hchar q]
  have hcond : delSchB fs db dbDir us q = doomedInDb fs db dbDir q := by
    rcases hsp : stripPre dbDir q with _ | rest
    · simp [delSchB, doomedInDb, hsp]
    · cases rest with
      | nil => simp [delSchB, doomedInDb, hsp, dbEntryDoom]
      | cons u rest2 =>
        have hmem : decide (u ∈ us) = (fs.find (dbDir ++ [u])).isSome := by
          by_cases hm : u ∈ us
          · rw [decide_eq_true hm]
            rw [hus, mem_childNames] at hm
            exact hm.symm
          · rw [decide_eq_false hm]
            cases hf : (fs.find (dbDir ++ [u])).isSome with
            | false => rfl
            | true =>
              exact absurd (by rw [hus, mem_childNames]; exact hf) hm
        simp only [delSchB, doomedInDb, hsp, dbEntryDoom, hmem]
  rw [hcond]

/-- Deletion set of the top-level pruning loop over the listed names `ss`:
subtrees of listed non-database names other than the sentinel, and — inside
listed retained databases — the corresponding nested deletions. -/
def delTopB (fs : FS) (dbs : List Database) (D : Path) (ss : List String)
    (q : Path) : Bool :=
  match stripPre D q with
  | some (s :: rest) =>
    if s = ".pgfs" then false
    else
      decide (s ∈ ss) &&
      (match dictLast Database.name dbs s with
       | none => true
       | some db => dbEntryDoom fs db (D ++ [s]) rest q)
  | _ => false

theorem pruneDbsLoop_ok_char {dbs : List Database} {D : Path}
    {ss : List String} {fs fs' : FS} {tr : List Ev}
    (h : pruneDbsLoop dbs D ss fs = (.ok (), fs', tr)) :
    ∀ q, fs'.find q =
      if delTopB fs dbs D ss q then none else fs.find q := by
  induction ss generalizing fs tr with
  | nil =>
    simp only [pruneDbsLoop] at h
    have hfs : fs' = fs := (congrArg (fun x => x.2.1) h).symm
    subst hfs
    intro q
    rcases hsp : stripPre D q with _ | rest
    · simp [delTopB, hsp]
    · cases rest with
      | nil => simp [delTopB, hsp]
      | cons s rest => simp [delTopB, hsp]
  | cons s ss ih =>
    by_cases hdot : s = ".pgfs"
    · -- the sentinel is skipped
      rw [pruneDbsLoop, if_pos hdot] at h
      intro q
      rw [ih h q]
      rcases hsp : stripPre D q with _ | rest
      · simp [delTopB, hsp]
      · cases rest with
        | nil => simp [delTopB, hsp]
        | cons s0 rest =>
          by_cases hs0 : s0 = ".pgfs"
          · simp [delTopB, hsp, hs0]
          · have hns : s0 ≠ s := fun hn => hs0 (hn.trans hdot)
            have h8 : decide (s0 ∈ s :: ss) = decide (s0 ∈ ss) := by
              simp [List.mem_cons, hns]
            simp only [delTopB, hsp, h8]
    · rw [pruneDbsLoop, if_neg hdot] at h
      rcases hl : dictLast Database.name dbs s with _ | db
      · -- not a database name: recursive delete, then continue
        rw [hl] at h
        rcases hr : os_rmtree fs (D ++ [s]) with ⟨rr, fs1, tr1⟩
        rw [hr] at h
        cases rr with
        | error e => simp at h
        | ok uu =>
          cases uu
          dsimp only at h
          rcases hrest : pruneDbsLoop dbs D ss fs1 with ⟨r2, fs2, tr2⟩
          rw [hrest] at h
          dsimp only at h
          cases r2 with
          | error e => simp at h
          | ok uu =>
            cases uu
            have hfs : fs2 = fs' := congrArg (fun x => x.2.1) h
            rw [hfs] at hrest
            obtain ⟨hdel, n, hn, hk⟩ := os_rmtree_ok_inv hr
            subst hdel
            intro q
            rw [ih hrest q]
            rcases hsp : stripPre D q with _ | rest
            · have hiso : isUnder (D ++ [s]) q = false :=
                isUnder_false_of_stripPre (stripPre_snoc_none
                  (fun r hc => by rw [hsp] at hc; cases hc))
              simp only [delTopB, hsp]
              rw [if_neg (by simp), if_neg (by simp), find_delTree, hiso,
                if_neg (by simp)]
            · cases rest with
              | nil =>
                have hiso : isUnder (D ++ [s]) q = false :=
                  isUnder_false_of_stripPre (stripPre_snoc_none
                    (fun r hc => by rw [hsp] at hc; cases hc))
                simp only [delTopB, hsp]
                rw [if_neg (by simp), if_neg (by simp), find_delTree, hiso,
                  if_neg (by simp)]
              | cons s0 rest =>
                by_cases hs : s0 = s
                · subst hs
                  have hiso : isUnder (D ++ [s0]) q = true :=
                    isUnder_true_of_stripPre
                      ((stripPre_snoc D s0 q rest).mpr hsp)
                  have hcond : delTopB fs dbs D (s0 :: ss) q = true := by
                    simp [delTopB, hsp, hdot, hl]
                  rw [hcond, if_pos rfl]
                  by_cases hc : delTopB (fs.delTree (D ++ [s0])) dbs D ss q
                  · rw [if_pos hc]
                  · rw [if_neg hc, find_delTree, hiso, if_pos (by simp)]
                · have hiso : isUnder (D ++ [s]) q = false :=
                    isUnder_false_of_stripPre (stripPre_snoc_none
                      (fun r hc => by
                        rw [hsp] at hc
                        injection hc with h9
                        injection h9 with h8
                        exact hs h8))
                  have hfq : (fs.delTree (D ++ [s])).find q = fs.find q := by
                    rw [find_delTree, hiso, if_neg (by simp)]
                  by_cases hs0 : s0 = ".pgfs"
                  · simp [delTopB, hsp, hs0, hfq]
                  · have hguard : ∀ u rest2, rest = u :: rest2 →
                        ((fs.delTree (D ++ [s])).find ((D ++ [s0]) ++ [u])).isSome
                        = (fs.find ((D ++ [s0]) ++ [u])).isSome := by
                      intro u rest2 _
                      have hiso2 : isUnder (D ++ [s]) ((D ++ [s0]) ++ [u])
                          = false := by
                        apply isUnder_false_of_stripPre
                        apply stripPre_snoc_none
                        intro r hc
                        have h9 : stripPre D ((D ++ [s0]) ++ [u]) =
                            some ([s0] ++ [u]) := by
                          rw [stripPre_eq_some, List.append_assoc]
                        rw [h9] at hc
                        injection hc with h8
                        injection h8 with h7
                        exact hs h7
                      rw [find_delTree, hiso2, if_neg (by simp)]
                    have hcond : delTopB (fs.delTree (D ++ [s])) dbs D ss q =
                        delTopB fs dbs D (s :: ss) q := by
                      simp only [delTopB, hsp]
                      rw [if_neg hs0, if_neg hs0]
                      have h8 : decide (s0 ∈ s :: ss) = decide (s0 ∈ ss) := by
                        simp [List.mem_cons, hs]
                      rw [h8]
                      rcases hl2 : dictLast Database.name dbs s0 with _ | db0
                      · rfl
                      · dsimp only
                        rw [dbEntryDoom_congr hfq hguard]
                    rw [hcond]
                    by_cases hc : delTopB fs dbs D (s :: ss) q = true
                    · rw [if_pos hc, if_pos hc]
                    · rw [if_neg hc, if_neg hc, hfq]
      · -- a retained database: prune inside it, then continue
        rw [hl] at h
        dsimp only at h
        rcases hp : pruneDb db (D ++ [s]) fs with ⟨rp, fs1, tr1⟩
        rw [hp] at h
        cases rp with
        | error e => simp at h
        | ok uu =>
          cases uu
          dsimp only at h
          rcases hrest : pruneDbsLoop dbs D ss fs1 with ⟨r2, fs2, tr2⟩
          rw [hrest] at h
          dsimp only at h
          cases r2 with
          | error e => simp at h
          | ok uu =>
            cases uu
            have hfs : fs2 = fs' := congrArg (fun x => x.2.1) h
            rw [hfs] at hrest
            have hchar := pruneDb_ok_char hp
            intro q
            rw [ih hrest q]
            rcases hsp : stripPre D q with _ | rest
            · have hdq : doomedInDb fs db (D ++ [s]) q = false := by
                rw [doomedInDb, stripPre_snoc_none
                  (fun r hc => by rw [hsp] at hc; cases hc)]
              have hfq : fs1.find q = fs.find q := by
                rw [hchar q, hdq]
                simp
              simp only [delTopB, hsp]
              rw [if_neg (by simp), if_neg (by simp), hfq]
            · cases rest with
              | nil =>
                have hdq : doomedInDb fs db (D ++ [s]) q = false := by
                  rw [doomedInDb, stripPre_snoc_none
                    (fun r hc => by rw [hsp] at hc; cases hc)]
                have hfq : fs1.find q = fs.find q := by
                  rw [hchar q, hdq]
                  simp
                simp only [delTopB, hsp]
                rw [if_neg (by simp), if_neg (by simp), hfq]
              | cons s0 rest =>
                by_cases hs : s0 = s
                · subst hs
                  -- q lies inside the retained database's directory
                  have hstr : stripPre (D ++ [s0]) q = some rest :=
                    (stripPre_snoc D s0 q rest).mpr hsp
                  have hdq : doomedInDb fs db (D ++ [s0]) q =
                      dbEntryDoom fs db (D ++ [s0]) rest q := by
                    rw [doomedInDb, hstr]
                  have htarget : delTopB fs dbs D (s0 :: ss) q =
                      dbEntryDoom fs db (D ++ [s0]) rest q := by
                    simp [delTopB, hsp, hdot, hl]
                  by_cases hdel : dbEntryDoom fs db (D ++ [s0]) rest q = true
                  · have hfq : fs1.find q = none := by
                      rw [hchar q, hdq, if_pos hdel]
                    rw [htarget, if_pos hdel]
                    by_cases hc : delTopB fs1 dbs D ss q = true
                    · rw [if_pos hc]
                    · rw [if_neg hc, hfq]
                  · have hfq : fs1.find q = fs.find q := by
                      rw [hchar q, hdq, if_neg hdel]
                    rw [htarget, if_neg hdel]
                    -- the tail predicate is unchanged by the head's pruning
                    have hguard : ∀ u rest2, rest = u :: rest2 →
                        (fs1.find ((D ++ [s0]) ++ [u])).isSome
                        = (fs.find ((D ++ [s0]) ++ [u])).isSome := by
                      intro u rest2 hrq
                      have hstru : stripPre (D ++ [s0]) ((D ++ [s0]) ++ [u])
                          = some [u] := by
                        rw [stripPre_eq_some]
                      have hdru : doomedInDb fs db (D ++ [s0])
                          ((D ++ [s0]) ++ [u]) =
                          dbEntryDoom fs db (D ++ [s0]) [u]
                            ((D ++ [s0]) ++ [u]) := by
                        rw [doomedInDb, hstru]
                      rcases hls : dictLast Schema.name db.schemas u with _ | sch
                      · -- the entry would have been recursively deleted, but
                        -- then q itself would be doomed, contradicting hdel
                        cases hguard0 : (fs.find ((D ++ [s0]) ++ [u])).isSome
                          with
                        | false =>
                          have hdru2 : doomedInDb fs db (D ++ [s0])
                              ((D ++ [s0]) ++ [u]) = false := by
                            rw [hdru, dbEntryDoom, hguard0]
                            simp
                          rw [hchar _, hdru2, if_neg (by simp)]
                          exact hguard0
                        | true =>
                          exfalso
                          apply hdel
                          rw [hrq, dbEntryDoom, hguard0, hls]
                          simp
                      · have hdru2 : doomedInDb fs db (D ++ [s0])
                            ((D ++ [s0]) ++ [u]) = false := by
                          rw [hdru, dbEntryDoom, hls]
                          simp
                        rw [hchar _, hdru2]
                        simp
                    have hcond : delTopB fs1 dbs D ss q =
                        delTopB fs dbs D ss q := by
                      simp only [delTopB, hsp]
                      by_cases hs0 : s0 = ".pgfs"
                      · rw [if_pos hs0, if_pos hs0]
                      · rw [if_neg hs0, if_neg hs0]
                        rcases hl2 : dictLast Database.name dbs s0 with _ | db0
                        · rfl
                        · dsimp only
                          rw [dbEntryDoom_congr hfq hguard]
                    rw [hcond]
                    -- the tail cannot delete q either: for q's own top
                    -- component the nested condition is exactly hdel
                    have hfalse : delTopB fs dbs D ss q = false := by
                      simp only [delTopB, hsp]
                      rw [if_neg hdot, hl]
                      dsimp only
                      cases hb : dbEntryDoom fs db (D ++ [s0]) rest q with
                      | false => simp
                      | true => exact absurd hb hdel
                    rw [hfalse, if_neg (by simp)]
                    exact hfq
                · -- an entry of another name: untouched by this iteration
                  have hfq : fs1.find q = fs.find q := by
                    rw [hchar q, doomedInDb, stripPre_snoc_none
                      (fun r hc => by
                        rw [hsp] at hc
                        injection hc with h9
                        injection h9 with h8
                        exact hs h8)]
                    simp
                  have hguard : ∀ u rest2, rest = u :: rest2 →
                      (fs1.find ((D ++ [s0]) ++ [u])).isSome
                      = (fs.find ((D ++ [s0]) ++ [u])).isSome := by
                    intro u rest2 _
                    rw [hchar _, doomedInDb, stripPre_snoc_none
                      (fun r hc => by
                        have h9 : stripPre D ((D ++ [s0]) ++ [u]) =
                            some ([s0] ++ [u]) := by
                          rw [stripPre_eq_some, List.append_assoc]
                        rw [h9] at hc
                        injection hc with h8
                        injection h8 with h7
                        exact hs h7)]
                    simp
                  have hcond : delTopB fs1 dbs D ss q =
                      delTopB fs dbs D (s :: ss) q := by
                    simp only [delTopB, hsp]
                    by_cases hs0 : s0 = ".pgfs"
                    · rw [if_pos hs0, if_pos hs0]
                    · rw [if_neg hs0, if_neg hs0]
                      have h8 : decide (s0 ∈ s :: ss) = decide (s0 ∈ ss) := by
                        simp [List.mem_cons, hs]
                      rw [h8]
                      rcases hl2 : dictLast Database.name dbs s0 with _ | db0
                      · rfl
                      · dsimp only
                        rw [dbEntryDoom_congr hfq hguard]
                  rw [hcond]
                  by_cases hc : delTopB fs dbs D (s :: ss) q = true
                  · rw [if_pos hc, if_pos hc]
                  · rw [if_neg hc, if_neg hc, hfq]

/-- The deletion set of the whole pruning pass of `_write_tree`, run on
filesystem `fs`: every existing top-level entry other than the sentinel
whose name is no database name is removed with its whole subtree; inside a
retained database directory, every existing entry that is no schema name
is removed with its whole subtree; inside a retained schema directory,
every existing entry that is no table name is removed as a single entry.
Everything else survives. -/
def doomed (fs : FS) (dbs : List Database) (D : Path) (q : Path) : Bool :=
  match stripPre D q with
  | some (s :: rest) =>
    if s = ".pgfs" then false
    else
      (fs.find (D ++ [s])).isSome &&
      (match dictLast Database.name dbs s with
       | none => true
       | some db => dbEntryDoom fs db (D ++ [s]) rest q)
  | _ => false

/-- The pruning pass deletes exactly the `doomed` paths. -/
theorem pruneTop_ok_char {dbs : List Database} {D : Path} {fs fs' : FS}
    {tr : List Ev}
    (h : pruneTop dbs D fs = (.ok (), fs', tr)) :
    (∃ n, fs.find D = some n ∧ n.kind = NodeKind.dir) ∧
    ∀ q, fs'.find q = if doomed fs dbs D q then none else fs.find q := by
  simp only [pruneTop] at h
  rcases hsc : os_scandir fs D with e | ss
  · rw [hsc] at h
    simp at h
  rw [hsc] at h
  dsimp only at h
  obtain ⟨hss, nd, hnd1, hndk⟩ := os_scandir_ok_inv hsc
  refine ⟨⟨nd, hnd1, hndk⟩, ?_⟩
  have hchar := pruneDbsLoop_ok_char h
  intro q
  rw [hchar q]
  have hcond : delTopB fs dbs D ss q = doomed fs dbs D q := by
    rcases hsp : stripPre D q with _ | rest
    · simp [delTopB, doomed, hsp]
    · cases rest with
      | nil => simp [delTopB, doomed, hsp]
      | cons s rest =>
        by_cases hs0 : s = ".pgfs"
        · simp [delTopB, doomed, hsp, hs0]
        · have hmem : decide (s ∈ ss) = (fs.find (D ++ [s])).isSome := by
            by_cases hm : s ∈ ss
            · rw [decide_eq_true hm]
              rw [hss, mem_childNames] at hm
              exact hm.symm
            · rw [decide_eq_false hm]
              cases hf : (fs.find (D ++ [s])).isSome with
              | false => rfl
              | true =>
                exact absurd (by rw [hss, mem_childNames]; exact hf) hm
          simp only [delTopB, doomed, hsp, hmem]
  rw [hcond]

/-! ## Facts about the name-keyed dictionaries -/

theorem dictLast_eq_none_iff {α : Type} (key : α → String) (l : List α)
    (s : String) : dictLast key l s = none ↔ ∀ x ∈ l, key x ≠ s := by
  induction l with
  | nil => simp [dictLast]
  | cons x xs ih =>
    rw [dictLast]
    rcases hx : dictLast key xs s with _ | y
    · dsimp only
      by_cases hk : key x = s
      · rw [if_pos hk]
        simp only [List.mem_cons]
        constructor
        · intro h; cases h
        · intro h; exact absurd hk (h x (Or.inl rfl))
      · rw [if_neg hk]
        simp only [List.mem_cons]
        constructor
        · intro _ z hz
          rcases hz with he | hm
          · subst he; exact hk
          · exact (ih.mp hx) z hm
        · intro _; trivial
    · dsimp only
      simp only [List.mem_cons]
      constructor
      · intro h; cases h
      · intro h
        have h9 := ih.mpr (fun z hz => h z (Or.inr hz))
        rw [hx] at h9
        cases h9

theorem dictLast_of_mem_nodup {α : Type} (key : α → String) (l : List α)
    (x : α) (hmem : x ∈ l) (hnd : (l.map key).Nodup) :
    dictLast key l (key x) = some x := by
  induction l with
  | nil => exact absurd hmem (List.not_mem_nil x)
  | cons y ys ih =>
    rw [List.map_cons] at hnd
    obtain ⟨hny, hnd2⟩ := List.nodup_cons.mp hnd
    rcases List.mem_cons.mp hmem with he | hm
    · subst he
      have hnone : dictLast key ys (key x) = none := by
        rw [dictLast_eq_none_iff]
        intro z hz hk
        exact hny (by rw [← hk]; exact List.mem_map_of_mem key hz)
      rw [dictLast, hnone, if_pos rfl]
    · rw [dictLast, ih hm hnd2]

/-! ## The synchronizer: convergence -/

/-- Master characterization of a successful `_write_tree` run on a managed
root (destination directory exists with the sentinel file inside), for a
well-formed snapshot (sibling names unique, source files outside the
destination subtree): afterwards the top-level entries are exactly the
database names plus the sentinel, the entries of each database directory
are exactly its schema names, the entries of each schema directory are
exactly its table names, and every table entry shares its inode number
with the resolved source file, which is untouched. -/
theorem writeTreeInner_converged {pg D : Path} {dbs : List Database}
    {fs fs₂ : FS} {tr : List Ev}
    (hroot : ∃ n, fs.find D = some n ∧ n.kind = NodeKind.dir)
    (hdot : ∃ n, fs.find (D ++ [".pgfs"]) = some n ∧ n.kind = NodeKind.file)
    (hsrc : ∀ db ∈ dbs, ∀ sch ∈ db.schemas, ∀ t ∈ sch.tables,
      isUnder D (srcPath pg db.oid t) = false)
    (hndD : (dbs.map Database.name).Nodup)
    (hndS : ∀ db ∈ dbs, (db.schemas.map Schema.name).Nodup)
    (hndT : ∀ db ∈ dbs, ∀ sch ∈ db.schemas, (sch.tables.map Table.name).Nodup)
    (h : _write_tree pg D dbs fs = (.ok (), fs₂, tr)) :
    (∀ db ∈ dbs, db.name ≠ ".pgfs") ∧
    fs₂.find D = fs.find D ∧
    fs₂.find (D ++ [".pgfs"]) = fs.find (D ++ [".pgfs"]) ∧
    (∀ s, (fs₂.find (D ++ [s])).isSome = true ↔
      ((∃ db ∈ dbs, db.name = s) ∨ s = ".pgfs")) ∧
    (∀ db ∈ dbs, ∃ n, fs₂.find (D ++ [db.name]) = some n ∧
      n.kind = NodeKind.dir) ∧
    (∀ db ∈ dbs, ∀ u, (fs₂.find ((D ++ [db.name]) ++ [u])).isSome = true ↔
      (∃ sch ∈ db.schemas, sch.name = u)) ∧
    (∀ db ∈ dbs, ∀ sch ∈ db.schemas,
      ∃ n, fs₂.find ((D ++ [db.name]) ++ [sch.name]) = some n ∧
        n.kind = NodeKind.dir) ∧
    (∀ db ∈ dbs, ∀ sch ∈ db.schemas, ∀ v,
      (fs₂.find (((D ++ [db.name]) ++ [sch.name]) ++ [v])).isSome = true ↔
      (∃ t ∈ sch.tables, t.name = v)) ∧
    (∀ db ∈ dbs, ∀ sch ∈ db.schemas, ∀ t ∈ sch.tables,
      ∃ ns, fs.find (srcPath pg db.oid t) = some ns ∧
        fs₂.find (srcPath pg db.oid t) = some ns ∧
        ∃ nd, fs₂.find (((D ++ [db.name]) ++ [sch.name]) ++ [t.name])
            = some nd ∧ nd.ino = ns.ino) := by
  simp only [_write_tree] at h
  rcases hfw : forwardDbs pg D dbs fs with ⟨r1, fs₁, tr₁⟩
  rw [hfw] at h
  cases r1 with
  | error e => simp at h
  | ok uu =>
    cases uu
    dsimp only at h
    rcases hpr : pruneTop dbs D fs₁ with ⟨r2, fs₂', tr₂⟩
    rw [hpr] at h
    dsimp only at h
    cases r2 with
    | error e => simp at h
    | ok uu =>
      cases uu
      have hfs : fs₂' = fs₂ := congrArg (fun x => x.2.1) h
      rw [hfs] at hpr
      obtain ⟨A, F2, F3, F4, FR⟩ :=
        forwardDbs_ok_inv hroot hdot hsrc hndD hndS hndT hfw
      obtain ⟨-, P⟩ := pruneTop_ok_char hpr
      have hkeep : ∀ q, doomed fs₁ dbs D q = false →
          fs₂.find q = fs₁.find q := by
        intro q hq
        rw [P q, hq]
        simp
      have hkill : ∀ q, doomed fs₁ dbs D q = true → fs₂.find q = none := by
        intro q hq
        rw [P q, hq]
        simp
      have hst1 : ∀ s : String, stripPre D (D ++ [s]) = some [s] :=
        fun s => (stripPre_eq_some _ _ _).mpr rfl
      have hst2 : ∀ a b : String,
          stripPre D ((D ++ [a]) ++ [b]) = some [a, b] := by
        intro a b
        rw [stripPre_eq_some, List.append_assoc]
        rfl
      have hst3 : ∀ a b c : String,
          stripPre D (((D ++ [a]) ++ [b]) ++ [c]) = some [a, b, c] := by
        intro a b c
        rw [stripPre_eq_some, List.append_assoc, List.append_assoc]
        rfl
      obtain ⟨nf, hff, hfk⟩ := hdot
      have hdot1 : fs₁.find (D ++ [".pgfs"]) = some nf := by
        rw [FR _ (fun db hdb =>
          ⟨snoc_ne_of_ne (fun hn => A db hdb hn.symm),
           fun sch hs => ⟨ne_of_length_ne (by simp [List.length_append]),
             fun t ht => ne_of_length_ne (by simp [List.length_append])⟩⟩)]
        exact hff
      have hdot2 : fs₂.find (D ++ [".pgfs"]) = some nf := by
        rw [hkeep _ (by simp [doomed, hst1])]
        exact hdot1
      have hDeq : fs₂.find D = fs.find D := by
        have hstD : stripPre D D = some [] :=
          (stripPre_eq_some D D []).mpr (by simp)
        rw [hkeep _ (by simp [doomed, hstD])]
        apply FR
        intro db2 hdb2
        exact ⟨ne_of_length_ne (by simp [List.length_append]),
          fun sch2 hs2 => ⟨ne_of_length_ne (by simp [List.length_append]),
            fun t2 ht2 => ne_of_length_ne (by simp [List.length_append])⟩⟩
      refine ⟨A, hDeq, by rw [hdot2, hff], ?_, ?_, ?_, ?_, ?_, ?_⟩
      · -- top-level entries are the database names plus the sentinel
        intro s
        by_cases hsp : s = ".pgfs"
        · subst hsp
          rw [hdot2]
          simp
        · by_cases hmem : ∃ db ∈ dbs, db.name = s
          · obtain ⟨db₀, hdb₀, hname⟩ := hmem
            subst hname
            have hdict : dictLast Database.name dbs db₀.name = some db₀ :=
              dictLast_of_mem_nodup _ _ _ hdb₀ hndD
            obtain ⟨n2, hn2, hk2⟩ := F2 db₀ hdb₀
            have hd9 : doomed fs₁ dbs D (D ++ [db₀.name]) = false := by
              simp only [doomed, hst1]
              rw [if_neg hsp, hdict]
              simp [dbEntryDoom]
            rw [hkeep _ hd9, hn2]
            simp only [Option.isSome_some]
            exact ⟨fun _ => Or.inl ⟨db₀, hdb₀, rfl⟩, fun _ => trivial⟩
          · have hdict : dictLast Database.name dbs s = none :=
              (dictLast_eq_none_iff _ _ _).mpr
                (fun db hdb hn => hmem ⟨db, hdb, hn⟩)
            cases hg : (fs₁.find (D ++ [s])).isSome with
            | true =>
              have hd9 : doomed fs₁ dbs D (D ++ [s]) = true := by
                simp only [doomed, hst1]
                rw [if_neg hsp, hdict, hg]
                simp
              rw [hkill _ hd9]
              simp [hmem, hsp]
            | false =>
              have hd9 : doomed fs₁ dbs D (D ++ [s]) = false := by
                simp only [doomed, hst1]
                rw [if_neg hsp, hdict, hg]
                simp
              rw [hkeep _ hd9, hg]
              simp [hmem, hsp]
      · -- database directories survive pruning
        intro db hdb
        obtain ⟨n2, hn2, hk2⟩ := F2 db hdb
        have hdict : dictLast Database.name dbs db.name = some db :=
          dictLast_of_mem_nodup _ _ _ hdb hndD
        have hd9 : doomed fs₁ dbs D (D ++ [db.name]) = false := by
          simp only [doomed, hst1]
          rw [if_neg (A db hdb), hdict]
          simp [dbEntryDoom]
        rw [hkeep _ hd9]
        exact ⟨n2, hn2, hk2⟩
      · -- database directory entries are exactly the schema names
        intro db hdb u
        have hdict : dictLast Database.name dbs db.name = some db :=
          dictLast_of_mem_nodup _ _ _ hdb hndD
        obtain ⟨n2, hn2, hk2⟩ := F2 db hdb
        have hg1 : (fs₁.find (D ++ [db.name])).isSome = true := by
          rw [hn2]
          rfl
        by_cases hmem : ∃ sch ∈ db.schemas, sch.name = u
        · obtain ⟨sch₀, hs₀, hname⟩ := hmem
          subst hname
          have hdictS : dictLast Schema.name db.schemas sch₀.name = some sch₀ :=
            dictLast_of_mem_nodup _ _ _ hs₀ (hndS db hdb)
          obtain ⟨n3, hn3, hk3⟩ := F3 db hdb sch₀ hs₀
          have hd9 : doomed fs₁ dbs D ((D ++ [db.name]) ++ [sch₀.name])
              = false := by
            simp only [doomed, hst2]
            rw [if_neg (A db hdb), hdict]
            simp only [dbEntryDoom, hdictS]
            simp
          rw [hkeep _ hd9, hn3]
          simp only [Option.isSome_some]
          exact ⟨fun _ => ⟨sch₀, hs₀, rfl⟩, fun _ => trivial⟩
        · have hdictS : dictLast Schema.name db.schemas u = none :=
            (dictLast_eq_none_iff _ _ _).mpr
              (fun sch hs hn => hmem ⟨sch, hs, hn⟩)
          cases hg : (fs₁.find ((D ++ [db.name]) ++ [u])).isSome with
          | true =>
            have hd9 : doomed fs₁ dbs D ((D ++ [db.name]) ++ [u]) = true := by
              simp only [doomed, hst2]
              rw [if_neg (A db hdb), hdict]
              simp only [dbEntryDoom, hdictS, hg, hg1]
              simp
            rw [hkill _ hd9]
            simp [hmem]
          | false =>
            have hd9 : doomed fs₁ dbs D ((D ++ [db.name]) ++ [u]) = false := by
              simp only [doomed, hst2]
              rw [if_neg (A db hdb), hdict]
              simp only [dbEntryDoom, hdictS, hg]
              simp
            rw [hkeep _ hd9, hg]
            simp [hmem]
      · -- schema directories survive pruning
        intro db hdb sch hs
        have hdict : dictLast Database.name dbs db.name = some db :=
          dictLast_of_mem_nodup _ _ _ hdb hndD
        have hdictS : dictLast Schema.name db.schemas sch.name = some sch :=
          dictLast_of_mem_nodup _ _ _ hs (hndS db hdb)
        obtain ⟨n3, hn3, hk3⟩ := F3 db hdb sch hs
        have hd9 : doomed fs₁ dbs D ((D ++ [db.name]) ++ [sch.name])
            = false := by
          simp only [doomed, hst2]
          rw [if_neg (A db hdb), hdict]
          simp only [dbEntryDoom, hdictS]
          simp
        rw [hkeep _ hd9]
        exact ⟨n3, hn3, hk3⟩
      · -- schema directory entries are exactly the table names
        intro db hdb sch hs v
        have hdict : dictLast Database.name dbs db.name = some db :=
          dictLast_of_mem_nodup _ _ _ hdb hndD
        have hdictS : dictLast Schema.name db.schemas sch.name = some sch :=
          dictLast_of_mem_nodup _ _ _ hs (hndS db hdb)
        obtain ⟨n3, hn3, hk3⟩ := F3 db hdb sch hs
        have hg2 : (fs₁.find ((D ++ [db.name]) ++ [sch.name])).isSome
            = true := by
          rw [hn3]
          rfl
        obtain ⟨n2, hn2, hk2⟩ := F2 db hdb
        have hg1 : (fs₁.find (D ++ [db.name])).isSome = true := by
          rw [hn2]
          rfl
        by_cases hmem : ∃ t ∈ sch.tables, t.name = v
        · obtain ⟨t₀, ht₀, hname⟩ := hmem
          subst hname
          have hdictT : dictLast Table.name sch.tables t₀.name = some t₀ :=
            dictLast_of_mem_nodup _ _ _ ht₀ (hndT db hdb sch hs)
          obtain ⟨ns, hns, nd, hnd1, hino⟩ := F4 db hdb sch hs t₀ ht₀
          have hd9 : doomed fs₁ dbs D
              (((D ++ [db.name]) ++ [sch.name]) ++ [t₀.name]) = false := by
            simp only [doomed, hst3]
            rw [if_neg (A db hdb), hdict]
            simp only [dbEntryDoom, hdictS, hdictT, hg2, hg1]
            simp
          rw [hkeep _ hd9, hnd1]
          simp only [Option.isSome_some]
          exact ⟨fun _ => ⟨t₀, ht₀, rfl⟩, fun _ => trivial⟩
        · have hdictT : dictLast Table.name sch.tables v = none :=
            (dictLast_eq_none_iff _ _ _).mpr
              (fun t ht hn => hmem ⟨t, ht, hn⟩)
          cases hg : (fs₁.find (((D ++ [db.name]) ++ [sch.name]) ++ [v])).isSome
            with
          | true =>
            have hd9 : doomed fs₁ dbs D
                (((D ++ [db.name]) ++ [sch.name]) ++ [v]) = true := by
              simp only [doomed, hst3]
              rw [if_neg (A db hdb), hdict]
              simp only [dbEntryDoom, hdictS, hdictT, hg, hg2, hg1]
              simp
            rw [hkill _ hd9]
            simp [hmem]
          | false =>
            have hd9 : doomed fs₁ dbs D
                (((D ++ [db.name]) ++ [sch.name]) ++ [v]) = false := by
              simp only [doomed, hst3]
              rw [if_neg (A db hdb), hdict]
              simp only [dbEntryDoom, hdictS, hdictT, hg, hg2, hg1]
              simp
            rw [hkeep _ hd9, hg]
            simp [hmem]
      · -- table entries share their source's inode; sources untouched
        intro db hdb sch hs t ht
        obtain ⟨ns, hns, nd, hnd1, hino⟩ := F4 db hdb sch hs t ht
        have hsu : isUnder D (srcPath pg db.oid t) = false :=
          hsrc db hdb sch hs t ht
        have hstn : stripPre D (srcPath pg db.oid t) = none := by
          cases hq : stripPre D (srcPath pg db.oid t) with
          | none => rfl
          | some r =>
            have h9 := isUnder_true_of_stripPre hq
            rw [hsu] at h9
            cases h9
        have hsrc1 : fs₁.find (srcPath pg db.oid t) = fs.find
            (srcPath pg db.oid t) := by
          apply FR
          intro db2 hdb2
          refine ⟨ne_of_under_not_under (isUnder_append D _) hsu,
            fun sch2 hs2 => ⟨ne_of_under_not_under
              (isUnder_child (isUnder_append D _) _) hsu,
            fun t2 ht2 => ne_of_under_not_under
              (isUnder_child (isUnder_child (isUnder_append D _) _) _) hsu⟩⟩
        have hsrc2 : fs₂.find (srcPath pg db.oid t) = fs.find
            (srcPath pg db.oid t) := by
          rw [hkeep _ (by simp [doomed, hstn])]
          exact hsrc1
        have hdict : dictLast Database.name dbs db.name = some db :=
          dictLast_of_mem_nodup _ _ _ hdb hndD
        have hdictS : dictLast Schema.name db.schemas sch.name = some sch :=
          dictLast_of_mem_nodup _ _ _ hs (hndS db hdb)
        have hdictT : dictLast Table.name sch.tables t.name = some t :=
          dictLast_of_mem_nodup _ _ _ ht (hndT db hdb sch hs)
        obtain ⟨n3, hn3, hk3⟩ := F3 db hdb sch hs
        have hg2 : (fs₁.find ((D ++ [db.name]) ++ [sch.name])).isSome
            = true := by
          rw [hn3]
          rfl
        obtain ⟨n2, hn2, hk2⟩ := F2 db hdb
        have hg1 : (fs₁.find (D ++ [db.name])).isSome = true := by
          rw [hn2]
          rfl
        have hd9 : doomed fs₁ dbs D
            (((D ++ [db.name]) ++ [sch.name]) ++ [t.name]) = false := by
          simp only [doomed, hst3]
          rw [if_neg (A db hdb), hdict]
          simp only [dbEntryDoom, hdictS, hdictT, hg2, hg1]
          simp
        refine ⟨ns, hns, ?_, nd, ?_, hino⟩
        · rw [hsrc2, hns]
        · rw [hkeep _ hd9]
          exact hnd1

/-! ## The synchronizer: idempotence -/

theorem forwardTables_noop {pg : Path} {oid : Nat} {schDir : Path} {np : Node}
    {fs : FS} (ts : List Table)
    (hp : fs.find schDir = some np) (hpk : np.kind = NodeKind.dir)
    (h : ∀ t ∈ ts, ∃ ns, fs.find (srcPath pg oid t) = some ns ∧
      ∃ nd, fs.find (schDir ++ [t.name]) = some nd ∧ ns.ino = nd.ino) :
    forwardTables pg oid schDir ts fs = (.ok (), fs, []) := by
  induction ts with
  | nil => rfl
  | cons t ts ih =>
    obtain ⟨ns, hns, nd, hnd, hino⟩ := h t (List.mem_cons_self t ts)
    rw [forwardTables, linkTable_noop hns hp hpk hnd hino]
    dsimp only
    rw [ih (fun t2 ht2 => h t2 (List.mem_cons_of_mem t ht2))]
    rfl

theorem forwardSchemas_noop {pg : Path} {oid : Nat} {dbDir : Path} {fs : FS}
    (schs : List Schema)
    (h1 : ∀ sch ∈ schs, ∃ n, fs.find (dbDir ++ [sch.name]) = some n ∧
      n.kind = NodeKind.dir)
    (h2 : ∀ sch ∈ schs, ∀ t ∈ sch.tables,
      ∃ ns, fs.find (srcPath pg oid t) = some ns ∧
      ∃ nd, fs.find ((dbDir ++ [sch.name]) ++ [t.name]) = some nd ∧
        ns.ino = nd.ino) :
    forwardSchemas pg oid dbDir schs fs = (.ok (), fs, []) := by
  induction schs with
  | nil => rfl
  | cons sch schs ih =>
    obtain ⟨n1, hn1, hk1⟩ := h1 sch (List.mem_cons_self sch schs)
    rw [forwardSchemas, os_makedirs_dir hn1 hk1]
    dsimp only
    rw [forwardTables_noop sch.tables hn1 hk1
      (h2 sch (List.mem_cons_self sch schs))]
    dsimp only
    rw [ih (fun s hs => h1 s (List.mem_cons_of_mem sch hs))
      (fun s hs => h2 s (List.mem_cons_of_mem sch hs))]
    rfl

theorem forwardDbs_noop {pg D : Path} {fs : FS} (dbs : List Database)
    (h1 : ∀ db ∈ dbs, ∃ n, fs.find (D ++ [db.name]) = some n ∧
      n.kind = NodeKind.dir)
    (h2 : ∀ db ∈ dbs, ∀ sch ∈ db.schemas,
      ∃ n, fs.find ((D ++ [db.name]) ++ [sch.name]) = some n ∧
        n.kind = NodeKind.dir)
    (h3 : ∀ db ∈ dbs, ∀ sch ∈ db.schemas, ∀ t ∈ sch.tables,
      ∃ ns, fs.find (srcPath pg db.oid t) = some ns ∧
      ∃ nd, fs.find (((D ++ [db.name]) ++ [sch.name]) ++ [t.name]) = some nd ∧
        ns.ino = nd.ino) :
    forwardDbs pg D dbs fs = (.ok (), fs, []) := by
  induction dbs with
  | nil => rfl
  | cons db dbs ih =>
    obtain ⟨n1, hn1, hk1⟩ := h1 db (List.mem_cons_self db dbs)
    rw [forwardDbs, os_makedirs_dir hn1 hk1]
    dsimp only
    rw [forwardSchemas_noop db.schemas (h2 db (List.mem_cons_self db dbs))
      (h3 db (List.mem_cons_self db dbs))]
    dsimp only
    rw [ih (fun d hd => h1 d (List.mem_cons_of_mem db hd))
      (fun d hd => h2 d (List.mem_cons_of_mem db hd))
      (fun d hd => h3 d (List.mem_cons_of_mem db hd))]
    rfl

theorem pruneTables_noop {tables : List Table} {schDir : Path} {fs : FS}
    (vs : List String)
    (h : ∀ v ∈ vs, ∃ t0, dictLast Table.name tables v = some t0) :
    pruneTables tables schDir vs fs = (.ok (), fs, []) := by
  induction vs with
  | nil => rfl
  | cons v vs ih =>
    obtain ⟨t0, ht0⟩ := h v (List.mem_cons_self v vs)
    rw [pruneTables, ht0]
    dsimp only
    rw [ih (fun v2 hv2 => h v2 (List.mem_cons_of_mem v hv2))]

theorem pruneSchemasLoop_noop {db : Database} {dbDir : Path} {fs : FS}
    (us : List String)
    (h : ∀ u ∈ us, ∃ sch, dictLast Schema.name db.schemas u = some sch ∧
      (∃ n, fs.find (dbDir ++ [u]) = some n ∧ n.kind = NodeKind.dir) ∧
      (∀ v ∈ fs.childNames (dbDir ++ [u]),
        ∃ t0, dictLast Table.name sch.tables v = some t0)) :
    pruneSchemasLoop db dbDir us fs = (.ok (), fs, []) := by
  induction us with
  | nil => rfl
  | cons u us ih =>
    obtain ⟨sch, hsch, ⟨n1, hn1, hk1⟩, hv⟩ := h u (List.mem_cons_self u us)
    have hps : pruneSchema sch (dbDir ++ [u]) fs = (.ok (), fs, []) := by
      simp only [pruneSchema]
      rw [os_scandir_dir hn1 hk1]
      exact pruneTables_noop _ hv
    rw [pruneSchemasLoop, hsch]
    dsimp only
    rw [hps]
    dsimp only
    rw [ih (fun u2 hu2 => h u2 (List.mem_cons_of_mem u hu2))]
    rfl

theorem pruneDbsLoop_noop {dbs : List Database} {D : Path} {fs : FS}
    (ss : List String)
    (h : ∀ s ∈ ss, s ≠ ".pgfs" →
      ∃ db, dictLast Database.name dbs s = some db ∧
      (∃ n, fs.find (D ++ [s]) = some n ∧ n.kind = NodeKind.dir) ∧
      (∀ u ∈ fs.childNames (D ++ [s]),
        ∃ sch, dictLast Schema.name db.schemas u = some sch ∧
        (∃ n, fs.find ((D ++ [s]) ++ [u]) = some n ∧ n.kind = NodeKind.dir) ∧
        (∀ v ∈ fs.childNames ((D ++ [s]) ++ [u]),
          ∃ t0, dictLast Table.name sch.tables v = some t0))) :
    pruneDbsLoop dbs D ss fs = (.ok (), fs, []) := by
  induction ss with
  | nil => rfl
  | cons s ss ih =>
    by_cases hdot : s = ".pgfs"
    · rw [pruneDbsLoop, if_pos hdot]
      exact ih (fun s2 hs2 => h s2 (List.mem_cons_of_mem s hs2))
    · obtain ⟨db, hdb, ⟨n1, hn1, hk1⟩, hu⟩ :=
        h s (List.mem_cons_self s ss) hdot
      have hpd : pruneDb db (D ++ [s]) fs = (.ok (), fs, []) := by
        simp only [pruneDb]
        rw [os_scandir_dir hn1 hk1]
        exact pruneSchemasLoop_noop _ hu
      rw [pruneDbsLoop, if_neg hdot, hdb]
      dsimp only
      rw [hpd]
      dsimp only
      rw [ih (fun s2 hs2 => h s2 (List.mem_cons_of_mem s hs2))]
      rfl

/-- Running the synchronizer again on the state a successful run produced
performs no mutation at all: it succeeds, leaves the filesystem untouched
and has an empty event trace. -/
theorem writeTreeInner_idem {pg D : Path} {dbs : List Database}
    {fs fs₂ : FS} {tr : List Ev}
    (hroot : ∃ n, fs.find D = some n ∧ n.kind = NodeKind.dir)
    (hdot : ∃ n, fs.find (D ++ [".pgfs"]) = some n ∧ n.kind = NodeKind.file)
    (hsrc : ∀ db ∈ dbs, ∀ sch ∈ db.schemas, ∀ t ∈ sch.tables,
      isUnder D (srcPath pg db.oid t) = false)
    (hndD : (dbs.map Database.name).Nodup)
    (hndS : ∀ db ∈ dbs, (db.schemas.map Schema.name).Nodup)
    (hndT : ∀ db ∈ dbs, ∀ sch ∈ db.schemas, (sch.tables.map Table.name).Nodup)
    (h : _write_tree pg D dbs fs = (.ok (), fs₂, tr)) :
    _write_tree pg D dbs fs₂ = (.ok (), fs₂, []) := by
  obtain ⟨A, hDeq, hdot2, C, Cdir, Dc, Ddir, E, F⟩ :=
    writeTreeInner_converged hroot hdot hsrc hndD hndS hndT h
  obtain ⟨nD, hnD, hnDk⟩ := hroot
  have hnD2 : fs₂.find D = some nD := by rw [hDeq]; exact hnD
  have hf : forwardDbs pg D dbs fs₂ = (.ok (), fs₂, []) := by
    apply forwardDbs_noop dbs Cdir Ddir
    intro db hdb sch hs t ht
    obtain ⟨ns, _, hns2, nd, hnd, hino⟩ := F db hdb sch hs t ht
    exact ⟨ns, hns2, nd, hnd, hino.symm⟩
  have hp : pruneTop dbs D fs₂ = (.ok (), fs₂, []) := by
    simp only [pruneTop]
    rw [os_scandir_dir hnD2 hnDk]
    apply pruneDbsLoop_noop
    intro s hsmem hsne
    have hsome : (fs₂.find (D ++ [s])).isSome = true :=
      (mem_childNames _ _ _).mp hsmem
    rcases (C s).mp hsome with hmem | hpg
    case inr => exact absurd hpg hsne
    obtain ⟨db₀, hdb₀, hname⟩ := hmem
    subst hname
    refine ⟨db₀, dictLast_of_mem_nodup _ _ _ hdb₀ hndD, Cdir db₀ hdb₀, ?_⟩
    intro u humem
    have husome : (fs₂.find ((D ++ [db₀.name]) ++ [u])).isSome = true :=
      (mem_childNames _ _ _).mp humem
    obtain ⟨sch₀, hs₀, hnameu⟩ := (Dc db₀ hdb₀ u).mp husome
    subst hnameu
    refine ⟨sch₀, dictLast_of_mem_nodup _ _ _ hs₀ (hndS db₀ hdb₀),
      Ddir db₀ hdb₀ sch₀ hs₀, ?_⟩
    intro v hvmem
    have hvsome :
        (fs₂.find (((D ++ [db₀.name]) ++ [sch₀.name]) ++ [v])).isSome
        = true := (mem_childNames _ _ _).mp hvmem
    obtain ⟨t₀, ht₀, hnamev⟩ := (E db₀ hdb₀ sch₀ hs₀ v).mp hvsome
    rcases hdl : dictLast Table.name sch₀.tables v with _ | t1
    · exact absurd hnamev ((dictLast_eq_none_iff _ _ _).mp hdl t₀ ht₀)
    · exact ⟨t1, rfl⟩
  simp only [_write_tree]
  rw [hf]
  dsimp only
  rw [hp]
  rfl

/-! ## Helpers for the claim theorems -/

theorem isdir_eq_true_iff (fs : FS) (p : Path) :
    fs.isdir p = true ↔ ∃ n, fs.find p = some n ∧ n.kind = NodeKind.dir := by
  rcases h : fs.find p with _ | n
  · simp [FS.isdir, h]
  · simp [FS.isdir, h]

theorem isfile_eq_true_iff (fs : FS) (p : Path) :
    fs.isfile p = true ↔ ∃ n, fs.find p = some n ∧ n.kind = NodeKind.file := by
  rcases h : fs.find p with _ | n
  · simp [FS.isfile, h]
  · simp [FS.isfile, h]

theorem isdir_of_none {fs : FS} {p : Path} (h : fs.find p = none) :
    fs.isdir p = false := by
  simp [FS.isdir, h]

/-- `touch` on a missing path inside an existing directory creates the
empty file. -/
theorem touch_create {fs : FS} {p : Path} {np : Node} (excl : Bool)
    (h : fs.find p = none) (hp : fs.find p.dropLast = some np)
    (hk : np.kind = NodeKind.dir) :
    touch fs p excl =
      (.ok (), fs.addFresh p NodeKind.file np.dev, [.touchE p]) := by
  simp only [touch, h, hp, if_pos hk]

/-- The lock acquisition fails with AlreadyLocked when another process
holds the lock on the (non-directory) sentinel. -/
theorem lock_file_held {fs : FS} {p : Path} {n : Node}
    (hn : fs.find p = some n) (hk : n.kind ≠ NodeKind.dir) :
    lock_file fs p true = .error .alreadyLocked := by
  simp only [lock_file, hn, if_neg hk]
  rfl

/-- A failed lock acquisition leaves `lockAndSync` without any effect. -/
theorem lockAndSync_lock_failed {pg D : Path} {dbs : List Database}
    {lockHeld : Bool} {fs : FS} {e : RunErr}
    (h : lock_file fs (D ++ [".pgfs"]) lockHeld = .error e) :
    lockAndSync pg D dbs lockHeld fs = (.error e, fs, []) := by
  simp only [lockAndSync, h]

/-- `os.mkdir` emits no event or exactly its own creation event. -/
theorem os_mkdir_trace (fs : FS) (p : Path) :
    (os_mkdir fs p).2.2 = [] ∨ (os_mkdir fs p).2.2 = [Ev.mkdirE p] := by
  unfold os_mkdir
  split
  · exact Or.inl rfl
  · split
    · exact Or.inr rfl
    · split
      · exact Or.inl rfl
      · split
        · exact Or.inr rfl
        · exact Or.inl rfl

theorem os_mkdir_trace_mem (fs : FS) (p : Path) (e : Ev)
    (he : e ∈ (os_mkdir fs p).2.2) : ∃ q, e = Ev.mkdirE q := by
  rcases os_mkdir_trace fs p with h | h
  · rw [h] at he
    exact absurd he (List.not_mem_nil e)
  · rw [h] at he
    exact ⟨p, List.mem_singleton.mp he⟩

/-- Every event `os.makedirs` emits is a directory creation. -/
theorem makedirsFuel_trace (fuel : Nat) (fs : FS) (p : Path) :
    ∀ e ∈ (makedirsFuel fs p fuel).2.2, ∃ q, e = Ev.mkdirE q := by
  induction fuel generalizing fs p with
  | zero =>
    intro e he
    exact absurd he (List.not_mem_nil e)
  | succ fuel ih =>
    intro e he
    rcases hf : fs.find p with _ | n
    · cases p with
      | nil =>
        simp only [makedirsFuel, hf] at he
        exact ⟨[], List.mem_singleton.mp he⟩
      | cons a as =>
        simp only [makedirsFuel, hf] at he
        by_cases hpar : (fs.find (a :: as).dropLast).isSome
        · rw [if_pos hpar] at he
          exact os_mkdir_trace_mem fs (a :: as) e he
        · rw [if_neg hpar] at he
          rcases hrec : makedirsFuel fs (a :: as).dropLast fuel with ⟨r1, fs1, tr1⟩
          rw [hrec] at he
          cases r1 with
          | error e1 =>
            dsimp only at he
            exact ih fs (a :: as).dropLast e (by rw [hrec]; exact he)
          | ok u =>
            dsimp only at he
            rcases hmk : os_mkdir fs1 (a :: as) with ⟨r2, fs2, tr2⟩
            rw [hmk] at he
            dsimp only at he
            rcases List.mem_append.mp he with h1 | h2
            · exact ih fs (a :: as).dropLast e (by rw [hrec]; exact h1)
            · exact os_mkdir_trace_mem fs1 (a :: as) e (by rw [hmk]; exact h2)
    · simp only [makedirsFuel, hf] at he
      by_cases hk : n.kind = NodeKind.dir
      · rw [if_pos hk] at he
        exact absurd he (List.not_mem_nil e)
      · rw [if_neg hk] at he
        exact absurd he (List.not_mem_nil e)

theorem os_makedirs_trace (fs : FS) (p : Path) (e : Ev)
    (he : e ∈ (os_makedirs fs p).2.2) : ∃ q, e = Ev.mkdirE q :=
  makedirsFuel_trace (p.length + 1) fs p e he

/-- Every event `touch` emits is the creation of its file. -/
theorem touch_trace (fs : FS) (p : Path) (excl : Bool) (e : Ev)
    (he : e ∈ (touch fs p excl).2.2) : e = Ev.touchE p := by
  rcases hf : fs.find p with _ | n
  · simp only [touch, hf] at he
    rcases hq : fs.find p.dropLast with _ | np
    · rw [hq] at he
      exact absurd he (List.not_mem_nil e)
    · rw [hq] at he
      dsimp only at he
      by_cases hk : np.kind = NodeKind.dir
      · rw [if_pos hk] at he
        exact List.mem_singleton.mp he
      · rw [if_neg hk] at he
        exact absurd he (List.not_mem_nil e)
  · simp only [touch, hf] at he
    by_cases hx : excl = true
    · rw [if_pos hx] at he
      exact absurd he (List.not_mem_nil e)
    · rw [if_neg hx] at he
      exact absurd he (List.not_mem_nil e)

theorem takeWhile_append_all {α : Type} (p : α → Bool) (l₁ l₂ : List α)
    (h : ∀ a ∈ l₁, p a = true) :
    (l₁ ++ l₂).takeWhile p = l₁ ++ l₂.takeWhile p := by
  induction l₁ with
  | nil => rfl
  | cons a l ih =>
    rw [List.cons_append, List.takeWhile_cons, h a (List.mem_cons_self a l),
      List.cons_append, ih (fun b hb => h b (List.mem_cons_of_mem a hb))]
    rfl

theorem takeWhile_eq_self_of_all {α : Type} (p : α → Bool) (l : List α)
    (h : ∀ a ∈ l, p a = true) : l.takeWhile p = l := by
  induction l with
  | nil => rfl
  | cons a l ih =>
    rw [List.takeWhile_cons, h a (List.mem_cons_self a l),
      ih (fun b hb => h b (List.mem_cons_of_mem a hb))]
    rfl

/-- A creation event (mkdir/touch) is not a lock transition. -/
theorem not_isLock_of_isMkdirOrTouch {e : Ev}
    (h : e.isMkdirOrTouch = true) : e.isLock = false := by
  cases e <;> first | rfl | exact absurd h (by simp [Ev.isMkdirOrTouch])

/-- Whatever happens inside, the trace of `lockAndSync` is empty (the lock
was refused) or starts with the lock acquisition and ends with the
release. -/
theorem lockAndSync_trace (pg D : Path) (dbs : List Database)
    (lockHeld : Bool) (fs : FS) :
    (lockAndSync pg D dbs lockHeld fs).2.2 = [] ∨
    ∃ tr, (lockAndSync pg D dbs lockHeld fs).2.2 =
      Ev.lockE (D ++ [".pgfs"]) :: tr ++ [Ev.unlockE (D ++ [".pgfs"])] := by
  rcases hl : lock_file fs (D ++ [".pgfs"]) lockHeld with e | u
  · left
    rw [lockAndSync_lock_failed hl]
  · cases u
    simp only [lockAndSync, hl]
    rcases hw : _write_tree pg D dbs fs with ⟨r, fs', tr⟩
    cases r with
    | error e => right; exact ⟨tr, rfl⟩
    | ok u => right; exact ⟨tr, rfl⟩

/-- The two ordering facts of a run trace that is some prefix of creation
events followed by the trace of `lockAndSync`: everything before the lock
acquisition is a root/sentinel creation, and when the lock was taken the
last event is the release. -/
theorem preLockTrace_append (pg D : Path) (dbs : List Database)
    (lockHeld : Bool) (fs : FS) (pre : List Ev)
    (hpre : ∀ e ∈ pre, e.isMkdirOrTouch = true) :
    ((pre ++ (lockAndSync pg D dbs lockHeld fs).2.2).takeWhile
        (fun e => !e.isLock)).all Ev.isMkdirOrTouch = true ∧
    ((pre ++ (lockAndSync pg D dbs lockHeld fs).2.2).any Ev.isLock = true →
      ∃ tr₁, pre ++ (lockAndSync pg D dbs lockHeld fs).2.2 =
        tr₁ ++ [Ev.unlockE (D ++ [".pgfs"])]) := by
  have hnl : ∀ e ∈ pre, (!e.isLock) = true := by
    intro e he
    rw [not_isLock_of_isMkdirOrTouch (hpre e he)]
    rfl
  rcases lockAndSync_trace pg D dbs lockHeld fs with h | ⟨tr, h⟩
  · rw [h, List.append_nil]
    constructor
    · rw [takeWhile_eq_self_of_all _ _ hnl]
      exact List.all_eq_true.mpr hpre
    · intro hany
      obtain ⟨x, hx, hlx⟩ := List.any_eq_true.mp hany
      rw [not_isLock_of_isMkdirOrTouch (hpre x hx)] at hlx
      cases hlx
  · rw [h]
    constructor
    · rw [takeWhile_append_all _ _ _ hnl, List.cons_append,
        List.takeWhile_cons_of_neg (by simp [Ev.isLock]), List.append_nil]
      exact List.all_eq_true.mpr hpre
    · intro hany
      refine ⟨pre ++ (Ev.lockE (D ++ [".pgfs"]) :: tr), ?_⟩
      rw [List.append_assoc]

/-- A run trace made only of creation events trivially satisfies both
ordering facts: nothing precedes a lock acquisition that never happens. -/
theorem preOnlyTrace (D : Path) (tr : List Ev)
    (hpre : ∀ e ∈ tr, e.isMkdirOrTouch = true) :
    (tr.takeWhile (fun e => !e.isLock)).all Ev.isMkdirOrTouch = true ∧
    (tr.any Ev.isLock = true →
      ∃ tr₁, tr = tr₁ ++ [Ev.unlockE (D ++ [".pgfs"])]) := by
  constructor
  · rw [takeWhile_eq_self_of_all]
    · exact List.all_eq_true.mpr hpre
    · intro e he
      rw [not_isLock_of_isMkdirOrTouch (hpre e he)]
      rfl
  · intro hany
    obtain ⟨x, hx, hlx⟩ := List.any_eq_true.mp hany
    rw [not_isLock_of_isMkdirOrTouch (hpre x hx)] at hlx
    cases hlx

/-! ## Concrete scenarios

A small PostgreSQL data directory at `["pg"]` (database oid 5 with one
table, relfilenode 7, stored at `pg/base/5/7`) and a destination root at
`["dest"]`, in several starting configurations used to instantiate the
claims below. -/

/-- One database `db1` (oid 5) with one schema `s1` holding one table `t1`
(relfilenode 7). -/
def dbsDemo : List Database := [⟨5, "db1", [⟨10, "s1", [⟨"t1", 7⟩]⟩]⟩]

/-- A managed, freshly bootstrapped destination root next to the pg data
directory, everything on device 0. -/
def fsDemo : FS :=
  ⟨[(["pg"], ⟨.dir, 0, 1⟩), (["pg", "base"], ⟨.dir, 0, 2⟩),
    (["pg", "base", "5"], ⟨.dir, 0, 3⟩),
    (["pg", "base", "5", "7"], ⟨.file, 0, 100⟩),
    (["dest"], ⟨.dir, 0, 4⟩), (["dest", ".pgfs"], ⟨.file, 0, 50⟩)], 200⟩

/-- The state a successful `_write_tree` run on `fsDemo` produces. -/
def fs2Demo : FS :=
  ⟨[(["dest", "db1", "s1", "t1"], ⟨.file, 0, 100⟩),
    (["dest", "db1", "s1"], ⟨.dir, 0, 201⟩),
    (["dest", "db1"], ⟨.dir, 0, 200⟩),
    (["pg"], ⟨.dir, 0, 1⟩), (["pg", "base"], ⟨.dir, 0, 2⟩),
    (["pg", "base", "5"], ⟨.dir, 0, 3⟩),
    (["pg", "base", "5", "7"], ⟨.file, 0, 100⟩),
    (["dest"], ⟨.dir, 0, 4⟩), (["dest", ".pgfs"], ⟨.file, 0, 50⟩)], 202⟩

/-- The trace of that run. -/
def trDemo : List Ev :=
  [.mkdirE ["dest", "db1"], .mkdirE ["dest", "db1", "s1"],
   .linkE ["pg", "base", "5", "7"] ["dest", "db1", "s1", "t1"]]

/-- A converged mirror tree holding, in addition to the snapshot entries,
a dropped database `olddb`, a dropped schema `db1/oldsch` and a dropped
table `db1/s1/oldt`. -/
def fsPrune : FS :=
  ⟨[(["dest"], ⟨.dir, 0, 4⟩), (["dest", ".pgfs"], ⟨.file, 0, 50⟩),
    (["dest", "olddb"], ⟨.dir, 0, 5⟩),
    (["dest", "olddb", "x"], ⟨.file, 0, 6⟩),
    (["dest", "db1"], ⟨.dir, 0, 7⟩),
    (["dest", "db1", "oldsch"], ⟨.dir, 0, 8⟩),
    (["dest", "db1", "oldsch", "y"], ⟨.file, 0, 9⟩),
    (["dest", "db1", "s1"], ⟨.dir, 0, 10⟩),
    (["dest", "db1", "s1", "oldt"], ⟨.file, 0, 77⟩),
    (["dest", "db1", "s1", "t1"], ⟨.file, 0, 100⟩)], 300⟩

/-- What pruning `fsPrune` against `dbsDemo` leaves. -/
def fsPruned : FS :=
  ⟨[(["dest"], ⟨.dir, 0, 4⟩), (["dest", ".pgfs"], ⟨.file, 0, 50⟩),
    (["dest", "db1"], ⟨.dir, 0, 7⟩),
    (["dest", "db1", "s1"], ⟨.dir, 0, 10⟩),
    (["dest", "db1", "s1", "t1"], ⟨.file, 0, 100⟩)], 300⟩

/-- The trace of that pruning run. -/
def trPrune : List Ev :=
  [.rmtreeE ["dest", "olddb"], .rmtreeE ["dest", "db1", "oldsch"],
   .unlinkE ["dest", "db1", "s1", "oldt"]]

/-- No destination root yet: only the filesystem root and the pg data
directory exist. -/
def fsBoot : FS :=
  ⟨[([], ⟨.dir, 0, 0⟩), (["pg"], ⟨.dir, 0, 1⟩), (["pg", "base"], ⟨.dir, 0, 2⟩),
    (["pg", "base", "5"], ⟨.dir, 0, 3⟩),
    (["pg", "base", "5", "7"], ⟨.file, 0, 100⟩)], 200⟩

/-- The pg data directory lives on device 1, the destination on device 0:
hard links between the two are impossible. -/
def fsXdev : FS :=
  ⟨[(["pg"], ⟨.dir, 1, 1⟩), (["pg", "base"], ⟨.dir, 1, 2⟩),
    (["pg", "base", "5"], ⟨.dir, 1, 3⟩),
    (["pg", "base", "5", "7"], ⟨.file, 1, 100⟩),
    (["dest"], ⟨.dir, 0, 4⟩), (["dest", ".pgfs"], ⟨.file, 0, 50⟩)], 200⟩

/-- Like `fsXdev` but with the database and schema directories already in
place, so the failing step is the hard link itself. -/
def fsXdevLink : FS :=
  ⟨[(["pg"], ⟨.dir, 1, 1⟩), (["pg", "base"], ⟨.dir, 1, 2⟩),
    (["pg", "base", "5"], ⟨.dir, 1, 3⟩),
    (["pg", "base", "5", "7"], ⟨.file, 1, 100⟩),
    (["dest"], ⟨.dir, 0, 4⟩), (["dest", ".pgfs"], ⟨.file, 0, 50⟩),
    (["dest", "db1"], ⟨.dir, 0, 5⟩),
    (["dest", "db1", "s1"], ⟨.dir, 0, 6⟩)], 200⟩

/-- A managed tree in which the table destination is (wrongly) a
directory. -/
def fsDirDest : FS :=
  ⟨[(["pg"], ⟨.dir, 0, 1⟩), (["pg", "base"], ⟨.dir, 0, 2⟩),
    (["pg", "base", "5"], ⟨.dir, 0, 3⟩),
    (["pg", "base", "5", "7"], ⟨.file, 0, 100⟩),
    (["dest"], ⟨.dir, 0, 4⟩), (["dest", ".pgfs"], ⟨.file, 0, 50⟩),
    (["dest", "db1"], ⟨.dir, 0, 5⟩), (["dest", "db1", "s1"], ⟨.dir, 0, 6⟩),
    (["dest", "db1", "s1", "t1"], ⟨.dir, 0, 7⟩)], 200⟩

/-- A managed tree whose table entry is a stale regular file (inode 77,
the source has inode 100). -/
def fsRepair : FS :=
  ⟨[(["pg"], ⟨.dir, 0, 1⟩), (["pg", "base"], ⟨.dir, 0, 2⟩),
    (["pg", "base", "5"], ⟨.dir, 0, 3⟩),
    (["pg", "base", "5", "7"], ⟨.file, 0, 100⟩),
    (["dest"], ⟨.dir, 0, 4⟩), (["dest", ".pgfs"], ⟨.file, 0, 50⟩),
    (["dest", "db1"], ⟨.dir, 0, 5⟩), (["dest", "db1", "s1"], ⟨.dir, 0, 6⟩),
    (["dest", "db1", "s1", "t1"], ⟨.file, 0, 77⟩)], 200⟩

/-- A managed tree whose table entry lives on another device (9) but
happens to carry the same inode number (100) as the source file. -/
def fsC10 : FS :=
  ⟨[(["pg"], ⟨.dir, 0, 1⟩), (["pg", "base"], ⟨.dir, 0, 2⟩),
    (["pg", "base", "5"], ⟨.dir, 0, 3⟩),
    (["pg", "base", "5", "7"], ⟨.file, 0, 100⟩),
    (["dest"], ⟨.dir, 0, 4⟩), (["dest", ".pgfs"], ⟨.file, 0, 50⟩),
    (["dest", "db1"], ⟨.dir, 0, 5⟩), (["dest", "db1", "s1"], ⟨.dir, 0, 6⟩),
    (["dest", "db1", "s1", "t1"], ⟨.file, 9, 100⟩)], 200⟩

/-- A non-empty destination directory that carries no `.pgfs` sentinel. -/
def fsUnsafe : FS :=
  ⟨[(["dest"], ⟨.dir, 0, 4⟩), (["dest", "junk"], ⟨.file, 0, 5⟩)], 10⟩

/-! ## The claims -/

/-- C9 counterexample: the temporary namespace `pg_temp_3` is not one of
the three names `get_schemas` filters out, so it survives into the
snapshot's schema listing. -/
theorem c9_counterexample :
    (get_schemas [⟨99, "pg_temp_3"⟩]).map Schema.name = ["pg_temp_3"] := by
  rfl

/-- C9 (corrected): what the two catalog queries filter is exactly this —
`get_schemas` keeps precisely the rows whose `nspname` is none of
`pg_toast`, `pg_catalog`, `information_schema` (temporary `pg_temp_N` /
`pg_toast_temp_N` namespaces are not excluded), and `get_databases` keeps
precisely the rows with `datistemplate` false. -/
theorem c9_snapshot_filter (nsRows : List NsRow) (dbRows : List DbRow)
    (sch : Schema) (d : Database) :
    (sch ∈ get_schemas nsRows ↔
      ∃ r ∈ nsRows,
        ¬(r.nspname = "pg_toast" ∨ r.nspname = "pg_catalog" ∨
          r.nspname = "information_schema") ∧
        Schema.mk r.oid r.nspname [] = sch) ∧
    (d ∈ get_databases dbRows ↔
      ∃ r ∈ dbRows, r.datistemplate = false ∧
        Database.mk r.oid r.datname [] = d) := by
  constructor
  · simp [get_schemas, List.mem_map, List.mem_filter, and_assoc]
  · simp [get_databases, List.mem_map, List.mem_filter, and_assoc]

/-- C9 witness: a user schema passes the filter, a non-template database
passes the filter. -/
theorem c9_snapshot_filter_witness :
    Schema.mk 7 "public" [] ∈ get_schemas [⟨3, "pg_catalog"⟩, ⟨7, "public"⟩] ∧
    Database.mk 1 "postgres" [] ∈
      get_databases [⟨1, "postgres", false⟩, ⟨2, "template1", true⟩] := by
  constructor
  · exact ((c9_snapshot_filter [⟨3, "pg_catalog"⟩, ⟨7, "public"⟩] []
      (Schema.mk 7 "public" []) ⟨0, "", []⟩).1).mpr
      ⟨⟨7, "public"⟩, by decide, by decide, rfl⟩
  · exact ((c9_snapshot_filter [] [⟨1, "postgres", false⟩, ⟨2, "template1", true⟩]
      ⟨0, "", []⟩ (Database.mk 1 "postgres" [])).2).mpr
      ⟨⟨1, "postgres", false⟩, by decide, rfl, rfl⟩

/-- C10 (confirmed, implicit behaviour): `same_inode` compares only the
inode numbers and ignores the devices, so a destination entry on a
different device whose inode number equals the source's is judged
identical and the table step leaves it in place untouched. -/
theorem c10_inode_only (pg : Path) (oid : Nat) (schDir : Path) (t : Table)
    (fs : FS) (ns np nd : Node)
    (hs : fs.find (srcPath pg oid t) = some ns)
    (hp : fs.find schDir = some np) (hpk : np.kind = NodeKind.dir)
    (hd : fs.find (schDir ++ [t.name]) = some nd)
    (hdev : ns.dev ≠ nd.dev) (hino : ns.ino = nd.ino) :
    same_inode fs (srcPath pg oid t) (schDir ++ [t.name]) = .ok true ∧
    linkTable pg oid schDir t fs = (.ok (), fs, []) := by
  constructor
  · simp only [same_inode, hs, hd]
    simp [hino]
  · exact linkTable_noop hs hp hpk hd hino

/-- C10 witness: the concrete entry on device 9 with the source's inode
number 100 is kept. -/
theorem c10_inode_only_witness :
    fsC10.find (srcPath ["pg"] 5 ⟨"t1", 7⟩) = some ⟨NodeKind.file, 0, 100⟩ ∧
    fsC10.find ["dest", "db1", "s1", "t1"] = some ⟨NodeKind.file, 9, 100⟩ ∧
    same_inode fsC10 (srcPath ["pg"] 5 ⟨"t1", 7⟩)
      (["dest", "db1", "s1"] ++ ["t1"]) = .ok true ∧
    linkTable ["pg"] 5 ["dest", "db1", "s1"] ⟨"t1", 7⟩ fsC10 =
      (.ok (), fsC10, []) := by
  refine ⟨rfl, rfl, ?_⟩
  exact c10_inode_only ["pg"] 5 ["dest", "db1", "s1"] ⟨"t1", 7⟩ fsC10
    ⟨NodeKind.file, 0, 100⟩ ⟨NodeKind.dir, 0, 6⟩ ⟨NodeKind.file, 9, 100⟩
    rfl rfl rfl rfl (by decide) rfl

/-- C4 counterexample: a destination entry that exists but is a directory
with a different inode is not repaired — the `os.unlink` of the repair
path raises `IsADirectoryError`, which surfaces out of the table step. -/
theorem c4_counterexample :
    linkTable ["pg"] 5 ["dest", "db1", "s1"] ⟨"t1", 7⟩ fsDirDest =
      (.error (.isADirectory ["dest", "db1", "s1", "t1"]), fsDirDest, []) := by
  rfl

/-- C4 (corrected): for a destination entry that exists and is not a
directory, the claim holds — same inode: left untouched with no event;
different inode: the stale entry is unlinked and the link re-created,
with the pre-existing-path condition never surfacing as an error.  (A
directory-valued destination instead aborts the run, see the
counterexample.) -/
theorem c4_repair (pg : Path) (oid : Nat) (schDir : Path) (t : Table)
    (fs : FS) (ns np nd : Node)
    (hs : fs.find (srcPath pg oid t) = some ns) (hsk : ns.kind = NodeKind.file)
    (hp : fs.find schDir = some np) (hpk : np.kind = NodeKind.dir)
    (hdev : np.dev = ns.dev)
    (hd : fs.find (schDir ++ [t.name]) = some nd)
    (hdk : nd.kind ≠ NodeKind.dir) :
    linkTable pg oid schDir t fs =
      if ns.ino = nd.ino then (.ok (), fs, [])
      else (.ok (), (fs.del (schDir ++ [t.name])).set (schDir ++ [t.name]) ns,
        [.unlinkE (schDir ++ [t.name]),
         .linkE (srcPath pg oid t) (schDir ++ [t.name])]) := by
  by_cases hino : ns.ino = nd.ino
  · rw [if_pos hino]
    exact linkTable_noop hs hp hpk hd hino
  · rw [if_neg hino]
    exact linkTable_repair hs hsk hp hpk hdev hd hdk hino

/-- C4 witness: the stale regular-file entry (inode 77) is unlinked and
re-linked to the source (inode 100) without an error. -/
theorem c4_repair_witness :
    fsRepair.find (srcPath ["pg"] 5 ⟨"t1", 7⟩) = some ⟨NodeKind.file, 0, 100⟩ ∧
    fsRepair.find ["dest", "db1", "s1", "t1"] = some ⟨NodeKind.file, 0, 77⟩ ∧
    linkTable ["pg"] 5 ["dest", "db1", "s1"] ⟨"t1", 7⟩ fsRepair =
      (.ok (),
       (fsRepair.del ["dest", "db1", "s1", "t1"]).set
         ["dest", "db1", "s1", "t1"] ⟨NodeKind.file, 0, 100⟩,
       [.unlinkE ["dest", "db1", "s1", "t1"],
        .linkE ["pg", "base", "5", "7"] ["dest", "db1", "s1", "t1"]]) := by
  refine ⟨rfl, rfl, ?_⟩
  have h := c4_repair ["pg"] 5 ["dest", "db1", "s1"] ⟨"t1", 7⟩ fsRepair
    ⟨NodeKind.file, 0, 100⟩ ⟨NodeKind.dir, 0, 6⟩ ⟨NodeKind.file, 0, 77⟩
    rfl rfl rfl rfl rfl rfl (by decide)
  rw [if_neg (by decide)] at h
  exact h

/-- C8 counterexample: with the pg data directory on device 1 and the
destination on device 0 the run performs no volume verification — it
aborts with the raw `EXDEV` cross-device error from `os.link`, surfaced
as an IOFailure. -/
theorem c8_counterexample :
    (write_tree ["pg"] ["dest"] dbsDemo false fsXdev).1 =
      .error (.io (.crossDevice ["pg", "base", "5", "7"]
        ["dest", "db1", "s1", "t1"])) := by
  rfl

/-- C8 (corrected): no volume check precedes link creation — when the
schema directory and the source file live on different devices and the
destination is free, the table step fails directly with the raw
cross-device filesystem error. -/
theorem c8_no_volume_check (pg : Path) (oid : Nat) (schDir : Path)
    (t : Table) (fs : FS) (ns np : Node)
    (hs : fs.find (srcPath pg oid t) = some ns)
    (hp : fs.find schDir = some np) (hpk : np.kind = NodeKind.dir)
    (hd : fs.find (schDir ++ [t.name]) = none)
    (hdev : np.dev ≠ ns.dev) :
    linkTable pg oid schDir t fs =
      (.error (.crossDevice (srcPath pg oid t) (schDir ++ [t.name])),
       fs, []) := by
  have hp' : fs.find (schDir ++ [t.name]).dropLast = some np := by
    rwa [List.dropLast_concat]
  rw [linkTable, os_link_crossdev hs hp' hpk hd hdev]

/-- C8 witness: the concrete cross-device table step fails with the raw
error. -/
theorem c8_no_volume_check_witness :
    fsXdevLink.find (srcPath ["pg"] 5 ⟨"t1", 7⟩) =
      some ⟨NodeKind.file, 1, 100⟩ ∧
    fsXdevLink.find ["dest", "db1", "s1"] = some ⟨NodeKind.dir, 0, 6⟩ ∧
    linkTable ["pg"] 5 ["dest", "db1", "s1"] ⟨"t1", 7⟩ fsXdevLink =
      (.error (.crossDevice ["pg", "base", "5", "7"]
        ["dest", "db1", "s1", "t1"]), fsXdevLink, []) := by
  refine ⟨rfl, rfl, ?_⟩
  exact c8_no_volume_check ["pg"] 5 ["dest", "db1", "s1"] ⟨"t1", 7⟩ fsXdevLink
    ⟨NodeKind.file, 1, 100⟩ ⟨NodeKind.dir, 0, 6⟩ rfl rfl rfl rfl (by decide)

/-- C1 (confirmed): after a successful `_write_tree` run on a managed root
(destination directory with the sentinel file, sibling names unique,
source files outside the destination subtree), the top-level directory
names are exactly the snapshot's database names, the entries of each
database directory are exactly its schema names, the entries of each
schema directory are exactly its table names, and every table entry
shares its inode number with the resolved source file
`pgroot/base/<db.oid>/<t.relfilenode>`, which is untouched. -/
theorem c1_convergence (pg D : Path) (dbs : List Database) (fs fs₂ : FS)
    (tr : List Ev)
    (hroot : ∃ n, fs.find D = some n ∧ n.kind = NodeKind.dir)
    (hdot : ∃ n, fs.find (D ++ [".pgfs"]) = some n ∧ n.kind = NodeKind.file)
    (hsrc : ∀ db ∈ dbs, ∀ sch ∈ db.schemas, ∀ t ∈ sch.tables,
      isUnder D (srcPath pg db.oid t) = false)
    (hndD : (dbs.map Database.name).Nodup)
    (hndS : ∀ db ∈ dbs, (db.schemas.map Schema.name).Nodup)
    (hndT : ∀ db ∈ dbs, ∀ sch ∈ db.schemas, (sch.tables.map Table.name).Nodup)
    (h : _write_tree pg D dbs fs = (.ok (), fs₂, tr)) :
    (∀ s, fs₂.isdir (D ++ [s]) = true ↔ ∃ db ∈ dbs, db.name = s) ∧
    (∀ db ∈ dbs, ∀ u, u ∈ fs₂.childNames (D ++ [db.name]) ↔
      ∃ sch ∈ db.schemas, sch.name = u) ∧
    (∀ db ∈ dbs, ∀ sch ∈ db.schemas, ∀ v,
      v ∈ fs₂.childNames ((D ++ [db.name]) ++ [sch.name]) ↔
      ∃ t ∈ sch.tables, t.name = v) ∧
    (∀ db ∈ dbs, ∀ sch ∈ db.schemas, ∀ t ∈ sch.tables,
      ∃ ns, fs.find (srcPath pg db.oid t) = some ns ∧
        fs₂.find (srcPath pg db.oid t) = some ns ∧
        ∃ nd, fs₂.find (((D ++ [db.name]) ++ [sch.name]) ++ [t.name])
            = some nd ∧ nd.ino = ns.ino) := by
  obtain ⟨A, hDeq, hdot2, C, Cdir, Dc, Ddir, E, F⟩ :=
    writeTreeInner_converged hroot hdot hsrc hndD hndS hndT h
  obtain ⟨nf, hnf, hnfk⟩ := hdot
  refine ⟨?_, ?_, ?_, F⟩
  · intro s
    constructor
    · intro hdir
      obtain ⟨n, hn, hk⟩ := (isdir_eq_true_iff fs₂ (D ++ [s])).mp hdir
      rcases (C s).mp (by rw [hn]; rfl) with hc | hc
      · exact hc
      · exfalso
        subst hc
        rw [hdot2, hnf] at hn
        injection hn with hn1
        rw [hn1] at hnfk
        rw [hk] at hnfk
        cases hnfk
    · rintro ⟨db, hdb, rfl⟩
      obtain ⟨n, hn, hk⟩ := Cdir db hdb
      exact (isdir_eq_true_iff fs₂ (D ++ [db.name])).mpr ⟨n, hn, hk⟩
  · intro db hdb u
    rw [mem_childNames]
    exact Dc db hdb u
  · intro db hdb sch hs v
    rw [mem_childNames]
    exact E db hdb sch hs v

/-- C1 witness: the demo snapshot converges on the bootstrapped root. -/
theorem c1_convergence_witness :
    _write_tree ["pg"] ["dest"] dbsDemo fsDemo = (.ok (), fs2Demo, trDemo) ∧
    ((∀ s, fs2Demo.isdir (["dest"] ++ [s]) = true ↔
        ∃ db ∈ dbsDemo, db.name = s) ∧
     (∀ db ∈ dbsDemo, ∀ u, u ∈ fs2Demo.childNames (["dest"] ++ [db.name]) ↔
        ∃ sch ∈ db.schemas, sch.name = u) ∧
     (∀ db ∈ dbsDemo, ∀ sch ∈ db.schemas, ∀ v,
        v ∈ fs2Demo.childNames ((["dest"] ++ [db.name]) ++ [sch.name]) ↔
        ∃ t ∈ sch.tables, t.name = v) ∧
     (∀ db ∈ dbsDemo, ∀ sch ∈ db.schemas, ∀ t ∈ sch.tables,
        ∃ ns, fsDemo.find (srcPath ["pg"] db.oid t) = some ns ∧
          fs2Demo.find (srcPath ["pg"] db.oid t) = some ns ∧
          ∃ nd, fs2Demo.find (((["dest"] ++ [db.name]) ++ [sch.name]) ++ [t.name])
              = some nd ∧ nd.ino = ns.ino)) := by
  refine ⟨rfl, ?_⟩
  exact c1_convergence ["pg"] ["dest"] dbsDemo fsDemo fs2Demo trDemo
    ⟨⟨NodeKind.dir, 0, 4⟩, rfl, rfl⟩ ⟨⟨NodeKind.file, 0, 50⟩, rfl, rfl⟩
    (by decide) (by decide) (by decide) (by decide) rfl

/-- C2 (confirmed): running the synchronizer a second time on the state a
successful run produced succeeds, changes nothing and emits an empty
event trace — zero filesystem mutations on the second run. -/
theorem c2_idempotence (pg D : Path) (dbs : List Database) (fs fs₂ : FS)
    (tr : List Ev)
    (hroot : ∃ n, fs.find D = some n ∧ n.kind = NodeKind.dir)
    (hdot : ∃ n, fs.find (D ++ [".pgfs"]) = some n ∧ n.kind = NodeKind.file)
    (hsrc : ∀ db ∈ dbs, ∀ sch ∈ db.schemas, ∀ t ∈ sch.tables,
      isUnder D (srcPath pg db.oid t) = false)
    (hndD : (dbs.map Database.name).Nodup)
    (hndS : ∀ db ∈ dbs, (db.schemas.map Schema.name).Nodup)
    (hndT : ∀ db ∈ dbs, ∀ sch ∈ db.schemas, (sch.tables.map Table.name).Nodup)
    (h : _write_tree pg D dbs fs = (.ok (), fs₂, tr)) :
    _write_tree pg D dbs fs₂ = (.ok (), fs₂, []) :=
  writeTreeInner_idem hroot hdot hsrc hndD hndS hndT h

/-- C2 witness: re-running the demo run is a no-op. -/
theorem c2_idempotence_witness :
    _write_tree ["pg"] ["dest"] dbsDemo fsDemo = (.ok (), fs2Demo, trDemo) ∧
    _write_tree ["pg"] ["dest"] dbsDemo fs2Demo = (.ok (), fs2Demo, []) := by
  refine ⟨rfl, ?_⟩
  exact c2_idempotence ["pg"] ["dest"] dbsDemo fsDemo fs2Demo trDemo
    ⟨⟨NodeKind.dir, 0, 4⟩, rfl, rfl⟩ ⟨⟨NodeKind.file, 0, 50⟩, rfl, rfl⟩
    (by decide) (by decide) (by decide) (by decide) rfl

/-- C6 (confirmed): on a managed root whose lock is already held by
another process, the run fails immediately with AlreadyLocked, exit code
1, leaving the filesystem untouched and emitting no event at all — the
synchronizer is never invoked. -/
theorem c6_already_locked (pg D : Path) (dbs : List Database) (fs : FS)
    (hdir : fs.isdir D = true) (hne : fs.childNames D ≠ [])
    (hdot : fs.isfile (D ++ [".pgfs"]) = true) :
    write_tree pg D dbs true fs = (.error .alreadyLocked, fs, []) ∧
    exitCode (write_tree pg D dbs true fs).1 = 1 := by
  obtain ⟨n, hn, hk⟩ := (isfile_eq_true_iff fs (D ++ [".pgfs"])).mp hdot
  have hlf : lock_file fs (D ++ [".pgfs"]) true = .error .alreadyLocked :=
    lock_file_held hn (by rw [hk]; intro hc; cases hc)
  have hg : fs.isdir D = true ∧ fs.childNames D ≠ [] := ⟨hdir, hne⟩
  have h1 : write_tree pg D dbs true fs = (.error .alreadyLocked, fs, []) := by
    simp only [write_tree, if_pos hg, if_pos hdot]
    exact lockAndSync_lock_failed hlf
  refine ⟨h1, ?_⟩
  rw [h1]
  rfl

/-- C6 witness: a concurrent run against the managed demo root exits with
AlreadyLocked and mutates nothing. -/
theorem c6_already_locked_witness :
    fsDemo.isdir ["dest"] = true ∧
    fsDemo.childNames ["dest"] = [".pgfs"] ∧
    fsDemo.isfile ["dest", ".pgfs"] = true ∧
    write_tree ["pg"] ["dest"] dbsDemo true fsDemo =
      (.error .alreadyLocked, fsDemo, []) ∧
    exitCode (write_tree ["pg"] ["dest"] dbsDemo true fsDemo).1 = 1 := by
  refine ⟨rfl, rfl, rfl, ?_⟩
  exact c6_already_locked ["pg"] ["dest"] dbsDemo fsDemo rfl (by decide) rfl

/-- C3 (confirmed): the root guard of `write_tree` — a destination that
exists as a non-empty directory without the top-level `.pgfs` sentinel
file aborts with UnsafeRoot, exit code 1, unchanged filesystem and empty
trace; an existing empty destination directory gets the sentinel created
inside it and proceeds into the locked run; a missing destination (with an
existing parent directory) gets the root directory and the sentinel
created and proceeds into the locked run. -/
theorem c3_root_guard (pg D : Path) (dbs : List Database) (lockHeld : Bool)
    (fs : FS) :
    (fs.isdir D = true → fs.childNames D ≠ [] →
      fs.isfile (D ++ [".pgfs"]) = false →
      write_tree pg D dbs lockHeld fs = (.error .unsafeRoot, fs, []) ∧
      exitCode (write_tree pg D dbs lockHeld fs).1 = 1) ∧
    (∀ n, fs.find D = some n → n.kind = NodeKind.dir → fs.childNames D = [] →
      write_tree pg D dbs lockHeld fs =
        ((lockAndSync pg D dbs lockHeld
            (fs.addFresh (D ++ [".pgfs"]) NodeKind.file n.dev)).1,
         (lockAndSync pg D dbs lockHeld
            (fs.addFresh (D ++ [".pgfs"]) NodeKind.file n.dev)).2.1,
         Ev.touchE (D ++ [".pgfs"]) ::
           (lockAndSync pg D dbs lockHeld
              (fs.addFresh (D ++ [".pgfs"]) NodeKind.file n.dev)).2.2) ∧
      (fs.addFresh (D ++ [".pgfs"]) NodeKind.file n.dev).isdir D = true ∧
      (fs.addFresh (D ++ [".pgfs"]) NodeKind.file n.dev).isfile
        (D ++ [".pgfs"]) = true) ∧
    (∀ np, fs.find D = none → D ≠ [] → fs.find D.dropLast = some np →
      np.kind = NodeKind.dir → fs.find (D ++ [".pgfs"]) = none →
      write_tree pg D dbs lockHeld fs =
        ((lockAndSync pg D dbs lockHeld
            ((fs.addFresh D NodeKind.dir np.dev).addFresh
              (D ++ [".pgfs"]) NodeKind.file np.dev)).1,
         (lockAndSync pg D dbs lockHeld
            ((fs.addFresh D NodeKind.dir np.dev).addFresh
              (D ++ [".pgfs"]) NodeKind.file np.dev)).2.1,
         Ev.mkdirE D :: Ev.touchE (D ++ [".pgfs"]) ::
           (lockAndSync pg D dbs lockHeld
              ((fs.addFresh D NodeKind.dir np.dev).addFresh
                (D ++ [".pgfs"]) NodeKind.file np.dev)).2.2) ∧
      ((fs.addFresh D NodeKind.dir np.dev).addFresh
         (D ++ [".pgfs"]) NodeKind.file np.dev).isdir D = true ∧
      ((fs.addFresh D NodeKind.dir np.dev).addFresh
         (D ++ [".pgfs"]) NodeKind.file np.dev).isfile
        (D ++ [".pgfs"]) = true) := by
  have hdotD : (D ++ [".pgfs"]) ≠ D := by
    intro he
    have := congrArg List.length he
    simp at this
  refine ⟨?_, ?_, ?_⟩
  · intro hdir hne hfile
    have hg : fs.isdir D = true ∧ fs.childNames D ≠ [] := ⟨hdir, hne⟩
    have h1 : write_tree pg D dbs lockHeld fs =
        (.error .unsafeRoot, fs, []) := by
      simp only [write_tree, if_pos hg, hfile]
      rw [if_neg (by intro hc; cases hc)]
    refine ⟨h1, ?_⟩
    rw [h1]
    rfl
  · intro n hn hk hchild
    have hg : ¬(fs.isdir D = true ∧ fs.childNames D ≠ []) :=
      fun hc => hc.2 hchild
    have hdotn : fs.find (D ++ [".pgfs"]) = none := by
      rcases hdp : fs.find (D ++ [".pgfs"]) with _ | m
      · rfl
      · exfalso
        have hm : ".pgfs" ∈ fs.childNames D :=
          (mem_childNames fs D ".pgfs").mpr (by rw [hdp]; rfl)
        rw [hchild] at hm
        exact absurd hm (List.not_mem_nil _)
    have htc : touch fs (D ++ [".pgfs"]) true =
        (.ok (), fs.addFresh (D ++ [".pgfs"]) NodeKind.file n.dev,
         [.touchE (D ++ [".pgfs"])]) :=
      touch_create true hdotn (by rwa [List.dropLast_concat]) hk
    refine ⟨?_, ?_, ?_⟩
    · simp only [write_tree, if_neg hg]
      rw [os_makedirs_dir hn hk]
      dsimp only
      rw [htc]
      dsimp only
      rcases hls : lockAndSync pg D dbs lockHeld
          (fs.addFresh (D ++ [".pgfs"]) NodeKind.file n.dev) with ⟨r3, fs3, tr3⟩
      rfl
    · rw [isdir_eq_true_iff]
      refine ⟨n, ?_, hk⟩
      rw [find_addFresh, if_neg hdotD]
      exact hn
    · rw [isfile_eq_true_iff]
      exact ⟨⟨NodeKind.file, n.dev, fs.nextIno⟩,
        by rw [find_addFresh, if_pos rfl], rfl⟩
  · intro np hn hD hp hk hdotn
    have hg : ¬(fs.isdir D = true ∧ fs.childNames D ≠ []) := by
      intro hc
      rw [isdir_of_none hn] at hc
      cases hc.1
    have hmk : os_makedirs fs D =
        (.ok (), fs.addFresh D NodeKind.dir np.dev, [.mkdirE D]) :=
      os_makedirs_create hD hn hp hk
    have hdotn1 : (fs.addFresh D NodeKind.dir np.dev).find (D ++ [".pgfs"])
        = none := by
      rw [find_addFresh, if_neg (fun he => hdotD he.symm)]
      exact hdotn
    have hD1 : (fs.addFresh D NodeKind.dir np.dev).find
        (D ++ [".pgfs"]).dropLast = some ⟨NodeKind.dir, np.dev, fs.nextIno⟩ := by
      rw [List.dropLast_concat, find_addFresh, if_pos rfl]
    have htc0 := touch_create true hdotn1 hD1 rfl
    have htc : touch (fs.addFresh D NodeKind.dir np.dev) (D ++ [".pgfs"]) true =
        (.ok (), (fs.addFresh D NodeKind.dir np.dev).addFresh
           (D ++ [".pgfs"]) NodeKind.file np.dev,
         [.touchE (D ++ [".pgfs"])]) := htc0
    refine ⟨?_, ?_, ?_⟩
    · simp only [write_tree, if_neg hg]
      rw [hmk]
      dsimp only
      rw [htc]
      dsimp only
      rcases hls : lockAndSync pg D dbs lockHeld
          ((fs.addFresh D NodeKind.dir np.dev).addFresh
            (D ++ [".pgfs"]) NodeKind.file np.dev) with ⟨r3, fs3, tr3⟩
      rfl
    · rw [isdir_eq_true_iff]
      refine ⟨⟨NodeKind.dir, np.dev, fs.nextIno⟩, ?_, rfl⟩
      rw [find_addFresh, if_neg hdotD, find_addFresh, if_pos rfl]
    · rw [isfile_eq_true_iff]
      exact ⟨⟨NodeKind.file, np.dev,
        (fs.addFresh D NodeKind.dir np.dev).nextIno⟩,
        by rw [find_addFresh, if_pos rfl], rfl⟩

/-- C3 witness: the non-empty unmanaged root is refused; the missing root
is bootstrapped with directory and sentinel and the run proceeds. -/
theorem c3_root_guard_witness :
    (write_tree ["pg"] ["dest"] dbsDemo false fsUnsafe =
      (.error .unsafeRoot, fsUnsafe, []) ∧
     exitCode (write_tree ["pg"] ["dest"] dbsDemo false fsUnsafe).1 = 1) ∧
    (write_tree ["pg"] ["dest"] dbsDemo false fsBoot =
      ((lockAndSync ["pg"] ["dest"] dbsDemo false
          ((fsBoot.addFresh ["dest"] NodeKind.dir 0).addFresh
            (["dest"] ++ [".pgfs"]) NodeKind.file 0)).1,
       (lockAndSync ["pg"] ["dest"] dbsDemo false
          ((fsBoot.addFresh ["dest"] NodeKind.dir 0).addFresh
            (["dest"] ++ [".pgfs"]) NodeKind.file 0)).2.1,
       Ev.mkdirE ["dest"] :: Ev.touchE (["dest"] ++ [".pgfs"]) ::
         (lockAndSync ["pg"] ["dest"] dbsDemo false
            ((fsBoot.addFresh ["dest"] NodeKind.dir 0).addFresh
              (["dest"] ++ [".pgfs"]) NodeKind.file 0)).2.2) ∧
     ((fsBoot.addFresh ["dest"] NodeKind.dir 0).addFresh
        (["dest"] ++ [".pgfs"]) NodeKind.file 0).isdir ["dest"] = true ∧
     ((fsBoot.addFresh ["dest"] NodeKind.dir 0).addFresh
        (["dest"] ++ [".pgfs"]) NodeKind.file 0).isfile
       (["dest"] ++ [".pgfs"]) = true) := by
  constructor
  · exact (c3_root_guard ["pg"] ["dest"] dbsDemo false fsUnsafe).1
      rfl (by decide) rfl
  · exact (c3_root_guard ["pg"] ["dest"] dbsDemo false fsBoot).2.2
      ⟨NodeKind.dir, 0, 0⟩ rfl (by decide) rfl rfl rfl

/-- C7 counterexample: on a missing destination root the run creates the
root directory and the sentinel file — two filesystem mutations — before
the lock is ever acquired, so the lock is not acquired before every
mutation under the destination root. -/
theorem c7_counterexample :
    (write_tree ["pg"] ["dest"] dbsDemo false fsBoot).2.2.takeWhile
        (fun e => !e.isLock) =
      [Ev.mkdirE ["dest"], Ev.touchE ["dest", ".pgfs"]] ∧
    (Ev.mkdirE ["dest"]).isMut = true ∧
    (Ev.touchE ["dest", ".pgfs"]).isMut = true := by
  exact ⟨rfl, rfl, rfl⟩

/-- C7 (corrected): the only mutations that can precede the lock
acquisition are the bootstrap creations of the root directory and of the
sentinel file (`mkdir`/`touch` events); every other mutation happens with
the lock held, and whenever the lock was acquired the run's last event is
its release. -/
theorem c7_lock_window (pg D : Path) (dbs : List Database) (lockHeld : Bool)
    (fs : FS) (r : Except RunErr Unit) (fs' : FS) (tr : List Ev)
    (h : write_tree pg D dbs lockHeld fs = (r, fs', tr)) :
    (tr.takeWhile (fun e => !e.isLock)).all Ev.isMkdirOrTouch = true ∧
    (tr.any Ev.isLock = true →
      ∃ tr₁, tr = tr₁ ++ [Ev.unlockE (D ++ [".pgfs"])]) := by
  simp only [write_tree] at h
  by_cases hg : fs.isdir D = true ∧ fs.childNames D ≠ []
  · rw [if_pos hg] at h
    by_cases hdot : fs.isfile (D ++ [".pgfs"]) = true
    · rw [if_pos hdot] at h
      have htr : tr = [] ++ (lockAndSync pg D dbs lockHeld fs).2.2 := by
        rw [h]
        rfl
      rw [htr]
      exact preLockTrace_append pg D dbs lockHeld fs []
        (fun e he => absurd he (List.not_mem_nil e))
    · rw [if_neg hdot] at h
      have htr : tr = [] := (congrArg (fun x => x.2.2) h).symm
      rw [htr]
      exact preOnlyTrace D [] (fun e he => absurd he (List.not_mem_nil e))
  · rw [if_neg hg] at h
    rcases hmk : os_makedirs fs D with ⟨r1, fs₁, tr₁⟩
    rw [hmk] at h
    have htr₁ : ∀ e ∈ tr₁, e.isMkdirOrTouch = true := by
      intro e he
      obtain ⟨q, hq⟩ := os_makedirs_trace fs D e (by rw [hmk]; exact he)
      rw [hq]
      rfl
    cases r1 with
    | error e1 =>
      dsimp only at h
      have htr : tr = tr₁ := (congrArg (fun x => x.2.2) h).symm
      rw [htr]
      exact preOnlyTrace D tr₁ htr₁
    | ok u1 =>
      cases u1
      dsimp only at h
      rcases htc : touch fs₁ (D ++ [".pgfs"]) true with ⟨r2, fs₂, tr₂⟩
      rw [htc] at h
      have htr₂ : ∀ e ∈ tr₂, e.isMkdirOrTouch = true := by
        intro e he
        rw [touch_trace fs₁ (D ++ [".pgfs"]) true e (by rw [htc]; exact he)]
        rfl
      have htr₁₂ : ∀ e ∈ tr₁ ++ tr₂, e.isMkdirOrTouch = true := by
        intro e he
        rcases List.mem_append.mp he with h1 | h2
        · exact htr₁ e h1
        · exact htr₂ e h2
      cases r2 with
      | error e2 =>
        dsimp only at h
        have htr : tr = tr₁ ++ tr₂ := (congrArg (fun x => x.2.2) h).symm
        rw [htr]
        exact preOnlyTrace D (tr₁ ++ tr₂) htr₁₂
      | ok u2 =>
        cases u2
        dsimp only at h
        have htr : tr = (tr₁ ++ tr₂) ++ (lockAndSync pg D dbs lockHeld fs₂).2.2 := by
          have h3 := (congrArg (fun x => x.2.2) h).symm
          dsimp only at h3
          rw [h3, List.append_assoc]
        rw [htr]
        exact preLockTrace_append pg D dbs lockHeld fs₂ (tr₁ ++ tr₂) htr₁₂

/-- C7 witness: the run on the already-managed demo root takes the lock
first (nothing precedes it) and releases it last. -/
theorem c7_lock_window_witness :
    write_tree ["pg"] ["dest"] dbsDemo false fsDemo =
      ((Except.ok () : Except RunErr Unit), fs2Demo,
       Ev.lockE (["dest"] ++ [".pgfs"]) ::
         trDemo ++ [Ev.unlockE (["dest"] ++ [".pgfs"])]) ∧
    (((Ev.lockE (["dest"] ++ [".pgfs"]) ::
        trDemo ++ [Ev.unlockE (["dest"] ++ [".pgfs"])]).takeWhile
          (fun e => !e.isLock)).all Ev.isMkdirOrTouch = true ∧
     ((Ev.lockE (["dest"] ++ [".pgfs"]) ::
        trDemo ++ [Ev.unlockE (["dest"] ++ [".pgfs"])]).any Ev.isLock = true →
       ∃ tr₁, (Ev.lockE (["dest"] ++ [".pgfs"]) ::
          trDemo ++ [Ev.unlockE (["dest"] ++ [".pgfs"])]) =
         tr₁ ++ [Ev.unlockE (["dest"] ++ [".pgfs"])])) := by
  refine ⟨rfl, ?_⟩
  exact c7_lock_window ["pg"] ["dest"] dbsDemo false fsDemo
    (Except.ok ()) fs2Demo
    (Ev.lockE (["dest"] ++ [".pgfs"]) ::
      trDemo ++ [Ev.unlockE (["dest"] ++ [".pgfs"])]) rfl

/-- C5 (confirmed): a successful pruning pass deletes exactly the entries
not named in the snapshot — a listed top-level entry other than the
sentinel whose name is no database name disappears with its entire
subtree; under a retained database a listed entry whose name is no schema
name disappears with its entire subtree; under a retained schema a listed
entry whose name is no table name disappears; while the sentinel, the
retained database directories, the retained schema directories and the
retained table entries are all left exactly as they were. -/
theorem c5_pruning (dbs : List Database) (D : Path) (fs fs' : FS)
    (tr : List Ev)
    (hrun : pruneTop dbs D fs = (.ok (), fs', tr))
    (hndD : (dbs.map Database.name).Nodup)
    (hndS : ∀ db ∈ dbs, (db.schemas.map Schema.name).Nodup)
    (hndT : ∀ db ∈ dbs, ∀ sch ∈ db.schemas,
      (sch.tables.map Table.name).Nodup) :
    (∀ s, s ≠ ".pgfs" → (∀ db ∈ dbs, db.name ≠ s) →
      (fs.find (D ++ [s])).isSome = true →
      ∀ q, isUnder (D ++ [s]) q = true → fs'.find q = none) ∧
    (fs'.find (D ++ [".pgfs"]) = fs.find (D ++ [".pgfs"])) ∧
    (∀ db ∈ dbs, fs'.find (D ++ [db.name]) = fs.find (D ++ [db.name])) ∧
    (∀ db ∈ dbs, db.name ≠ ".pgfs" →
      (fs.find (D ++ [db.name])).isSome = true →
      ∀ u, (∀ sch ∈ db.schemas, sch.name ≠ u) →
        (fs.find ((D ++ [db.name]) ++ [u])).isSome = true →
        ∀ q, isUnder ((D ++ [db.name]) ++ [u]) q = true →
          fs'.find q = none) ∧
    (∀ db ∈ dbs, ∀ sch ∈ db.schemas,
      fs'.find ((D ++ [db.name]) ++ [sch.name]) =
        fs.find ((D ++ [db.name]) ++ [sch.name])) ∧
    (∀ db ∈ dbs, db.name ≠ ".pgfs" →
      (fs.find (D ++ [db.name])).isSome = true →
      ∀ sch ∈ db.schemas,
        (fs.find ((D ++ [db.name]) ++ [sch.name])).isSome = true →
        ∀ v, (∀ t ∈ sch.tables, t.name ≠ v) →
          fs'.find (((D ++ [db.name]) ++ [sch.name]) ++ [v]) = none) ∧
    (∀ db ∈ dbs, ∀ sch ∈ db.schemas, ∀ t ∈ sch.tables,
      fs'.find (((D ++ [db.name]) ++ [sch.name]) ++ [t.name]) =
        fs.find (((D ++ [db.name]) ++ [sch.name]) ++ [t.name])) := by
  have P := (pruneTop_ok_char hrun).2
  refine ⟨?_, ?_, ?_, ?_, ?_, ?_, ?_⟩
  · -- stale top-level entries vanish with their subtree
    intro s hs hnam hsome q hq
    obtain ⟨r, hr⟩ := (isUnder_iff (D ++ [s]) q).mp hq
    have hsp : stripPre D q = some (s :: r) := by
      rw [stripPre_eq_some, hr, List.append_assoc]
      rfl
    have hdl : dictLast Database.name dbs s = none :=
      (dictLast_eq_none_iff Database.name dbs s).mpr hnam
    have hdoom : doomed fs dbs D q = true := by
      simp only [doomed, hsp]
      rw [if_neg hs, hdl, hsome]
      rfl
    rw [P q, hdoom]
    rfl
  · -- the sentinel is preserved
    have hsp : stripPre D (D ++ [".pgfs"]) = some [".pgfs"] :=
      (stripPre_eq_some D (D ++ [".pgfs"]) [".pgfs"]).mpr rfl
    have hdoom : doomed fs dbs D (D ++ [".pgfs"]) = false := by
      simp only [doomed, hsp]
      simp
    rw [P (D ++ [".pgfs"]), hdoom]
    rfl
  · -- retained database directories are preserved
    intro db hdb
    have hsp : stripPre D (D ++ [db.name]) = some [db.name] :=
      (stripPre_eq_some D (D ++ [db.name]) [db.name]).mpr rfl
    have hdoom : doomed fs dbs D (D ++ [db.name]) = false := by
      by_cases hn : db.name = ".pgfs"
      · simp only [doomed, hsp]
        rw [if_pos hn]
      · have hdldb : dictLast Database.name dbs db.name = some db :=
          dictLast_of_mem_nodup Database.name dbs db hdb hndD
        simp only [doomed, hsp]
        rw [if_neg hn, hdldb]
        simp only [dbEntryDoom, Bool.and_false]
    rw [P (D ++ [db.name]), hdoom]
    rfl
  · -- stale entries under a retained database vanish with their subtree
    intro db hdb hn hg1 u hnam hg2 q hq
    obtain ⟨r, hr⟩ := (isUnder_iff ((D ++ [db.name]) ++ [u]) q).mp hq
    have hsp : stripPre D q = some (db.name :: u :: r) := by
      rw [stripPre_eq_some, hr, List.append_assoc, List.append_assoc]
      rfl
    have hdldb : dictLast Database.name dbs db.name = some db :=
      dictLast_of_mem_nodup Database.name dbs db hdb hndD
    have hdlu : dictLast Schema.name db.schemas u = none :=
      (dictLast_eq_none_iff Schema.name db.schemas u).mpr hnam
    have hdoom : doomed fs dbs D q = true := by
      simp only [doomed, hsp]
      rw [if_neg hn, hdldb]
      simp only [dbEntryDoom]
      rw [hdlu, hg1, hg2]
      rfl
    rw [P q, hdoom]
    rfl
  · -- retained schema directories are preserved
    intro db hdb sch hsch
    have hsp : stripPre D ((D ++ [db.name]) ++ [sch.name]) =
        some [db.name, sch.name] := by
      rw [stripPre_eq_some, List.append_assoc]
      rfl
    have hdoom : doomed fs dbs D ((D ++ [db.name]) ++ [sch.name]) = false := by
      by_cases hn : db.name = ".pgfs"
      · simp only [doomed, hsp]
        rw [if_pos hn]
      · have hdldb : dictLast Database.name dbs db.name = some db :=
          dictLast_of_mem_nodup Database.name dbs db hdb hndD
        have hdls : dictLast Schema.name db.schemas sch.name = some sch :=
          dictLast_of_mem_nodup Schema.name db.schemas sch hsch (hndS db hdb)
        simp only [doomed, hsp]
        rw [if_neg hn, hdldb]
        simp only [dbEntryDoom]
        rw [hdls]
        simp only [Bool.and_false]
    rw [P ((D ++ [db.name]) ++ [sch.name]), hdoom]
    rfl
  · -- stale entries under a retained schema vanish
    intro db hdb hn hg1 sch hsch hg2 v hnam
    have hsp : stripPre D (((D ++ [db.name]) ++ [sch.name]) ++ [v]) =
        some [db.name, sch.name, v] := by
      rw [stripPre_eq_some, List.append_assoc, List.append_assoc]
      rfl
    have hdldb : dictLast Database.name dbs db.name = some db :=
      dictLast_of_mem_nodup Database.name dbs db hdb hndD
    have hdls : dictLast Schema.name db.schemas sch.name = some sch :=
      dictLast_of_mem_nodup Schema.name db.schemas sch hsch (hndS db hdb)
    have hdlv : dictLast Table.name sch.tables v = none :=
      (dictLast_eq_none_iff Table.name sch.tables v).mpr hnam
    rcases hfq : fs.find (((D ++ [db.name]) ++ [sch.name]) ++ [v]) with _ | m
    · have hdoom : doomed fs dbs D (((D ++ [db.name]) ++ [sch.name]) ++ [v])
          = false := by
        simp only [doomed, hsp]
        rw [if_neg hn, hdldb]
        simp only [dbEntryDoom]
        rw [hdls]
        dsimp only
        rw [hfq]
        simp
      rw [P (((D ++ [db.name]) ++ [sch.name]) ++ [v]), hdoom, hfq]
      rfl
    · have hdoom : doomed fs dbs D (((D ++ [db.name]) ++ [sch.name]) ++ [v])
          = true := by
        simp only [doomed, hsp]
        rw [if_neg hn, hdldb]
        simp only [dbEntryDoom]
        rw [hdls]
        dsimp only
        rw [hdlv, hg1, hg2, hfq]
        rfl
      rw [P (((D ++ [db.name]) ++ [sch.name]) ++ [v]), hdoom]
      rfl
  · -- retained table entries are preserved
    intro db hdb sch hsch t ht
    have hsp : stripPre D (((D ++ [db.name]) ++ [sch.name]) ++ [t.name]) =
        some [db.name, sch.name, t.name] := by
      rw [stripPre_eq_some, List.append_assoc, List.append_assoc]
      rfl
    have hdoom : doomed fs dbs D (((D ++ [db.name]) ++ [sch.name]) ++ [t.name])
        = false := by
      by_cases hn : db.name = ".pgfs"
      · simp only [doomed, hsp]
        rw [if_pos hn]
      · have hdldb : dictLast Database.name dbs db.name = some db :=
          dictLast_of_mem_nodup Database.name dbs db hdb hndD
        have hdls : dictLast Schema.name db.schemas sch.name = some sch :=
          dictLast_of_mem_nodup Schema.name db.schemas sch hsch (hndS db hdb)
        have hdlt : dictLast Table.name sch.tables t.name = some t :=
          dictLast_of_mem_nodup Table.name sch.tables t ht (hndT db hdb sch hsch)
        simp only [doomed, hsp]
        rw [if_neg hn, hdldb]
        simp only [dbEntryDoom]
        rw [hdls]
        dsimp only
        rw [hdlt]
        simp
    rw [P (((D ++ [db.name]) ++ [sch.name]) ++ [t.name]), hdoom]
    rfl

/-- C5 witness: pruning the demo tree holding a dropped database, a
dropped schema and a dropped table deletes those three and nothing
else. -/
theorem c5_pruning_witness :
    pruneTop dbsDemo ["dest"] fsPrune = (.ok (), fsPruned, trPrune) ∧
    ((∀ s, s ≠ ".pgfs" → (∀ db ∈ dbsDemo, db.name ≠ s) →
        (fsPrune.find (["dest"] ++ [s])).isSome = true →
        ∀ q, isUnder (["dest"] ++ [s]) q = true → fsPruned.find q = none) ∧
     (fsPruned.find (["dest"] ++ [".pgfs"]) =
        fsPrune.find (["dest"] ++ [".pgfs"])) ∧
     (∀ db ∈ dbsDemo, fsPruned.find (["dest"] ++ [db.name]) =
        fsPrune.find (["dest"] ++ [db.name])) ∧
     (∀ db ∈ dbsDemo, db.name ≠ ".pgfs" →
        (fsPrune.find (["dest"] ++ [db.name])).isSome = true →
        ∀ u, (∀ sch ∈ db.schemas, sch.name ≠ u) →
          (fsPrune.find ((["dest"] ++ [db.name]) ++ [u])).isSome = true →
          ∀ q, isUnder ((["dest"] ++ [db.name]) ++ [u]) q = true →
            fsPruned.find q = none) ∧
     (∀ db ∈ dbsDemo, ∀ sch ∈ db.schemas,
        fsPruned.find ((["dest"] ++ [db.name]) ++ [sch.name]) =
          fsPrune.find ((["dest"] ++ [db.name]) ++ [sch.name])) ∧
     (∀ db ∈ dbsDemo, db.name ≠ ".pgfs" →
        (fsPrune.find (["dest"] ++ [db.name])).isSome = true →
        ∀ sch ∈ db.schemas,
          (fsPrune.find ((["dest"] ++ [db.name]) ++ [sch.name])).isSome = true →
          ∀ v, (∀ t ∈ sch.tables, t.name ≠ v) →
            fsPruned.find (((["dest"] ++ [db.name]) ++ [sch.name]) ++ [v])
              = none) ∧
     (∀ db ∈ dbsDemo, ∀ sch ∈ db.schemas, ∀ t ∈ sch.tables,
        fsPruned.find (((["dest"] ++ [db.name]) ++ [sch.name]) ++ [t.name]) =
          fsPrune.find (((["dest"] ++ [db.name]) ++ [sch.name]) ++ [t.name]))) := by
  refine ⟨rfl, ?_⟩
  exact c5_pruning dbsDemo ["dest"] fsPrune fsPruned trPrune rfl
    (by decide) (by decide) (by decide)

end Pgfs
